import Mathlib

/-!
# Huffman archiver (`Compressor_OpenMP.cpp`): model and verified properties

The development embeds the compressor in Lean.  Bytes, sizes and indices are natural numbers,
`long int` frequencies are integers whose sums wrap to 64 bits, `std::string` codes are lists of
characters, pointers into the node array are indices (`none` is `NULL`), and the output file and
the per-thread byte vectors are lists of bytes.  Functions that can leave the defined behaviour of
the source (reading a node that was never written, the `default:` branch of a bit-packing switch)
return `Option`.
-/

set_option autoImplicit false

namespace Huffman

/-! ## The Huffman builder -/

/-- Node of the Huffman tree (`struct ersel`).  `left` and `right` are indices into the node
array; `number` is the frequency, `character` the byte value and `bit` the code string. -/
structure ersel where
  left : Option Nat
  right : Option Nat
  number : Int
  character : Nat
  bit : List Char
deriving DecidableEq

/-- Comparison used by the sort (`erselcompare0`): strictly smaller frequency. -/
def erselcompare0 (a b : ersel) : Bool :=
  decide (a.number < b.number)

/-- Value of a `long int` after an addition: the sum reduced to 64 bits, two's complement. -/
def wrapLong (x : Int) : Int :=
  (x + 2 ^ 63) % 2 ^ 64 - 2 ^ 63

/-- Leaf written for byte `i` by the extraction loop (lines 165-174). -/
def mkLeaf (number : Nat → Nat) (i : Nat) : ersel :=
  { left := none, right := none, number := (number i : Int), character := i, bit := [] }

/-- The leaves `array[0 .. array_size)` before sorting: one per byte with a non-zero count, in
byte order. -/
def extract_leaves (number : Nat → Nat) : List ersel :=
  ((List.range 256).filter (fun i => number i ≠ 0)).map (mkLeaf number)

/-- The counter `letter_count` (lines 155-159). -/
def letter_count (number : Nat → Nat) : Nat :=
  ((List.range 256).filter (fun i => number i ≠ 0)).length

/-- Contract of `sort(array, array + array_size, erselcompare0)`: the result is a rearrangement
of the input in which no later element compares smaller than an earlier one.  `std::sort` is not
stable, so the order of equal frequencies is left open. -/
def IsSortOf (input output : List ersel) : Prop :=
  output.Perm input ∧ output.Pairwise (fun a b => erselcompare0 b a = false)

/-- One admissible result of the sort, used wherever the archive is computed. -/
def sort_array (l : List ersel) : List ersel :=
  l.insertionSort (fun a b => a.number ≤ b.number)

/-- Local variables of the merge loop (line 178-180).  `array` holds the nodes written so far,
so the pointer `current` is `array.length`; the other pointers are indices. -/
structure BuildState where
  array : List ersel
  min1 : Nat
  min2 : Nat
  notleaf : Nat
  isleaf : Nat

/-- Lines 182-188: write the new internal node at `current`, mark `min1` and `min2`, advance
`current`.  The `character` of an internal node is never written nor read; it is `0` here.
Reading a node that was never written, or writing past the 512 slots, gives `none`. -/
def combine (s : BuildState) : Option BuildState :=
  match s.array[s.min1]?, s.array[s.min2]? with
  | some e1, some e2 =>
    if s.array.length < 512 then
      let node : ersel :=
        { left := some s.min1, right := some s.min2,
          number := wrapLong (e1.number + e2.number), character := 0, bit := [] }
      let a1 := s.array ++ [node]
      let a2 := a1.modify (fun e => { e with bit := ['1'] }) s.min1
      let a3 := a2.modify (fun e => { e with bit := ['0'] }) s.min2
      some { s with array := a3 }
    else none
  | _, _ => none

/-- Lines 191-202: choice of the next `min1`. -/
def select_min1 (array_size : Nat) (s : BuildState) : Option BuildState :=
  if s.isleaf ≥ array_size then
    some { s with min1 := s.notleaf, notleaf := s.notleaf + 1 }
  else
    match s.array[s.isleaf]?, s.array[s.notleaf]? with
    | some l, some nl =>
      if l.number < nl.number then
        some { s with min1 := s.isleaf, isleaf := s.isleaf + 1 }
      else
        some { s with min1 := s.notleaf, notleaf := s.notleaf + 1 }
    | _, _ => none

/-- Lines 204-218: choice of the next `min2`. -/
def select_min2 (array_size : Nat) (s : BuildState) : Option BuildState :=
  if s.isleaf ≥ array_size then
    some { s with min2 := s.notleaf, notleaf := s.notleaf + 1 }
  else if s.notleaf ≥ s.array.length then
    some { s with min2 := s.isleaf, isleaf := s.isleaf + 1 }
  else
    match s.array[s.isleaf]?, s.array[s.notleaf]? with
    | some l, some nl =>
      if l.number < nl.number then
        some { s with min2 := s.isleaf, isleaf := s.isleaf + 1 }
      else
        some { s with min2 := s.notleaf, notleaf := s.notleaf + 1 }
    | _, _ => none

/-- One iteration of the merge loop (lines 181-219). -/
def merge_step (array_size : Nat) (s : BuildState) : Option BuildState :=
  (combine s).bind fun s1 => (select_min1 array_size s1).bind (select_min2 array_size)

/-- The merge loop run for the given number of iterations. -/
def merge_loop (array_size : Nat) : Nat → BuildState → Option BuildState
  | 0, s => some s
  | k + 1, s => (merge_step array_size s).bind (merge_loop array_size k)

/-- The recursive `assign_codes` (lines 47-52) on the node array.  The first argument bounds the
recursion depth; `none` is returned when it is exhausted or a pointer leaves the written part of
the array. -/
def assign_codes : Nat → List ersel → Option Nat → List Char → Option (List ersel)
  | _, a, none, _ => some a
  | 0, _, some _, _ => none
  | fuel + 1, a, some i, code =>
    match a[i]? with
    | none => none
    | some e =>
      match assign_codes fuel (a.set i { e with bit := code }) e.left (code ++ ['1']) with
      | none => none
      | some a1 =>
        match a1[i]? with
        | none => none
        | some e1 => assign_codes fuel a1 e1.right (code ++ ['0'])

/-- Lines 178-223 on a sorted leaf array: initial pointers, `array_size - 1` iterations, root
`current - 1`, code assignment from the root.  The result is the final node array and the index
of the root.  With no leaf at all `current - 1` lies before the array: `none`. -/
def build_tree (sorted : List ersel) : Option (List ersel × Nat) :=
  let array_size := sorted.length
  let init : BuildState :=
    { array := sorted, min1 := 0, min2 := 1, notleaf := array_size, isleaf := 2 }
  match merge_loop array_size (array_size - 1) init with
  | none => none
  | some s =>
    if s.array.length = 0 then none
    else
      match assign_codes 512 s.array (some (s.array.length - 1)) [] with
      | none => none
      | some a => some (a, s.array.length - 1)

/-- The table `str_arr` filled while the code table is written (line 271): the code of every
leaf, stored under its byte value; every other entry is the empty string. -/
def fill_str_arr : List ersel → (Nat → List Char) → Nat → List Char
  | [], str_arr => str_arr
  | e :: es, str_arr => fill_str_arr es (Function.update str_arr e.character e.bit)

/-- Code table of a sorted leaf array: `str_arr` after the builder has run. -/
def code_table (sorted : List ersel) : Option (Nat → List Char) :=
  (build_tree sorted).map fun r => fill_str_arr (r.1.take sorted.length) (fun _ => [])


/-! ## Trees read off the node array -/

/-- Shape of the pointer structure below a node: every node carries its index in the array. -/
inductive HTree where
  | leaf (i : Nat)
  | node (i : Nat) (l r : HTree)
deriving DecidableEq

namespace HTree

/-- Index of the top node. -/
def root : HTree → Nat
  | leaf i => i
  | node i _ _ => i

/-- Indices of all nodes. -/
def idxs : HTree → List Nat
  | leaf i => [i]
  | node i l r => i :: (l.idxs ++ r.idxs)

/-- Indices of the leaves, left to right. -/
def leafIdxs : HTree → List Nat
  | leaf i => [i]
  | node _ l r => l.leafIdxs ++ r.leafIdxs

/-- Indices of the internal nodes. -/
def innerIdxs : HTree → List Nat
  | leaf _ => []
  | node i l r => i :: (l.innerIdxs ++ r.innerIdxs)

/-- Length of the longest path from the top node to a leaf. -/
def height : HTree → Nat
  | leaf _ => 0
  | node _ l r => max l.height r.height + 1

/-- Every leaf with the string `assign_codes` gives it when the top node receives `code`:
`'1'` is appended on the way to a left child, `'0'` on the way to a right child. -/
def leafCodes : HTree → List Char → List (Nat × List Char)
  | leaf i, code => [(i, code)]
  | node _ l r, code => l.leafCodes (code ++ ['1']) ++ r.leafCodes (code ++ ['0'])

end HTree

/-- The fields of a node that `assign_codes` and the marking of `min1`/`min2` leave alone. -/
def strip (e : ersel) : Option Nat × Option Nat × Int × Nat :=
  (e.left, e.right, e.number, e.character)

/-- The pointers stored in the array below index `t.root` spell out the tree `t`. -/
def Rep (a : List ersel) : HTree → Prop
  | .leaf i => ∃ e, a[i]? = some e ∧ e.left = none ∧ e.right = none
  | .node i l r =>
    ∃ e, a[i]? = some e ∧ e.left = some l.root ∧ e.right = some r.root ∧ Rep a l ∧ Rep a r

/-- The nodes listed in `roots` are the tops of disjoint trees that together use every written
node exactly once. -/
def IsForest (a : List ersel) (roots : List Nat) : Prop :=
  ∃ T : Nat → HTree,
    (∀ i, i < a.length → Rep a (T i) ∧ (T i).root = i) ∧
    (∀ r ∈ roots, r < a.length) ∧
    (roots.flatMap fun r => (T r).idxs).Perm (List.range a.length)

/-- Nodes still waiting in the two queues: leaves from `isleaf` on, internal nodes from
`notleaf` on. -/
def queued (array_size : Nat) (s : BuildState) : List Nat :=
  List.range' s.isleaf (array_size - s.isleaf) ++
    List.range' s.notleaf (s.array.length - s.notleaf)

/-- Invariant of the merge loop: the first `array_size` nodes are the sorted leaves, the queue
pointers are in range, and the nodes in `extra` together with the queued ones are the tops of a
forest over all written nodes. -/
structure Inv (sorted : List ersel) (extra : List Nat) (s : BuildState) : Prop where
  pre : ∀ i, i < sorted.length → (s.array[i]?).map strip = (sorted[i]?).map strip
  isleaf_le : s.isleaf ≤ sorted.length
  notleaf_ge : sorted.length ≤ s.notleaf
  notleaf_le : s.notleaf ≤ s.array.length
  size_le : sorted.length ≤ s.array.length
  forest : IsForest s.array (extra ++ queued sorted.length s)
  count : s.array.length + extra.length + (queued sorted.length s).length = 2 * sorted.length

/-- The table `str_arr` agrees with the path codes of a tree whose leaves are the entries of the
sorted leaf array, and is empty at every byte that has no leaf. -/
structure CodeFacts (sorted : List ersel) (str_arr : Nat → List Char) (t : HTree) : Prop where
  leaves : t.leafIdxs.Perm (List.range sorted.length)
  code : ∀ (i : Nat) (c : ersel), sorted[i]? = some c → (i, str_arr c.character) ∈ t.leafCodes []
  other : ∀ b, b ∉ sorted.map ersel.character → str_arr b = []

/-- Histogram used in the examples: bytes `A`, `B`, `C` with counts 3, 2, 1. -/
def hist_ABC : Nat → Nat :=
  fun b => if b = 65 then 3 else if b = 66 then 2 else if b = 67 then 1 else 0

/-- Histogram with the single byte `a`, counted three times. -/
def hist_a : Nat → Nat :=
  fun b => if b = 97 then 3 else 0

/-! ## Bit packing -/

/-- State of a bit writer: the pair `(current_byte, current_bit_count)` together with the bytes
it has emitted so far (to the output file for the header, to a thread buffer in pass 2). -/
structure BitCursor where
  current_byte : Nat
  current_bit_count : Nat
  out : List Nat
deriving DecidableEq

/-- The test `if (current_bit_count == 8)` that precedes a bit: emit the byte and reset. -/
def flush_full (c : BitCursor) : BitCursor :=
  if c.current_bit_count = 8 then
    { current_byte := 0, current_bit_count := 0, out := c.out ++ [c.current_byte] }
  else c

/-- `current_byte <<= 1; current_byte |= bit; current_bit_count++` on an `unsigned char`. -/
def shift_in (c : BitCursor) (bit : Nat) : BitCursor :=
  { c with current_byte := ((c.current_byte <<< 1) % 256) ||| bit,
           current_bit_count := c.current_bit_count + 1 }

/-- `current_byte <<= 1; current_byte |= 1; current_bit_count++`. -/
def shift_one (c : BitCursor) : BitCursor :=
  { c with current_byte := ((c.current_byte <<< 1) % 256) ||| 1,
           current_bit_count := c.current_bit_count + 1 }

/-- `current_byte <<= 1; current_bit_count++`. -/
def shift_zero (c : BitCursor) : BitCursor :=
  { c with current_byte := (c.current_byte <<< 1) % 256,
           current_bit_count := c.current_bit_count + 1 }

/-- Both overloads of `write_from_uChar` (lines 418-442): eight bits, most significant first. -/
def write_from_uChar (uChar : Nat) (c : BitCursor) : BitCursor :=
  (List.range 8).foldl (fun c i => shift_in (flush_full c) ((uChar >>> (7 - i)) &&& 1)) c

/-- The loop `while (*str_pointer)` with its `switch` (lines 280-303, 463-482, 493-512): one
bit per character of a code string.  The loop stops at a NUL character; any character other than
`'0'` and `'1'` takes the `default:` branch, which ends the program (`none`). -/
def write_code : List Char → BitCursor → Option BitCursor
  | [], c => some c
  | ch :: rest, c =>
    if ch = Char.ofNat 0 then some c
    else if ch = '1' then write_code rest (shift_one (flush_full c))
    else if ch = '0' then write_code rest (shift_zero (flush_full c))
    else none

/-- The codes of a sequence of bytes, one after the other. -/
def write_codes : List Nat → (Nat → List Char) → BitCursor → Option BitCursor
  | [], _, c => some c
  | x :: xs, str_arr, c => (write_code (str_arr x) c).bind (write_codes xs str_arr)

/-- Lines 270-304: the code table.  Each leaf stores its code in `str_arr` and writes its byte
value, the length of its code as an `unsigned char`, and the code. -/
def write_code_table : List ersel → (Nat → List Char) → BitCursor →
    Option ((Nat → List Char) × BitCursor)
  | [], str_arr, c => some (str_arr, c)
  | e :: es, str_arr, c =>
    let c1 := write_from_uChar e.character c
    let c2 := write_from_uChar (e.bit.length % 256) c1
    match write_code e.bit c2 with
    | none => none
    | some c3 => write_code_table es (Function.update str_arr e.character e.bit) c3

/-- `write_file_count` (lines 444-449). -/
def write_file_count (file_count : Nat) (c : BitCursor) : BitCursor :=
  write_from_uChar (file_count / 256 % 256) (write_from_uChar (file_count % 256) c)

/-- `write_file_size` (lines 451-456): eight bytes, most significant first. -/
def write_file_size (size : Nat) (c : BitCursor) : BitCursor :=
  (List.range 8).foldl
    (fun c i => write_from_uChar ((size >>> ((7 - i) * 8)) &&& 0xFF) c) c

/-- `write_file_name` (lines 458-484): `strlen` as one byte, then the codes of the characters. -/
def write_file_name (file_name : List Nat) (str_arr : Nat → List Char) (c : BitCursor) :
    Option BitCursor :=
  write_codes file_name str_arr (write_from_uChar (file_name.length % 256) c)

/-- `write_the_file_content` (lines 486-514): the codes of the `size` bytes read from the
file. -/
def write_the_file_content (content : List Nat) (str_arr : Nat → List Char) (c : BitCursor) :
    Option BitCursor :=
  write_codes content str_arr c

/-! ## Files and folders -/

/-- A directory entry as `readdir` reports it: a regular file with its bytes, or a directory
with its own entries, in enumeration order. -/
inductive Entry where
  | file (d_name : List Nat) (content : List Nat)
  | folder (d_name : List Nat) (entries : List Entry)

/-- The entries `.` and `..`, which both directory loops skip. -/
def is_dot (d_name : List Nat) : Bool :=
  d_name == [46] || d_name == [46, 46]

/-- Name of a directory entry. -/
def Entry.d_name : Entry → List Nat
  | .file n _ => n
  | .folder n _ => n

/-- Number of entries counted by the first `readdir` loop of `write_the_folder`. -/
def count_entries (entries : List Entry) : Nat :=
  (entries.filter fun e => !is_dot e.d_name).length

mutual
/-- Body of the second `readdir` loop of `write_the_folder` (lines 538-569) for one entry. -/
def write_entry : Entry → (Nat → List Char) → BitCursor → Option BitCursor
  | .file d_name content, str_arr, c =>
    if is_dot d_name then some c
    else
      (write_file_name d_name str_arr (write_file_size content.length (shift_one c))).bind
        (write_the_file_content content str_arr)
  | .folder d_name entries, str_arr, c =>
    if is_dot d_name then some c
    else
      (write_file_name d_name str_arr (shift_zero c)).bind fun c1 =>
        write_entries entries str_arr
          (write_from_uChar (count_entries entries / 256 % 256)
            (write_from_uChar (count_entries entries % 256) c1))
/-- The second `readdir` loop of `write_the_folder` over the entries that remain. -/
def write_entries : List Entry → (Nat → List Char) → BitCursor → Option BitCursor
  | [], _, c => some c
  | e :: es, str_arr, c => (write_entry e str_arr c).bind (write_entries es str_arr)
end

/-- `write_the_folder` (lines 516-571): the number of entries as two bytes, low byte first,
then every entry. -/
def write_the_folder (entries : List Entry) (str_arr : Nat → List Char) (c : BitCursor) :
    Option BitCursor :=
  write_entries entries str_arr
    (write_from_uChar (count_entries entries / 256 % 256)
      (write_from_uChar (count_entries entries % 256) c))

/-- The statement `local_number[b]++` for every byte of a string or of a file. -/
def count_bytes (bytes : List Nat) (number : Nat → Nat) : Nat → Nat :=
  bytes.foldl (fun f x => Function.update f x (f x + 1)) number

mutual
/-- Body of the `readdir` loop of `count_in_folder` (lines 599-629) for one entry. -/
def count_entry : Entry → (Nat → Nat) → Nat → Nat
  | .file d_name content, number =>
    if is_dot d_name then number else count_bytes content (count_bytes d_name number)
  | .folder d_name entries, number =>
    if is_dot d_name then number else count_in_folder entries (count_bytes d_name number)
/-- `count_in_folder` (lines 591-631) on the entries of a directory. -/
def count_in_folder : List Entry → (Nat → Nat) → Nat → Nat
  | [], number => number
  | e :: es, number => count_in_folder es (count_entry e number)
end

/-! ## The program -/

/-- What a command-line path names. -/
inductive Target where
  | missing
  | file (content : List Nat)
  | folder (entries : List Entry)

/-- A command-line argument `argv[i]`, `i ≥ 1`: the bytes of the string and what it names. -/
structure Arg where
  name : List Nat
  target : Target

/-- `this_is_not_a_folder`: false exactly when the path opens as a directory. -/
def this_is_not_a_folder : Target → Bool
  | .folder _ => false
  | _ => true

/-- The validation loop (lines 69-78) finds a path that is neither a directory nor a file that
opens. -/
def is_missing : Target → Bool
  | .missing => true
  | _ => false

/-- Body of the pass-1 loop (lines 104-136) for one argument. -/
def count_item (a : Arg) (number : Nat → Nat) : Nat → Nat :=
  match a.target with
  | .file content => count_bytes content (count_bytes a.name number)
  | .missing => count_bytes a.name number
  | .folder entries => count_in_folder entries (count_bytes a.name number)

/-- The arguments whose loop iteration is run by thread `t`, in increasing order.  `owner`
gives, for the position of an argument, the thread that runs its iteration. -/
def items_of (args : List Arg) (owner : Nat → Nat) (t : Nat) : List Arg :=
  (args.enum.filter fun p => owner p.1 == t).map Prod.snd

/-- The private histogram `local_number` of thread `t` at the end of its pass-1 loop. -/
def local_number (args : List Arg) (owner : Nat → Nat) (t : Nat) : Nat → Nat :=
  (items_of args owner t).foldl (fun number a => count_item a number) (fun _ => 0)

/-- The merged histogram (lines 139-150): threads add their private histograms one at a time,
in the order in which they enter the critical section. -/
def total_number (args : List Arg) (owner : Nat → Nat) (merge_order : List Nat) : Nat → Nat :=
  merge_order.foldl (fun total t => fun i => total i + local_number args owner t i)
    (fun _ => 0)

/-- The password block (lines 235-264).  `none` when the program stops because the password is
empty or longer than 100 characters. -/
def password_block (check_password : Int) (password : List Nat) : Option (List Nat) :=
  if check_password ≠ 0 then
    if password.length = 0 then none
    else if password.length > 100 then none
    else some (password.length % 256 :: password)
  else some [0]

/-- The flush at the end of a top-level file (lines 376-381). -/
def flush_item (c : BitCursor) : BitCursor :=
  if c.current_bit_count > 0 then
    { current_byte := 0, current_bit_count := 0,
      out := c.out ++ [(c.current_byte <<< (8 - c.current_bit_count)) % 256] }
  else c

/-- Body of the pass-2 loop (lines 349-383) for one argument, on the cursor and buffer of the
thread that runs it.  Only the branch for a path that is not a folder has a body. -/
def compress_item (str_arr : Nat → List Char) (c : BitCursor) (a : Arg) : Option BitCursor :=
  match a.target with
  | .file content =>
    (write_the_file_content content str_arr
      (write_file_size content.length (shift_one c))).map flush_item
  | .missing => some c
  | .folder _ => some c

/-- Cursor and buffer of thread `t` after the pass-2 loop. -/
def thread_state (args : List Arg) (owner : Nat → Nat) (str_arr : Nat → List Char) (t : Nat) :
    Option BitCursor :=
  (items_of args owner t).foldlM (compress_item str_arr)
    { current_byte := 0, current_bit_count := 0, out := [] }

/-- The vectors `thread_buffers[0 .. num_threads)` after the parallel region. -/
def thread_buffers (args : List Arg) (owner : Nat → Nat) (str_arr : Nat → List Char)
    (num_threads : Nat) : Option (List (List Nat)) :=
  (List.range num_threads).mapM fun t =>
    (thread_state args owner str_arr t).map BitCursor.out

/-- `WRITE_BUFFER_SIZE`. -/
def WRITE_BUFFER_SIZE : Nat := 8 * 1024 * 1024

/-- One iteration of the merge loop (lines 392-401) on the pair (bytes already written to the
file, `write_buffer`). -/
def merge_one (st : List Nat × List Nat) (buffer : List Nat) : List Nat × List Nat :=
  if buffer.isEmpty then st
  else if st.2.length + buffer.length > WRITE_BUFFER_SIZE then (st.1 ++ st.2, buffer)
  else (st.1, st.2 ++ buffer)

/-- Lines 392-406: the bytes written to the file by the merge loop and the final flush of
`write_buffer`. -/
def merge_buffers (buffers : List (List Nat)) : List Nat :=
  let st := buffers.foldl merge_one ([], [])
  if st.2.isEmpty then st.1 else st.1 ++ st.2

/-- Everything the user and the runtime decide in one run of the program: the arguments, the
answers to the three prompts, the number of threads, the assignment of loop iterations to
threads in pass 1 and in pass 2, and the order in which threads merge their histograms. -/
structure Run where
  args : List Arg
  check_password : Int
  password : List Nat
  check : Int
  num_threads : Nat
  owner1 : Nat → Nat
  merge_order : List Nat
  owner2 : Nat → Nat

/-- The array `number` after pass 1. -/
def Run.number (r : Run) : Nat → Nat :=
  total_number r.args r.owner1 r.merge_order

/-- The sorted leaf array of a run. -/
def Run.sorted (r : Run) : List ersel :=
  sort_array (extract_leaves r.number)

/-- The header cursor after the code table and `write_file_count` (lines 266-333), with the
table `str_arr`.  `none` when the builder or the table loop fails. -/
def header (r : Run) : Option ((Nat → List Char) × BitCursor) :=
  match build_tree r.sorted with
  | none => none
  | some (array, _) =>
    match write_code_table (array.take r.sorted.length) (fun _ => [])
        { current_byte := 0, current_bit_count := 0, out := [] } with
    | none => none
    | some (str_arr, c) => some (str_arr, write_file_count r.args.length c)

/-- The bytes of the output file when `main` reaches `Compression is complete`; `none` when
it stops earlier (no argument, a missing input, a rejected password, a failed table, the user's
abort) and leaves no archive.  The first byte is the lowest byte of the `int letter_count`. -/
def main (r : Run) : Option (List Nat) :=
  if r.args.isEmpty then none
  else if r.args.any (fun a => this_is_not_a_folder a.target && is_missing a.target) then none
  else
    match password_block r.check_password r.password with
    | none => none
    | some pw =>
      match header r with
      | none => none
      | some (str_arr, c) =>
        if r.check = 0 then none
        else
          match thread_buffers r.args r.owner2 str_arr r.num_threads with
          | none => none
          | some buffers =>
            some (letter_count r.number % 256 :: (pw ++ (c.out ++ merge_buffers buffers)))

/-! ## Reading the output as bits -/

/-- The `w` low bits of `n`, most significant first. -/
def bits_of_nat (w n : Nat) : List Bool :=
  (List.range w).map fun i => n.testBit (w - 1 - i)

/-- Bits of a byte sequence, each byte most significant bit first. -/
def bytes_to_bits (bytes : List Nat) : List Bool :=
  bytes.flatMap (bits_of_nat 8)

/-- Bits denoted by a code string. -/
def code_bits (code : List Char) : List Bool :=
  code.map fun ch => ch == '1'

/-- The logical bit stream of a cursor: the bits of the emitted bytes followed by the
`current_bit_count` low bits of `current_byte`. -/
def stream (c : BitCursor) : List Bool :=
  bytes_to_bits c.out ++ bits_of_nat c.current_bit_count c.current_byte

/-- A cursor as the writers keep it between bits: at most eight pending bits, held in the low
bits of `current_byte`. -/
def Valid (c : BitCursor) : Prop :=
  c.current_bit_count ≤ 8 ∧ c.current_byte < 2 ^ c.current_bit_count

/-- The step from cursor `c` to cursor `c'` appends exactly `bits` to the logical stream: the
emitted bytes are only extended, the new cursor is valid, and it holds at least one pending bit
as soon as a bit has been written. -/
structure Appends (c c' : BitCursor) (bits : List Bool) : Prop where
  valid : Valid c'
  out_ext : ∃ rec, c'.out = c.out ++ rec
  stream_eq : stream c' = stream c ++ bits
  pos : 1 ≤ c.current_bit_count ∨ bits ≠ [] → 1 ≤ c'.current_bit_count

/-! ## Example runs -/

/-- A run with one thread, no password and the user's confirmation. -/
def run_of (args : List Arg) : Run :=
  { args := args, check_password := 0, password := [], check := 1, num_threads := 1,
    owner1 := fun _ => 0, merge_order := [0], owner2 := fun _ => 0 }

/-- The file `a` holding the single byte `b`. -/
def run_file_a : Run :=
  run_of [{ name := [97], target := .file [98] }]

/-- The directory `d` holding the file `x` with the bytes `ab`. -/
def run_dir_ab : Run :=
  run_of [{ name := [100], target := .folder [.file [120] [97, 98]] }]

/-- The directory `d` holding the file `x` with the bytes `ba`. -/
def run_dir_ba : Run :=
  run_of [{ name := [100], target := .folder [.file [120] [98, 97]] }]

/-- The record of a top-level file as the format describes it: the marker bit `1`, the size as
64 bits, most significant first, and the codes of the content bytes. -/
def file_record_bits (str_arr : Nat → List Char) (content : List Nat) : List Bool :=
  true :: (bits_of_nat 64 content.length ++ content.flatMap fun b => code_bits (str_arr b))

/-- One entry of the code table as the format describes it: the byte value as 8 bits, the code
length as 8 bits, the code. -/
def table_entry_bits (character : Nat) (code : List Char) : List Bool :=
  bits_of_nat 8 character ++ (bits_of_nat 8 code.length ++ code_bits code)

/-- A code table whose strings are made of the characters `'0'` and `'1'`. -/
def table_01 : Nat → List Char :=
  fun b => if b = 98 then ['0'] else ['1', '0', '1']

/-! ## Weighted length of a code -/

/-- Weighted length of a code on a set of symbols: `Σ w x * |code x|`. -/
def wcost (w : Nat → Nat) (S : Finset Nat) (code : Nat → List Bool) : Nat :=
  ∑ x ∈ S, w x * (code x).length

/-- No code of a symbol of `S` is a prefix of the code of a different symbol of `S`. -/
def PrefixFreeOn (S : Finset Nat) (code : Nat → List Bool) : Prop :=
  ∀ x ∈ S, ∀ y ∈ S, x ≠ y → ¬ (code x <+: code y)

/-- A run of the greedy merge on the weights `w`: starting from the symbols `S`, two symbols `i`
and `j` of least weight are replaced by a new symbol `k` of weight `w i + w j`, until one symbol
is left.  The last argument is the sum of the weights of the symbols created. -/
inductive Greedy (w : Nat → Nat) : Finset Nat → Nat → Prop where
  | single (i : Nat) : Greedy w {i} 0
  | step (S : Finset Nat) (i j k c : Nat) : i ∈ S → j ∈ S → i ≠ j → k ∉ S →
      w k = w i + w j → w i ≤ w j → (∀ x ∈ S, x ≠ i → x ≠ j → w j ≤ w x) →
      Greedy w (insert k ((S.erase i).erase j)) c → Greedy w S (c + w k)

/-- The frequency stored in node `i` of the array (0 for a node that was never written). -/
def num (a : List ersel) (i : Nat) : Int :=
  ((a[i]?).map ersel.number).getD 0

/-- Invariant of the merge loop on the frequencies, for histograms whose total fits a
`long int`: frequencies are non-negative, leaves and internal nodes are each in non-decreasing
order, the nodes without a parent carry the total, and the frequency of every internal node is
the exact sum of the frequencies of its two children. -/
structure WInv (n : Nat) (total : Int) (extra : List Nat) (s : BuildState) : Prop where
  nonneg : ∀ i, 0 ≤ num s.array i
  leaves_sorted : ∀ i j, i ≤ j → j < n → num s.array i ≤ num s.array j
  inner_sorted : ∀ i j, n ≤ i → i ≤ j → j < s.array.length → num s.array i ≤ num s.array j
  sum_roots : ((extra ++ queued n s).map (num s.array)).sum = total
  total_lt : total < 2 ^ 63
  exact : ∀ (i : Nat) (e : ersel), s.array[i]? = some e → ∀ l r, e.left = some l →
    e.right = some r → l < s.array.length ∧ r < s.array.length ∧
      e.number = num s.array l + num s.array r

/-- At the head of the loop: `min1` and `min2` are two nodes of least frequency among the nodes
without a parent, and no internal node is heavier than the two together. -/
structure WHead (n : Nat) (total : Int) (s : BuildState) : Prop where
  base : WInv n total [s.min1, s.min2] s
  min_le : num s.array s.min1 ≤ num s.array s.min2
  min2_le : ∀ r ∈ queued n s, num s.array s.min2 ≤ num s.array r
  inner_le : ∀ i, n ≤ i → i < s.array.length →
    num s.array i ≤ num s.array s.min1 + num s.array s.min2

/-- Between `combine` and the end of the selection: every queued node weighs at least `lo`,
`lo` is at least `m`, and no internal node weighs more than `2 * m`. -/
structure WMid (n : Nat) (total : Int) (m lo : Int) (extra : List Nat) (s : BuildState) :
    Prop where
  base : WInv n total extra s
  m_le : m ≤ lo
  low : ∀ r ∈ queued n s, lo ≤ num s.array r
  inner_le : ∀ i, n ≤ i → i < s.array.length → num s.array i ≤ 2 * m

/-- Frequencies of the nodes as natural numbers. -/
def weight (a : List ersel) (i : Nat) : Nat :=
  (num a i).toNat

/-- Byte value of the `i`-th sorted leaf. -/
def leaf_char (sorted : List ersel) (i : Nat) : Nat :=
  ((sorted[i]?).map ersel.character).getD 0

/-- Weighted length `Σ H[b] * len b` over the 256 byte values. -/
def weighted_length (number : Nat → Nat) (len : Nat → Nat) : Nat :=
  ∑ b ∈ Finset.range 256, number b * len b

/-! ## Buffers, records and the single-threaded writer -/

/-- The cursor `c` with `buffer` put in front of the bytes it has emitted. -/
def prepend (buffer : List Nat) (c : BitCursor) : BitCursor :=
  { c with out := buffer ++ c.out }

/-- The cursor and buffer of a thread before its first item, and after every top-level file. -/
def empty_cursor : BitCursor :=
  { current_byte := 0, current_bit_count := 0, out := [] }

/-- The bytes the pass-2 body appends for one argument when it starts on an empty cursor: a
function of the argument and the code table only. -/
def item_record (str_arr : Nat → List Char) (a : Arg) : List Nat :=
  ((compress_item str_arr empty_cursor a).map BitCursor.out).getD []

/-- `write_bit` as the format describes it: shift the bit in, and emit the byte as soon as it
holds eight bits. -/
def spec_write_bit (bit : Nat) (c : BitCursor) : BitCursor :=
  flush_full (shift_in c bit)

/-- `write_uchar` as the format describes it: the eight bits, most significant first, through
`write_bit`. -/
def spec_write_uchar (u : Nat) (c : BitCursor) : BitCursor :=
  (List.range 8).foldl (fun c i => spec_write_bit ((u >>> (7 - i)) &&& 1) c) c

/-- `write_u64` as the format describes it: eight bytes, most significant first, through
`write_uchar`. -/
def spec_write_u64 (v : Nat) (c : BitCursor) : BitCursor :=
  (List.range 8).foldl (fun c i => spec_write_uchar ((v >>> ((7 - i) * 8)) &&& 0xFF) c) c

/-- `write_bits_from_code` as the format describes it: `'1'` is the bit 1, `'0'` the bit 0, any
other character is fatal. -/
def spec_write_code : List Char → BitCursor → Option BitCursor
  | [], c => some c
  | ch :: rest, c =>
    if ch = '1' then spec_write_code rest (spec_write_bit 1 c)
    else if ch = '0' then spec_write_code rest (spec_write_bit 0 c)
    else none

/-- The codes of a sequence of bytes through `write_bits_from_code`. -/
def spec_write_codes : List Nat → (Nat → List Char) → BitCursor → Option BitCursor
  | [], _, c => some c
  | x :: xs, str_arr, c => (spec_write_code (str_arr x) c).bind (spec_write_codes xs str_arr)

/-- Padding to a byte boundary as the format describes it: the pending bits are shifted to the
top of the byte and the byte is emitted. -/
def spec_pad (c : BitCursor) : BitCursor :=
  if c.current_bit_count > 0 then
    { current_byte := 0, current_bit_count := 0,
      out := c.out ++ [(c.current_byte <<< (8 - c.current_bit_count)) % 256] }
  else c

/-- The single-threaded writer of the format on one cursor: for every file, in input order, the
marker bit `1`, the size as 64 bits, the codes of the content, then padding to a byte
boundary. -/
def single_threaded_cursor (str_arr : Nat → List Char) : List (List Nat) → BitCursor →
    Option BitCursor
  | [], c => some c
  | content :: rest, c =>
    ((spec_write_codes content str_arr
        (spec_write_u64 content.length (spec_write_bit 1 c))).map spec_pad).bind
      (single_threaded_cursor str_arr rest)

/-- Output of the single-threaded writer of the format. -/
def single_threaded_writer (str_arr : Nat → List Char) (files : List (List Nat)) :
    Option (List Nat) :=
  (single_threaded_cursor str_arr files empty_cursor).map BitCursor.out

/-- Content of a top-level file; empty for an argument that is not a file. -/
def Arg.content (a : Arg) : List Nat :=
  match a.target with
  | .file content => content
  | _ => []

/-- The argument names a regular file. -/
def Arg.is_file (a : Arg) : Bool :=
  match a.target with
  | .file _ => true
  | _ => false

/-! ## Occurrences of a byte in the input -/

mutual
/-- Occurrences of byte `b` in the content of a directory entry, a regular file or the regular
files below a directory.  The entries `.` and `..` are the directory itself and its parent, not
children: they count for nothing. -/
def content_occ_entry (b : Nat) : Entry → Nat
  | .file d_name content => if is_dot d_name then 0 else content.count b
  | .folder d_name entries => if is_dot d_name then 0 else content_occ_entries b entries
/-- Occurrences of byte `b` in the regular files of a list of directory entries. -/
def content_occ_entries (b : Nat) : List Entry → Nat
  | [] => 0
  | e :: es => content_occ_entry b e + content_occ_entries b es
end

mutual
/-- Occurrences of byte `b` in the name of a directory entry and in the names of the entries
below it, `.` and `..` excluded. -/
def name_occ_entry (b : Nat) : Entry → Nat
  | .file d_name _ => if is_dot d_name then 0 else d_name.count b
  | .folder d_name entries =>
    if is_dot d_name then 0 else d_name.count b + name_occ_entries b entries
/-- Occurrences of byte `b` in the names met in a list of directory entries. -/
def name_occ_entries (b : Nat) : List Entry → Nat
  | [] => 0
  | e :: es => name_occ_entry b e + name_occ_entries b es
end

/-- Occurrences of byte `b` in the regular files that a top-level argument names or holds. -/
def content_occ_arg (b : Nat) (a : Arg) : Nat :=
  match a.target with
  | .file content => content.count b
  | .missing => 0
  | .folder entries => content_occ_entries b entries

/-- Occurrences of byte `b` in the directory entry names met below a top-level argument. -/
def name_occ_arg (b : Nat) (a : Arg) : Nat :=
  match a.target with
  | .folder entries => name_occ_entries b entries
  | _ => 0

/-- Occurrences of byte `b` in the contents of all regular files, top-level or nested. -/
def content_occurrences (b : Nat) (args : List Arg) : Nat :=
  (args.map (content_occ_arg b)).sum

/-- Occurrences of byte `b` in the top-level argument strings. -/
def argument_occurrences (b : Nat) (args : List Arg) : Nat :=
  (args.map fun a => a.name.count b).sum

/-- Occurrences of byte `b` in the directory entry names met recursively, `.` and `..`
excluded. -/
def name_occurrences (b : Nat) (args : List Arg) : Nat :=
  (args.map (name_occ_arg b)).sum

/-- Occurrences of byte `b` that one top-level argument brings. -/
def occ_arg (b : Nat) (a : Arg) : Nat :=
  content_occ_arg b a + a.name.count b + name_occ_arg b a

/-! ## The folder record of the format -/

/-- Name record: the length of the name as 8 bits, then the codes of its bytes. -/
def name_record_bits (str_arr : Nat → List Char) (d_name : List Nat) : List Bool :=
  bits_of_nat 8 d_name.length ++ d_name.flatMap fun b => code_bits (str_arr b)

mutual
/-- Record of one child of a directory: for a file the marker bit `1`, the size as 64 bits, the
name record and the encoded content; for a folder the marker bit `0`, the name record and the
folder record of the child.  The entries `.` and `..` have no record. -/
def entry_record_bits (str_arr : Nat → List Char) : Entry → List Bool
  | .file d_name content =>
    if is_dot d_name then []
    else true :: (bits_of_nat 64 content.length ++ (name_record_bits str_arr d_name ++
      content.flatMap fun b => code_bits (str_arr b)))
  | .folder d_name entries =>
    if is_dot d_name then []
    else false :: (name_record_bits str_arr d_name ++
      (bits_of_nat 8 (count_entries entries % 256) ++
        (bits_of_nat 8 (count_entries entries / 256) ++ entries_record_bits str_arr entries)))
/-- Records of the children of a directory, in enumeration order. -/
def entries_record_bits (str_arr : Nat → List Char) : List Entry → List Bool
  | [] => []
  | e :: es => entry_record_bits str_arr e ++ entries_record_bits str_arr es
end

/-- Folder record: the child count as 16 bits, low byte first, then the records of the
children. -/
def folder_record_bits (str_arr : Nat → List Char) (entries : List Entry) : List Bool :=
  bits_of_nat 8 (count_entries entries % 256) ++
    (bits_of_nat 8 (count_entries entries / 256) ++ entries_record_bits str_arr entries)

/-! ## Further example inputs -/

/-- Two top-level files `a` (100 bytes `0x00`) and `b` (100 bytes `0xFF`). -/
def run_two_files : Run :=
  run_of [{ name := [97], target := .file (List.replicate 100 0) },
          { name := [98], target := .file (List.replicate 100 255) }]

/-- Histogram with a tie between a leaf and the first internal node: bytes `A`, `B`, `C` with
counts 1, 1, 2. -/
def hist_tie : Nat → Nat :=
  fun b => if b = 65 then 1 else if b = 66 then 1 else if b = 67 then 2 else 0

/-- The merge loop on `hist_tie` after the first `combine`: the leaf `C` at index 2 and the
internal node at index 3 both have frequency 2. -/
def state_tie : Option BuildState :=
  combine { array := sort_array (extract_leaves hist_tie), min1 := 0, min2 := 1,
            notleaf := 3, isleaf := 2 }

/-- The run on the file `a` holding the byte `b`, with the password `secret`. -/
def run_secret : Run :=
  { run_file_a with check_password := 1, password := [115, 101, 99, 114, 101, 116] }

/-- A folder holding the single file `x` with content `x`. -/
def folder_x : List Entry :=
  [.file [120] [120]]

/-- A code table that gives the byte `x` the code `1`. -/
def table_x : Nat → List Char :=
  fun b => if b = 120 then ['1'] else ['0']

/-- A node has a parent: some written node points to it as its left or right child. -/
def has_parent (a : List ersel) (i : Nat) : Prop :=
  ∃ e ∈ a, e.left = some i ∨ e.right = some i

/-- A cursor step from any state with at most eight pending bits: the count stays at most
eight, the emitted bytes are only extended, and the logical stream grows by `bits`. -/
structure Grows (c c' : BitCursor) (bits : List Bool) : Prop where
  count_le : c'.current_bit_count ≤ 8
  out_ext : ∃ rec, c'.out = c.out ++ rec
  stream_eq : stream c' = stream c ++ bits

/-- The number denoted by a sequence of bits, most significant first. -/
def nat_of_bits (bits : List Bool) : Nat :=
  bits.foldl (fun n b => 2 * n + b.toNat) 0

/-- The eight bytes of a size, most significant first. -/
def big_endian_bytes (size : Nat) : List Nat :=
  (List.range 8).map fun i => size / 256 ^ (7 - i) % 256

/-! ## Reads of the merge loop and pending bits -/

/-- The nodes whose `number` is read by the choice of `min1` (lines 190-202): none when the
leaf queue is exhausted, otherwise the heads of both queues. -/
def reads_min1 (array_size : Nat) (s : BuildState) : List Nat :=
  if s.isleaf ≥ array_size then [] else [s.isleaf, s.notleaf]

/-- The nodes whose `number` is read by the choice of `min2` (lines 204-218): none when the
leaf queue is exhausted or the internal queue is empty, otherwise the heads of both queues. -/
def reads_min2 (array_size : Nat) (s : BuildState) : List Nat :=
  if s.isleaf ≥ array_size then []
  else if s.notleaf ≥ s.array.length then []
  else [s.isleaf, s.notleaf]

/-- The cursor `c'` holds what a lazy writer leaves after `m ≥ 1` more bits on the cursor `c`:
the last byte stays pending, even when it is complete. -/
def Pending (c c' : BitCursor) (m : Nat) : Prop :=
  c'.current_bit_count = (c.current_bit_count + m - 1) % 8 + 1 ∧
  c'.out.length = c.out.length + (c.current_bit_count + m - 1) / 8


/-! ## Lemmas on trees and their representation -/

set_option maxRecDepth 1000000

theorem HTree.root_mem_idxs (t : HTree) : t.root ∈ t.idxs := by
  cases t <;> simp [HTree.root, HTree.idxs]

theorem HTree.leafIdxs_subset (t : HTree) : ∀ i ∈ t.leafIdxs, i ∈ t.idxs := by
  induction t with
  | leaf i => simp [HTree.leafIdxs, HTree.idxs]
  | node i l r ihl ihr =>
    intro j hj
    simp only [HTree.leafIdxs, List.mem_append] at hj
    simp only [HTree.idxs, List.mem_cons, List.mem_append]
    rcases hj with h | h
    · exact Or.inr (Or.inl (ihl j h))
    · exact Or.inr (Or.inr (ihr j h))

theorem HTree.idxs_perm (t : HTree) : t.idxs.Perm (t.leafIdxs ++ t.innerIdxs) := by
  induction t with
  | leaf i => simp [HTree.leafIdxs, HTree.idxs, HTree.innerIdxs]
  | node i l r ihl ihr =>
    simp only [HTree.leafIdxs, HTree.idxs, HTree.innerIdxs]
    refine List.Perm.trans ?_ (List.perm_middle).symm
    refine List.Perm.cons _ ?_
    refine (List.Perm.append ihl ihr).trans ?_
    simp only [List.append_assoc]
    refine List.Perm.append_left _ ?_
    rw [← List.append_assoc, ← List.append_assoc]
    exact List.Perm.append_right _ List.perm_append_comm

theorem HTree.length_leafIdxs (t : HTree) : t.leafIdxs.length = t.innerIdxs.length + 1 := by
  induction t with
  | leaf i => simp [HTree.leafIdxs, HTree.innerIdxs]
  | node i l r ihl ihr =>
    simp only [HTree.leafIdxs, HTree.innerIdxs, List.length_append, List.length_cons]
    omega

theorem HTree.length_idxs (t : HTree) : t.idxs.length + 1 = 2 * t.leafIdxs.length := by
  have h := t.idxs_perm.length_eq
  have h2 := t.length_leafIdxs
  simp only [List.length_append] at h
  omega

theorem HTree.height_le (t : HTree) : t.height ≤ t.innerIdxs.length := by
  induction t with
  | leaf i => simp [HTree.height]
  | node i l r ihl ihr =>
    simp only [HTree.height, HTree.innerIdxs, List.length_append, List.length_cons]
    omega

theorem HTree.leafCodes_map_fst (t : HTree) (c : List Char) :
    (t.leafCodes c).map Prod.fst = t.leafIdxs := by
  induction t generalizing c with
  | leaf i => simp [HTree.leafCodes, HTree.leafIdxs]
  | node i l r ihl ihr => simp [HTree.leafCodes, HTree.leafIdxs, ihl, ihr]

theorem HTree.leafCodes_prefix (t : HTree) (c : List Char) :
    ∀ x ∈ t.leafCodes c, c <+: x.2 := by
  induction t generalizing c with
  | leaf i => simp [HTree.leafCodes]
  | node i l r ihl ihr =>
    intro x hx
    simp only [HTree.leafCodes, List.mem_append] at hx
    rcases hx with h | h
    · exact (List.prefix_append c _).trans (ihl _ x h)
    · exact (List.prefix_append c _).trans (ihr _ x h)

theorem HTree.leafCodes_length_le (t : HTree) (c : List Char) :
    ∀ x ∈ t.leafCodes c, x.2.length ≤ c.length + t.height := by
  induction t generalizing c with
  | leaf i => simp [HTree.leafCodes, HTree.height]
  | node i l r ihl ihr =>
    intro x hx
    simp only [HTree.leafCodes, List.mem_append] at hx
    simp only [HTree.height]
    rcases hx with h | h
    · have := ihl _ x h
      simp only [List.length_append, List.length_singleton] at this
      omega
    · have := ihr _ x h
      simp only [List.length_append, List.length_singleton] at this
      omega

theorem HTree.leafCodes_length_ge (t : HTree) (c : List Char) :
    ∀ x ∈ t.leafCodes c, c.length ≤ x.2.length :=
  fun x hx => (t.leafCodes_prefix c x hx).length_le

/-- In a tree with more than one node no leaf keeps the code of the top node. -/
theorem HTree.leafCodes_length_gt (i : Nat) (l r : HTree) (c : List Char) :
    ∀ x ∈ (HTree.node i l r).leafCodes c, c.length < x.2.length := by
  intro x hx
  simp only [HTree.leafCodes, List.mem_append] at hx
  rcases hx with h | h
  · have := l.leafCodes_length_ge _ x h
    simp only [List.length_append, List.length_singleton] at this
    omega
  · have := r.leafCodes_length_ge _ x h
    simp only [List.length_append, List.length_singleton] at this
    omega

/-- Every character of a code is `'0'` or `'1'` when that holds for the code of the top node. -/
theorem HTree.leafCodes_bits (t : HTree) (c : List Char)
    (hc : ∀ ch ∈ c, ch = '0' ∨ ch = '1') :
    ∀ x ∈ t.leafCodes c, ∀ ch ∈ x.2, ch = '0' ∨ ch = '1' := by
  induction t generalizing c with
  | leaf i =>
    intro x hx
    simp only [HTree.leafCodes, List.mem_singleton] at hx
    subst hx
    exact hc
  | node i l r ihl ihr =>
    intro x hx
    simp only [HTree.leafCodes, List.mem_append] at hx
    rcases hx with h | h
    · refine ihl _ ?_ x h
      intro ch hch
      simp only [List.mem_append, List.mem_singleton] at hch
      rcases hch with h1 | h1
      · exact hc ch h1
      · exact Or.inr h1
    · refine ihr _ ?_ x h
      intro ch hch
      simp only [List.mem_append, List.mem_singleton] at hch
      rcases hch with h1 | h1
      · exact hc ch h1
      · exact Or.inl h1

/-- Two leaves whose codes are prefix-related are the same leaf. -/
theorem HTree.leafCodes_prefix_free (t : HTree) (c : List Char) :
    ∀ x ∈ t.leafCodes c, ∀ y ∈ t.leafCodes c, x.2 <+: y.2 → x = y := by
  induction t generalizing c with
  | leaf i =>
    intro x hx y hy _
    simp only [HTree.leafCodes, List.mem_singleton] at hx hy
    rw [hx, hy]
  | node i l r ihl ihr =>
    intro x hx y hy hxy
    simp only [HTree.leafCodes, List.mem_append] at hx hy
    have key : ∀ (u v : List Char), (c ++ ['1']) <+: u → (c ++ ['0']) <+: v →
        ¬ (u <+: v) ∧ ¬ (v <+: u) := by
      intro u v hu hv
      have hne : ¬ (c ++ ['1']) <+: (c ++ ['0']) := by
        intro h
        have := List.IsPrefix.eq_of_length h (by simp)
        simp at this
      have hne2 : ¬ (c ++ ['0']) <+: (c ++ ['1']) := by
        intro h
        have := List.IsPrefix.eq_of_length h (by simp)
        simp at this
      constructor
      · intro huv
        exact hne (List.prefix_of_prefix_length_le (hu.trans huv) hv (by simp))
      · intro hvu
        exact hne2 (List.prefix_of_prefix_length_le (hv.trans hvu) hu (by simp))
    rcases hx with hx | hx <;> rcases hy with hy | hy
    · exact ihl _ x hx y hy hxy
    · exact absurd hxy (key _ _ (l.leafCodes_prefix _ x hx) (r.leafCodes_prefix _ y hy)).1
    · exact absurd hxy (key _ _ (l.leafCodes_prefix _ y hy) (r.leafCodes_prefix _ x hx)).2
    · exact ihr _ x hx y hy hxy

/-- A representation only depends on the pointer fields. -/
theorem Rep.congr {a b : List ersel} (h : ∀ (i : Nat) (e : ersel), a[i]? = some e → ∃ e' : ersel, b[i]? = some e' ∧
    e'.left = e.left ∧ e'.right = e.right) : ∀ t, Rep a t → Rep b t := by
  intro t
  induction t with
  | leaf i =>
    rintro ⟨e, he, hl, hr⟩
    obtain ⟨e', he', h1, h2⟩ := h i e he
    exact ⟨e', he', h1.trans hl, h2.trans hr⟩
  | node i l r ihl ihr =>
    rintro ⟨e, he, hl, hr, h1, h2⟩
    obtain ⟨e', he', h3, h4⟩ := h i e he
    exact ⟨e', he', h3.trans hl, h4.trans hr, ihl h1, ihr h2⟩

theorem Rep.root_lt {a : List ersel} {t : HTree} (h : Rep a t) : t.root < a.length := by
  cases t with
  | leaf i =>
    obtain ⟨e, he, _⟩ := h
    exact (List.getElem?_eq_some.1 he).1
  | node i l r =>
    obtain ⟨e, he, _⟩ := h
    exact (List.getElem?_eq_some.1 he).1

/-- A node without a left child that occurs in a represented tree occurs there as a leaf. -/
theorem Rep.leaf_of_left_none {a : List ersel} {t : HTree} (h : Rep a t) {j : Nat}
    (hj : j ∈ t.idxs) (hn : ∀ e, a[j]? = some e → e.left = none) : j ∈ t.leafIdxs := by
  induction t with
  | leaf i => simpa [HTree.idxs, HTree.leafIdxs] using hj
  | node i l r ihl ihr =>
    obtain ⟨e, he, hl, hr, h1, h2⟩ := h
    simp only [HTree.idxs, List.mem_cons, List.mem_append] at hj
    simp only [HTree.leafIdxs, List.mem_append]
    rcases hj with h3 | h3 | h3
    · subst h3
      have := hn e he
      rw [hl] at this
      cases this
    · exact Or.inl (ihl h1 h3)
    · exact Or.inr (ihr h2 h3)

/-! ## `assign_codes` writes the path codes -/

theorem strip_eq_iff (e e' : ersel) : strip e' = strip e ↔
    e'.left = e.left ∧ e'.right = e.right ∧ e'.number = e.number ∧ e'.character = e.character := by
  simp [strip, Prod.mk.injEq]

theorem Rep.of_strip {a b : List ersel}
    (h : ∀ j : Nat, (b[j]?).map strip = (a[j]?).map strip) (t : HTree) (ht : Rep a t) :
    Rep b t := by
  refine Rep.congr ?_ t ht
  intro i e he
  have h1 := h i
  rw [he, Option.map_some'] at h1
  obtain ⟨e', he', hs⟩ := Option.map_eq_some'.1 h1
  exact ⟨e', he', ((strip_eq_iff e e').1 hs).1, ((strip_eq_iff e e').1 hs).2.1⟩

theorem strip_set_bit (a : List ersel) (i : Nat) (e : ersel) (c : List Char)
    (he : a[i]? = some e) (j : Nat) :
    ((a.set i { e with bit := c })[j]?).map strip = (a[j]?).map strip := by
  rw [List.getElem?_set]
  by_cases hij : i = j
  · subst hij
    have hlt : i < a.length := (List.getElem?_eq_some.1 he).1
    simp [hlt, he, strip]
  · simp [hij]

theorem assign_codes_none (fuel : Nat) (a : List ersel) (code : List Char) :
    assign_codes fuel a none code = some a := by
  cases fuel <;> rfl

theorem assign_codes_succ (f : Nat) (a : List ersel) (i : Nat) (code : List Char) (e : ersel)
    (he : a[i]? = some e) :
    assign_codes (f + 1) a (some i) code =
      match assign_codes f (a.set i { e with bit := code }) e.left (code ++ ['1']) with
      | none => none
      | some a1 =>
        match a1[i]? with
        | none => none
        | some e1 => assign_codes f a1 e1.right (code ++ ['0']) := by
  simp only [assign_codes, he]
  try rfl

theorem assign_codes_spec (t : HTree) : ∀ (fuel : Nat) (a : List ersel) (code : List Char),
    Rep a t → t.idxs.Nodup → t.height < fuel →
    ∃ a', assign_codes fuel a (some t.root) code = some a' ∧
      (∀ j, j ∉ t.idxs → a'[j]? = a[j]?) ∧
      (∀ j : Nat, (a'[j]?).map strip = (a[j]?).map strip) ∧
      (∀ x ∈ t.leafCodes code, (a'[x.1]?).map ersel.bit = some x.2) := by
  induction t with
  | leaf i =>
    intro fuel a code hrep _ hfuel
    obtain ⟨e, he, hl, hr⟩ := hrep
    obtain ⟨f, rfl⟩ : ∃ f, fuel = f + 1 := ⟨fuel - 1, by omega⟩
    have hlt : i < a.length := (List.getElem?_eq_some.1 he).1
    have hset : (a.set i { e with bit := code })[i]? = some { e with bit := code } := by
      simp [List.getElem?_set, hlt]
    refine ⟨a.set i { e with bit := code }, ?_, ?_, ?_, ?_⟩
    · have e1 := assign_codes_none f (a.set i { e with bit := code }) (code ++ ['1'])
      rw [← hl] at e1
      have e2 := assign_codes_none f (a.set i { e with bit := code }) (code ++ ['0'])
      rw [← hr] at e2
      show assign_codes (f + 1) a (some i) code = _
      rw [assign_codes_succ f a i code e he, e1]
      dsimp only
      rw [hset]
      exact e2
    · intro j hj
      simp only [HTree.idxs, List.mem_singleton] at hj
      rw [List.getElem?_set]
      simp [Ne.symm hj]
    · exact strip_set_bit a i e code he
    · intro x hx
      simp only [HTree.leafCodes, List.mem_singleton] at hx
      subst hx
      simp [hset]
  | node i l r ihl ihr =>
    intro fuel a code hrep hnd hfuel
    obtain ⟨e, he, hl, hr, hrl, hrr⟩ := hrep
    obtain ⟨f, rfl⟩ : ∃ f, fuel = f + 1 := ⟨fuel - 1, by omega⟩
    simp only [HTree.height] at hfuel
    simp only [HTree.idxs, List.nodup_cons, List.mem_append, not_or, List.nodup_append] at hnd
    obtain ⟨⟨hil, hir⟩, hndl, hndr, hdisj⟩ := hnd
    have hlt : i < a.length := (List.getElem?_eq_some.1 he).1
    have hset : (a.set i { e with bit := code })[i]? = some { e with bit := code } := by
      simp [List.getElem?_set, hlt]
    have hs0 := strip_set_bit a i e code he
    obtain ⟨a1, h1, hf1, hs1, hc1⟩ := ihl f (a.set i { e with bit := code }) (code ++ ['1'])
      (Rep.of_strip hs0 l hrl) hndl (by omega)
    have h1i : a1[i]? = some { e with bit := code } := by rw [hf1 i hil, hset]
    have hs01 : ∀ j : Nat, (a1[j]?).map strip = (a[j]?).map strip := fun j =>
      (hs1 j).trans (hs0 j)
    obtain ⟨a2, h2, hf2, hs2, hc2⟩ := ihr f a1 (code ++ ['0'])
      (Rep.of_strip hs01 r hrr) hndr (by omega)
    refine ⟨a2, ?_, ?_, ?_, ?_⟩
    · have e1 := h1
      rw [← hl] at e1
      have e2 := h2
      rw [← hr] at e2
      show assign_codes (f + 1) a (some i) code = _
      rw [assign_codes_succ f a i code e he, e1]
      dsimp only
      rw [h1i]
      exact e2
    · intro j hj
      simp only [HTree.idxs, List.mem_cons, List.mem_append, not_or] at hj
      rw [hf2 j hj.2.2, hf1 j hj.2.1, List.getElem?_set]
      simp [Ne.symm hj.1]
    · exact fun j => (hs2 j).trans (hs01 j)
    · intro x hx
      simp only [HTree.leafCodes, List.mem_append] at hx
      rcases hx with hx | hx
      · have hxl : x.1 ∈ l.idxs := by
          apply l.leafIdxs_subset
          rw [← l.leafCodes_map_fst (code ++ ['1'])]
          exact List.mem_map_of_mem _ hx
        have hxr : x.1 ∉ r.idxs := fun h => hdisj hxl h
        rw [hf2 _ hxr]
        exact hc1 x hx
      · exact hc2 x hx

/-! ## The merge loop keeps a forest -/

theorem IsForest.perm {a : List ersel} {r1 r2 : List Nat} (hp : r1.Perm r2)
    (h : IsForest a r1) : IsForest a r2 := by
  obtain ⟨T, hT, hlt, hperm⟩ := h
  refine ⟨T, hT, fun r hr => hlt r (hp.symm.subset hr), ?_⟩
  exact (List.Perm.flatMap_right _ hp.symm).trans hperm

theorem length_queued (n : Nat) (s : BuildState) :
    (queued n s).length = (n - s.isleaf) + (s.array.length - s.notleaf) := by
  simp [queued]

theorem queued_take_leaf (n : Nat) (s : BuildState) (m1 m2 : Nat) (h : s.isleaf < n) :
    queued n s = s.isleaf ::
      queued n { array := s.array, min1 := m1, min2 := m2, notleaf := s.notleaf,
                 isleaf := s.isleaf + 1 } := by
  simp only [queued]
  have : n - s.isleaf = (n - (s.isleaf + 1)) + 1 := by omega
  rw [this, List.range'_succ]
  rfl

theorem queued_take_int (n : Nat) (s : BuildState) (m1 m2 : Nat)
    (h : s.notleaf < s.array.length) :
    (queued n s).Perm (s.notleaf ::
      queued n { array := s.array, min1 := m1, min2 := m2, notleaf := s.notleaf + 1,
                 isleaf := s.isleaf }) := by
  simp only [queued]
  have : s.array.length - s.notleaf = (s.array.length - (s.notleaf + 1)) + 1 := by omega
  rw [this, List.range'_succ]
  exact List.perm_middle

theorem Inv.take_leaf {sorted : List ersel} {extra : List Nat} {s : BuildState}
    (h : Inv sorted extra s) (hl : s.isleaf < sorted.length) (m1 m2 : Nat) :
    Inv sorted (extra ++ [s.isleaf])
      { array := s.array, min1 := m1, min2 := m2, notleaf := s.notleaf,
        isleaf := s.isleaf + 1 } := by
  have hq := queued_take_leaf sorted.length s m1 m2 hl
  refine ⟨h.pre, hl, h.notleaf_ge, h.notleaf_le, h.size_le, ?_, ?_⟩
  · refine IsForest.perm ?_ h.forest
    rw [hq]
    simp
  · have := h.count
    rw [hq] at this
    simp only [List.length_append, List.length_cons, List.length_nil] at this ⊢
    omega

theorem Inv.take_int {sorted : List ersel} {extra : List Nat} {s : BuildState}
    (h : Inv sorted extra s) (hn : s.notleaf < s.array.length) (m1 m2 : Nat) :
    Inv sorted (extra ++ [s.notleaf])
      { array := s.array, min1 := m1, min2 := m2, notleaf := s.notleaf + 1,
        isleaf := s.isleaf } := by
  have hq := queued_take_int sorted.length s m1 m2 hn
  refine ⟨h.pre, h.isleaf_le, Nat.le_succ_of_le h.notleaf_ge, hn, h.size_le, ?_, ?_⟩
  · refine IsForest.perm ?_ h.forest
    refine ((List.perm_append_left_iff extra).2 hq).trans ?_
    simp
  · have := h.count
    rw [hq.length_eq] at this
    simp only [List.length_append, List.length_cons, List.length_nil] at this ⊢
    omega

theorem select_min1_inv {sorted : List ersel} {s : BuildState} (h : Inv sorted [] s)
    (hn : s.notleaf < s.array.length) :
    ∃ s', select_min1 sorted.length s = some s' ∧ Inv sorted [s'.min1] s' ∧
      s'.array = s.array := by
  unfold select_min1
  by_cases hl : s.isleaf ≥ sorted.length
  · rw [if_pos hl]
    exact ⟨_, rfl, h.take_int hn _ _, rfl⟩
  · rw [if_neg hl]
    have hl' : s.isleaf < sorted.length := by omega
    have h1 : s.isleaf < s.array.length := lt_of_lt_of_le hl' h.size_le
    rw [List.getElem?_eq_getElem h1, List.getElem?_eq_getElem hn]
    dsimp only
    split
    · exact ⟨_, rfl, h.take_leaf hl' _ _, rfl⟩
    · exact ⟨_, rfl, h.take_int hn _ _, rfl⟩

theorem select_min2_inv {sorted : List ersel} {s : BuildState} (h : Inv sorted [s.min1] s)
    (hq : 1 ≤ (queued sorted.length s).length) :
    ∃ s', select_min2 sorted.length s = some s' ∧ Inv sorted [s'.min1, s'.min2] s' ∧
      s'.array = s.array := by
  rw [length_queued] at hq
  unfold select_min2
  by_cases hl : s.isleaf ≥ sorted.length
  · rw [if_pos hl]
    have hn : s.notleaf < s.array.length := by omega
    exact ⟨_, rfl, h.take_int hn _ _, rfl⟩
  · rw [if_neg hl]
    have hl' : s.isleaf < sorted.length := by omega
    by_cases hn : s.notleaf ≥ s.array.length
    · rw [if_pos hn]
      exact ⟨_, rfl, h.take_leaf hl' _ _, rfl⟩
    · rw [if_neg hn]
      have hn' : s.notleaf < s.array.length := by omega
      have h1 : s.isleaf < s.array.length := lt_of_lt_of_le hl' h.size_le
      rw [List.getElem?_eq_getElem h1, List.getElem?_eq_getElem hn']
      dsimp only
      split
      · exact ⟨_, rfl, h.take_leaf hl' _ _, rfl⟩
      · exact ⟨_, rfl, h.take_int hn' _ _, rfl⟩

theorem select_min2_last {sorted : List ersel} {s : BuildState}
    (hq : (queued sorted.length s).length = 0) :
    ∃ s', select_min2 sorted.length s = some s' ∧ s'.array = s.array := by
  rw [length_queued] at hq
  unfold select_min2
  have hl : s.isleaf ≥ sorted.length := by omega
  rw [if_pos hl]
  exact ⟨_, rfl, rfl⟩

theorem strip_modify_bit (c : List Char) (n : Nat) (l : List ersel) (m : Nat) :
    ((l.modify (fun e => { e with bit := c }) n)[m]?).map strip = (l[m]?).map strip := by
  rw [List.getElem?_modify]
  cases l[m]? with
  | none => rfl
  | some e => by_cases h : n = m <;> simp [h, strip]

theorem mem_queued_lt {n : Nat} {s : BuildState} (h1 : n ≤ s.array.length)
    (h2 : s.isleaf ≤ n) (h3 : s.notleaf ≤ s.array.length) :
    ∀ r ∈ queued n s, r < s.array.length := by
  intro r hr
  simp only [queued, List.mem_append, List.mem_range'_1] at hr
  omega

theorem combine_inv {sorted : List ersel} {s : BuildState}
    (h : Inv sorted [s.min1, s.min2] s) (hn : sorted.length ≤ 256) :
    ∃ s', combine s = some s' ∧ Inv sorted [] s' ∧ s'.notleaf < s'.array.length ∧
      s'.array.length = s.array.length + 1 := by
  obtain ⟨T, hT, hlt, hperm⟩ := h.forest
  have hm1 : s.min1 < s.array.length := hlt _ (by simp)
  have hm2 : s.min2 < s.array.length := hlt _ (by simp)
  have hcount := h.count
  simp only [List.length_cons, List.length_nil] at hcount
  have hlen : s.array.length < 512 := by omega
  unfold combine
  rw [List.getElem?_eq_getElem hm1, List.getElem?_eq_getElem hm2]
  dsimp only
  rw [if_pos hlen]
  refine ⟨_, rfl, ?_, ?_, ?_⟩
  rotate_left
  · simp only [List.length_modify, List.length_append, List.length_singleton]
    have := h.notleaf_le
    omega
  · simp only [List.length_modify, List.length_append, List.length_singleton]
  set node : ersel := ⟨some s.min1, some s.min2,
    wrapLong (s.array[s.min1].number + s.array[s.min2].number), 0, []⟩ with hnode
  set a3 : List ersel := List.modify (fun e : ersel => ⟨e.left, e.right, e.number, e.character, ['0']⟩)
    s.min2 (List.modify (fun e : ersel => ⟨e.left, e.right, e.number, e.character, ['1']⟩)
      s.min1 (s.array ++ [node])) with ha3
  have hstrip : ∀ j : Nat, (a3[j]?).map strip = ((s.array ++ [node])[j]?).map strip := by
    intro j
    rw [ha3, strip_modify_bit, strip_modify_bit]
  have hlen3 : a3.length = s.array.length + 1 := by
    rw [ha3]
    simp only [List.length_modify, List.length_append, List.length_singleton]
  have hold : ∀ (j : Nat) (e : ersel), s.array[j]? = some e →
      ∃ e' : ersel, a3[j]? = some e' ∧ e'.left = e.left ∧ e'.right = e.right := by
    intro j e he
    have hj : j < s.array.length := (List.getElem?_eq_some.1 he).1
    have h1 := hstrip j
    rw [List.getElem?_append_left hj, he, Option.map_some'] at h1
    obtain ⟨e', he', hs⟩ := Option.map_eq_some'.1 h1
    exact ⟨e', he', ((strip_eq_iff e e').1 hs).1, ((strip_eq_iff e e').1 hs).2.1⟩
  have hnew : ∃ e' : ersel, a3[s.array.length]? = some e' ∧ e'.left = some s.min1 ∧
      e'.right = some s.min2 := by
    have h1 := hstrip s.array.length
    rw [List.getElem?_append_right (le_refl _)] at h1
    simp only [Nat.sub_self, List.getElem?_cons_zero, Option.map_some'] at h1
    obtain ⟨e', he', hs⟩ := Option.map_eq_some'.1 h1
    refine ⟨e', he', ?_, ?_⟩
    · rw [((strip_eq_iff node e').1 hs).1, hnode]
    · rw [((strip_eq_iff node e').1 hs).2.1, hnode]
  have hq : queued sorted.length
      { array := a3, min1 := s.min1, min2 := s.min2, notleaf := s.notleaf, isleaf := s.isleaf }
      = queued sorted.length s ++ [s.array.length] := by
    simp only [queued, hlen3]
    have e1 : s.array.length + 1 - s.notleaf = (s.array.length - s.notleaf) + 1 := by
      have := h.notleaf_le
      omega
    rw [e1, List.range'_concat, List.append_assoc]
    congr 3
    have := h.notleaf_le
    omega
  have hqlt := mem_queued_lt h.size_le h.isleaf_le h.notleaf_le
  refine ⟨?_, h.isleaf_le, h.notleaf_ge, ?_, ?_, ?_, ?_⟩
  · intro i hi
    have hi' : i < s.array.length := lt_of_lt_of_le hi h.size_le
    rw [hstrip i, List.getElem?_append_left hi']
    exact h.pre i hi
  · show s.notleaf ≤ a3.length
    have := h.notleaf_le
    omega
  · show sorted.length ≤ a3.length
    have := h.size_le
    omega
  · show IsForest a3 ([] ++ queued sorted.length _)
    rw [hq, List.nil_append]
    refine ⟨Function.update T s.array.length
      (HTree.node s.array.length (T s.min1) (T s.min2)), ?_, ?_, ?_⟩
    · intro i hi
      by_cases hi2 : i = s.array.length
      · subst hi2
        rw [Function.update_same]
        refine ⟨?_, rfl⟩
        obtain ⟨e', he', hl, hr⟩ := hnew
        refine ⟨e', he', ?_, ?_, Rep.congr hold _ (hT _ hm1).1, Rep.congr hold _ (hT _ hm2).1⟩
        · rw [hl, (hT _ hm1).2]
        · rw [hr, (hT _ hm2).2]
      · rw [Function.update_noteq hi2]
        have hi3 : i < s.array.length := by omega
        exact ⟨Rep.congr hold _ (hT i hi3).1, (hT i hi3).2⟩
    · intro r hr
      simp only [List.mem_append, List.mem_singleton] at hr
      rcases hr with hr | hr
      · have := hqlt r hr
        omega
      · omega
    · rw [hlen3, List.range_succ, List.flatMap_append]
      have e1 : (queued sorted.length s).flatMap (fun r => (Function.update T s.array.length
          (HTree.node s.array.length (T s.min1) (T s.min2)) r).idxs)
          = (queued sorted.length s).flatMap (fun r => (T r).idxs) := by
        apply List.flatMap_congr
        intro r hr
        have := hqlt r hr
        rw [Function.update_noteq (by omega)]
      rw [e1]
      simp only [List.flatMap_cons, List.flatMap_nil, Function.update_same, HTree.idxs,
        List.append_nil] at hperm ⊢
      refine List.Perm.trans List.perm_middle ?_
      refine List.Perm.trans ?_ (List.perm_append_singleton _ _).symm
      refine List.Perm.cons _ ?_
      refine List.Perm.trans List.perm_append_comm ?_
      simpa [List.append_assoc] using hperm
  · show a3.length + 0 + (queued sorted.length _).length = 2 * sorted.length
    rw [hq, hlen3, List.length_append, List.length_singleton]
    omega

theorem merge_loop_spec {sorted : List ersel} (hn : sorted.length ≤ 256) :
    ∀ (k : Nat) (s : BuildState), Inv sorted [s.min1, s.min2] s →
      s.array.length + k + 2 = 2 * sorted.length →
      ∃ s', merge_loop sorted.length (k + 1) s = some s' ∧
        s'.array.length + 1 = 2 * sorted.length ∧
        (∀ i, i < sorted.length → (s'.array[i]?).map strip = (sorted[i]?).map strip) ∧
        IsForest s'.array [s'.array.length - 1] := by
  intro k
  induction k with
  | zero =>
    intro s h hlen
    obtain ⟨s1, hc, h1, hnl, hl1⟩ := combine_inv h hn
    obtain ⟨s2, hs2, h2, ha2⟩ := select_min1_inv h1 hnl
    have hq2 : (queued sorted.length s2).length = 0 := by
      have := h2.count
      rw [ha2, hl1] at this
      simp only [List.length_cons, List.length_nil] at this
      omega
    obtain ⟨s3, hs3, ha3⟩ := select_min2_last hq2
    refine ⟨s3, ?_, ?_, ?_, ?_⟩
    · simp only [merge_loop, merge_step, hc, Option.some_bind, hs2, hs3]
    · rw [ha3, ha2, hl1]
      omega
    · rw [ha3, ha2]
      exact h1.pre
    · rw [ha3, ha2]
      have hf := h1.forest
      have hcnt := h1.count
      rw [length_queued] at hcnt
      simp only [List.length_nil] at hcnt
      have hq : queued sorted.length s1 = [s1.array.length - 1] := by
        simp only [queued]
        have e1 : sorted.length - s1.isleaf = 0 := by omega
        have e2 : s1.array.length - s1.notleaf = 1 := by omega
        rw [e1, e2]
        simp only [List.range'_zero, List.range'_one, List.nil_append, List.cons.injEq, and_true]
        omega
      rw [hq] at hf
      exact hf
  | succ k ih =>
    intro s h hlen
    obtain ⟨s1, hc, h1, hnl, hl1⟩ := combine_inv h hn
    obtain ⟨s2, hs2, h2, ha2⟩ := select_min1_inv h1 hnl
    have hq2 : 1 ≤ (queued sorted.length s2).length := by
      have := h2.count
      rw [ha2, hl1] at this
      simp only [List.length_cons, List.length_nil] at this
      omega
    obtain ⟨s3, hs3, h3, ha3⟩ := select_min2_inv h2 hq2
    obtain ⟨s', hs', hr⟩ := ih s3 h3 (by rw [ha3, ha2, hl1]; omega)
    refine ⟨s', ?_, hr⟩
    rw [merge_loop]
    simp only [merge_step, hc, Option.some_bind, hs2, hs3]
    exact hs'

theorem init_inv {sorted : List ersel} (h2 : 2 ≤ sorted.length)
    (hleaf : ∀ e ∈ sorted, e.left = none ∧ e.right = none) :
    Inv sorted [0, 1]
      { array := sorted, min1 := 0, min2 := 1, notleaf := sorted.length, isleaf := 2 } := by
  have hq : queued sorted.length
      { array := sorted, min1 := 0, min2 := 1, notleaf := sorted.length, isleaf := 2 }
      = List.range' 2 (sorted.length - 2) := by
    simp [queued]
  have hr : [0, 1] ++ List.range' 2 (sorted.length - 2) = List.range sorted.length := by
    obtain ⟨m, hm⟩ : ∃ m, sorted.length = m + 2 := ⟨sorted.length - 2, by omega⟩
    rw [hm, List.range_eq_range', List.range'_succ, List.range'_succ]
    simp
  refine ⟨fun _ _ => rfl, h2, le_refl _, le_refl _, le_refl _, ?_, ?_⟩
  · rw [hq, hr]
    refine ⟨HTree.leaf, ?_, ?_, ?_⟩
    · intro i hi
      refine ⟨⟨sorted[i], List.getElem?_eq_getElem hi, ?_⟩, rfl⟩
      exact hleaf _ (List.getElem_mem hi)
    · intro r hr
      exact List.mem_range.1 hr
    · simp [HTree.idxs]
  · rw [hq]
    simp only [List.length_cons, List.length_nil, List.length_range']
    omega

/-- What the builder returns on a sorted array of at least one and at most 256 leaves: the node
array has `2n - 1` entries, the root is the last one, the pointers below the root form a tree
over all nodes whose leaves are the first `n` entries, the leaf fields other than `bit` are
unchanged, and `bit` holds the path code. -/
theorem build_tree_spec {sorted : List ersel} (h1 : 1 ≤ sorted.length)
    (hn : sorted.length ≤ 256) (hleaf : ∀ e ∈ sorted, e.left = none ∧ e.right = none) :
    ∃ (a : List ersel) (t : HTree),
      build_tree sorted = some (a, 2 * sorted.length - 2) ∧
      a.length + 1 = 2 * sorted.length ∧
      Rep a t ∧ t.root = 2 * sorted.length - 2 ∧
      t.idxs.Perm (List.range a.length) ∧
      t.leafIdxs.Perm (List.range sorted.length) ∧
      (∀ i, i < sorted.length → (a[i]?).map strip = (sorted[i]?).map strip) ∧
      (∀ x ∈ t.leafCodes [], (a[x.1]?).map ersel.bit = some x.2) ∧
      ∃ s', merge_loop sorted.length (sorted.length - 1)
          { array := sorted, min1 := 0, min2 := 1, notleaf := sorted.length, isleaf := 2 }
          = some s' ∧
        ∀ j : Nat, (a[j]?).map strip = (s'.array[j]?).map strip := by
  -- the loop
  have hloop : ∃ s', merge_loop sorted.length (sorted.length - 1)
      { array := sorted, min1 := 0, min2 := 1, notleaf := sorted.length, isleaf := 2 } = some s' ∧
      s'.array.length + 1 = 2 * sorted.length ∧
      (∀ i, i < sorted.length → (s'.array[i]?).map strip = (sorted[i]?).map strip) ∧
      IsForest s'.array [s'.array.length - 1] := by
    by_cases h2 : 2 ≤ sorted.length
    · obtain ⟨k, hk⟩ : ∃ k, sorted.length = k + 2 := ⟨sorted.length - 2, by omega⟩
      have := merge_loop_spec hn k
        { array := sorted, min1 := 0, min2 := 1, notleaf := sorted.length, isleaf := 2 }
        (init_inv h2 hleaf) (by show sorted.length + k + 2 = _; omega)
      have e : sorted.length - 1 = k + 1 := by omega
      rw [e]
      exact this
    · have e : sorted.length = 1 := by omega
      refine ⟨_, by rw [e]; rfl, by show sorted.length + 1 = _; omega, fun _ _ => rfl, ?_⟩
      show IsForest sorted [sorted.length - 1]
      rw [e]
      refine ⟨HTree.leaf, ?_, ?_, ?_⟩
      · intro i hi
        have hi' : i < sorted.length := by omega
        refine ⟨⟨sorted[i], List.getElem?_eq_getElem hi', ?_⟩, rfl⟩
        exact hleaf _ (List.getElem_mem hi')
      · simp [e]
      · simp [HTree.idxs, List.range_succ, e]
  obtain ⟨s', hs', hlen, hpre, T, hT, _, hperm⟩ := hloop
  have hroot : s'.array.length - 1 < s'.array.length := by omega
  obtain ⟨hrep, hrt⟩ := hT _ hroot
  simp only [List.flatMap_cons, List.flatMap_nil, List.append_nil] at hperm
  have hnd : (T (s'.array.length - 1)).idxs.Nodup := hperm.nodup_iff.2 (List.nodup_range _)
  have hheight : (T (s'.array.length - 1)).height < 512 := by
    have e1 := (T (s'.array.length - 1)).height_le
    have e2 := (T (s'.array.length - 1)).length_leafIdxs
    have e3 := (T (s'.array.length - 1)).length_idxs
    have e4 := hperm.length_eq
    rw [List.length_range] at e4
    omega
  obtain ⟨a, ha, _, hstrip, hcodes⟩ :=
    assign_codes_spec _ 512 s'.array [] hrep hnd hheight
  have hleafs : (T (s'.array.length - 1)).leafIdxs.Perm (List.range sorted.length) := by
    have e3 := (T (s'.array.length - 1)).length_idxs
    have e4 := hperm.length_eq
    rw [List.length_range] at e4
    have hndl : (T (s'.array.length - 1)).leafIdxs.Nodup :=
      (List.nodup_append.1 ((T (s'.array.length - 1)).idxs_perm.nodup_iff.1 hnd)).1
    have hsub : List.range sorted.length ⊆ (T (s'.array.length - 1)).leafIdxs := by
      intro i hi
      have hi' : i < sorted.length := List.mem_range.1 hi
      refine Rep.leaf_of_left_none hrep (hperm.symm.subset (List.mem_range.2 (by omega))) ?_
      intro e he
      have := hpre i hi'
      rw [he, List.getElem?_eq_getElem hi', Option.map_some', Option.map_some'] at this
      have h3 := ((strip_eq_iff _ _).1 (Option.some.inj this)).1
      rw [h3]
      exact (hleaf _ (List.getElem_mem hi')).1
    refine ((List.subperm_of_subset (List.nodup_range _) hsub).perm_of_length_le ?_).symm
    rw [List.length_range]
    omega
  have hlen' : a.length = s'.array.length := by
    have e1 : (a.map strip).length = (s'.array.map strip).length := by
      congr 1
      apply List.ext_getElem?
      intro j
      rw [List.getElem?_map, List.getElem?_map]
      exact hstrip j
    simpa using e1
  refine ⟨a, T (s'.array.length - 1), ?_, ?_, ?_, ?_, ?_, hleafs, ?_, hcodes, s', hs', hstrip⟩
  · unfold build_tree
    simp only [hs']
    rw [if_neg (by omega), hrt] at *
    rw [ha]
    have : s'.array.length - 1 = 2 * sorted.length - 2 := by omega
    rw [this]
  · rw [hlen']
    exact hlen
  · exact Rep.of_strip hstrip _ hrep
  · rw [hrt]
    omega
  · rw [hlen']
    exact hperm
  · intro i hi
    rw [hstrip i]
    exact hpre i hi

/-! ## From the histogram to the code table -/

theorem fill_str_arr_other (l : List ersel) (f : Nat → List Char) (b : Nat)
    (hb : b ∉ l.map ersel.character) : fill_str_arr l f b = f b := by
  induction l generalizing f with
  | nil => rfl
  | cons e es ih =>
    simp only [List.map_cons, List.mem_cons, not_or] at hb
    rw [fill_str_arr, ih _ hb.2, Function.update_noteq hb.1]

theorem fill_str_arr_mem (l : List ersel) (f : Nat → List Char)
    (hnd : (l.map ersel.character).Nodup) (e : ersel) (he : e ∈ l) :
    fill_str_arr l f e.character = e.bit := by
  induction l generalizing f with
  | nil => cases he
  | cons x xs ih =>
    simp only [List.map_cons, List.nodup_cons] at hnd
    rw [fill_str_arr]
    rcases List.mem_cons.1 he with h | h
    · subst h
      rw [fill_str_arr_other _ _ _ hnd.1, Function.update_same]
    · exact ih _ hnd.2 h

theorem map_character_extract_leaves (number : Nat → Nat) :
    (extract_leaves number).map ersel.character =
      (List.range 256).filter (fun i => number i ≠ 0) := by
  simp only [extract_leaves, List.map_map]
  conv_rhs => rw [← List.map_id ((List.range 256).filter (fun i => number i ≠ 0))]
  rfl

theorem mem_extract_leaves {number : Nat → Nat} {e : ersel} (h : e ∈ extract_leaves number) :
    e.left = none ∧ e.right = none ∧ e.character < 256 ∧ number e.character ≠ 0 ∧
      e.number = (number e.character : Int) := by
  simp only [extract_leaves, List.mem_map, List.mem_filter, List.mem_range] at h
  obtain ⟨i, ⟨hi, hne⟩, rfl⟩ := h
  refine ⟨rfl, rfl, hi, ?_, rfl⟩
  simpa [mkLeaf] using hne

theorem length_extract_leaves (number : Nat → Nat) :
    (extract_leaves number).length = letter_count number := by
  simp [extract_leaves, letter_count]

theorem letter_count_le (number : Nat → Nat) : letter_count number ≤ 256 := by
  unfold letter_count
  have := List.length_filter_le (fun i => decide (number i ≠ 0)) (List.range 256)
  simpa using this

theorem letter_count_pos {number : Nat → Nat} {b : Nat} (hb : b < 256) (hpos : 0 < number b) :
    1 ≤ letter_count number := by
  unfold letter_count
  apply List.length_pos_of_mem (a := b)
  simp only [List.mem_filter, List.mem_range]
  exact ⟨hb, by simpa using Nat.pos_iff_ne_zero.1 hpos⟩

theorem sort_array_isSortOf (l : List ersel) : IsSortOf l (sort_array l) := by
  refine ⟨List.perm_insertionSort _ _, ?_⟩
  have hs : List.Sorted (fun a b : ersel => a.number ≤ b.number) (sort_array l) := by
    haveI : IsTotal ersel (fun a b : ersel => a.number ≤ b.number) :=
      ⟨fun a b => le_total a.number b.number⟩
    haveI : IsTrans ersel (fun a b : ersel => a.number ≤ b.number) :=
      ⟨fun a b c h1 h2 => le_trans h1 h2⟩
    exact List.sorted_insertionSort _ l
  refine List.Pairwise.imp ?_ hs
  intro a b hab
  simp only [erselcompare0, decide_eq_false_iff_not, not_lt]
  exact hab

theorem IsSortOf.length_eq {number : Nat → Nat} {sorted : List ersel}
    (hs : IsSortOf (extract_leaves number) sorted) : sorted.length = letter_count number := by
  rw [hs.1.length_eq, length_extract_leaves]

theorem IsSortOf.mem {number : Nat → Nat} {sorted : List ersel}
    (hs : IsSortOf (extract_leaves number) sorted) {e : ersel} (he : e ∈ sorted) :
    e.left = none ∧ e.right = none ∧ e.character < 256 ∧ number e.character ≠ 0 ∧
      e.number = (number e.character : Int) :=
  mem_extract_leaves (hs.1.subset he)

theorem IsSortOf.nodup {number : Nat → Nat} {sorted : List ersel}
    (hs : IsSortOf (extract_leaves number) sorted) : (sorted.map ersel.character).Nodup := by
  have hp : (sorted.map ersel.character).Perm ((extract_leaves number).map ersel.character) :=
    hs.1.map _
  rw [hp.nodup_iff, map_character_extract_leaves]
  exact (List.nodup_range 256).filter _

theorem IsSortOf.mem_character {number : Nat → Nat} {sorted : List ersel}
    (hs : IsSortOf (extract_leaves number) sorted) (b : Nat) :
    b ∈ sorted.map ersel.character ↔ b < 256 ∧ number b ≠ 0 := by
  have hp : (sorted.map ersel.character).Perm ((extract_leaves number).map ersel.character) :=
    hs.1.map _
  rw [hp.mem_iff, map_character_extract_leaves]
  simp [List.mem_filter]

/-- The table filled from the leaves of a node array that carries the path codes of a tree over
the sorted leaves holds these codes. -/
theorem code_facts_of_build {number : Nat → Nat} {sorted : List ersel}
    (hs : IsSortOf (extract_leaves number) sorted) {a : List ersel} {t : HTree}
    (hlen : a.length + 1 = 2 * sorted.length)
    (hleaves : t.leafIdxs.Perm (List.range sorted.length))
    (hstrip : ∀ i, i < sorted.length → (a[i]?).map strip = (sorted[i]?).map strip)
    (hcodes : ∀ x ∈ t.leafCodes [], (a[x.1]?).map ersel.bit = some x.2) :
    (∀ (i : Nat) (e : ersel), i < sorted.length → a[i]? = some e →
      fill_str_arr (a.take sorted.length) (fun _ => []) e.character = e.bit) ∧
    CodeFacts sorted (fill_str_arr (a.take sorted.length) (fun _ => [])) t := by
  have hchar : (a.take sorted.length).map ersel.character = sorted.map ersel.character := by
    apply List.ext_getElem?
    intro j
    rw [List.getElem?_map, List.getElem?_map, List.getElem?_take]
    by_cases hj : j < sorted.length
    · rw [if_pos hj]
      have := hstrip j hj
      have hja : j < a.length := by omega
      rw [List.getElem?_eq_getElem hja, List.getElem?_eq_getElem hj] at this ⊢
      simp only [Option.map_some', Option.some.injEq] at this ⊢
      exact ((strip_eq_iff _ _).1 this).2.2.2
    · rw [if_neg hj, List.getElem?_eq_none (by omega)]
  have hget : ∀ (i : Nat) (e : ersel), i < sorted.length → a[i]? = some e →
      fill_str_arr (a.take sorted.length) (fun _ => []) e.character = e.bit := by
    intro i e hi he
    apply fill_str_arr_mem
    · rw [hchar]
      exact hs.nodup
    · have : (a.take sorted.length)[i]? = some e := by
        rw [List.getElem?_take, if_pos hi, he]
      exact List.getElem?_mem this
  refine ⟨hget, hleaves, ?_, ?_⟩
  · intro i c hc
    have hi : i < sorted.length := (List.getElem?_eq_some.1 hc).1
    have hia : i < a.length := by omega
    have hmem : i ∈ t.leafIdxs := hleaves.symm.subset (List.mem_range.2 hi)
    rw [← t.leafCodes_map_fst []] at hmem
    obtain ⟨x, hx, hxi⟩ := List.mem_map.1 hmem
    have h2 := hcodes x hx
    rw [hxi, List.getElem?_eq_getElem hia] at h2
    simp only [Option.map_some', Option.some.injEq] at h2
    have h3 := hstrip i hi
    rw [List.getElem?_eq_getElem hia, hc] at h3
    simp only [Option.map_some', Option.some.injEq] at h3
    have h4 := hget i a[i] hi (List.getElem?_eq_getElem hia)
    rw [((strip_eq_iff _ _).1 h3).2.2.2] at h4
    rw [h4, h2, ← hxi]
    exact hx
  · intro b hb
    apply fill_str_arr_other
    rw [hchar]
    exact hb

/-- The table built from a histogram with at least one byte: it exists, and it holds the path
codes of a tree over the sorted leaves. -/
theorem code_table_spec {number : Nat → Nat} {sorted : List ersel}
    (hs : IsSortOf (extract_leaves number) sorted) (hpos : ∃ b, b < 256 ∧ 0 < number b) :
    ∃ (str_arr : Nat → List Char) (a : List ersel) (t : HTree),
      build_tree sorted = some (a, 2 * sorted.length - 2) ∧
      code_table sorted = some str_arr ∧
      str_arr = fill_str_arr (a.take sorted.length) (fun _ => []) ∧
      (∀ i, i < sorted.length → (a[i]?).map strip = (sorted[i]?).map strip) ∧
      (∀ (i : Nat) (e : ersel), i < sorted.length → a[i]? = some e →
        str_arr e.character = e.bit) ∧
      CodeFacts sorted str_arr t := by
  obtain ⟨b, hb, hbpos⟩ := hpos
  have h1 : 1 ≤ sorted.length := by rw [hs.length_eq]; exact letter_count_pos hb hbpos
  have hn : sorted.length ≤ 256 := by rw [hs.length_eq]; exact letter_count_le _
  obtain ⟨a, t, hbuild, hlen, _, _, _, hleaves, hstrip, hcodes, _⟩ :=
    build_tree_spec h1 hn (fun e he => ⟨(hs.mem he).1, (hs.mem he).2.1⟩)
  obtain ⟨hget, hfacts⟩ := code_facts_of_build hs hlen hleaves hstrip hcodes
  refine ⟨_, a, t, hbuild, ?_, rfl, hstrip, hget, hfacts⟩
  simp only [code_table, hbuild, Option.map_some']

/-! ## The bit packer appends bits -/

theorem Appends.refl {c : BitCursor} (h : Valid c) : Appends c c [] :=
  ⟨h, ⟨[], by simp⟩, by simp, fun h1 => h1.elim id (fun h2 => absurd rfl h2)⟩

theorem Appends.trans {c1 c2 c3 : BitCursor} {b1 b2 : List Bool}
    (h1 : Appends c1 c2 b1) (h2 : Appends c2 c3 b2) : Appends c1 c3 (b1 ++ b2) := by
  refine ⟨h2.valid, ?_, ?_, ?_⟩
  · obtain ⟨r1, e1⟩ := h1.out_ext
    obtain ⟨r2, e2⟩ := h2.out_ext
    exact ⟨r1 ++ r2, by rw [e2, e1, List.append_assoc]⟩
  · rw [h2.stream_eq, h1.stream_eq, List.append_assoc]
  · intro h
    by_cases hb2 : b2 = []
    · apply h2.pos
      left
      apply h1.pos
      rcases h with h | h
      · exact Or.inl h
      · right
        intro hb1
        exact h (by rw [hb1, hb2]; rfl)
    · exact h2.pos (Or.inr hb2)

theorem bits_of_nat_succ (k x b : Nat) (hb : b ≤ 1) :
    bits_of_nat (k + 1) (2 * x + b) = bits_of_nat k x ++ [decide (b = 1)] := by
  unfold bits_of_nat
  rw [List.range_succ, List.map_append]
  congr 1
  · apply List.map_congr_left
    intro i hi
    have hi' : i < k := List.mem_range.1 hi
    have e : k + 1 - 1 - i = (k - 1 - i) + 1 := by omega
    rw [e, Nat.testBit_succ]
    congr 1
    omega
  · simp only [List.map_cons, List.map_nil, Nat.add_sub_cancel, Nat.sub_self]
    rw [Nat.testBit_zero]
    congr 1
    have : (2 * x + b) % 2 = b := by omega
    rw [this]

theorem shift_byte (x b : Nat) (hx : x < 128) (hb : b ≤ 1) :
    ((x <<< 1) % 256) ||| b = 2 * x + b := by
  have h : ∀ x < 128, ∀ b < 2, ((x <<< 1) % 256) ||| b = 2 * x + b := by decide
  exact h x hx b (by omega)

theorem bytes_to_bits_append (l1 l2 : List Nat) :
    bytes_to_bits (l1 ++ l2) = bytes_to_bits l1 ++ bytes_to_bits l2 := by
  simp [bytes_to_bits]

theorem length_bits_of_nat (w n : Nat) : (bits_of_nat w n).length = w := by
  simp [bits_of_nat]

theorem length_bytes_to_bits (l : List Nat) : (bytes_to_bits l).length = 8 * l.length := by
  induction l with
  | nil => rfl
  | cons x xs ih =>
    have : bytes_to_bits (x :: xs) = bits_of_nat 8 x ++ bytes_to_bits xs := rfl
    rw [this, List.length_append, ih, length_bits_of_nat, List.length_cons]
    omega

/-- One bit written after the `current_bit_count == 8` test. -/
theorem appends_bit {c : BitCursor} (h : Valid c) (b : Nat) (hb : b ≤ 1) :
    Appends c (shift_in (flush_full c) b) [decide (b = 1)] := by
  obtain ⟨h1, h2⟩ := h
  by_cases h8 : c.current_bit_count = 8
  · have hf : flush_full c =
        { current_byte := 0, current_bit_count := 0, out := c.out ++ [c.current_byte] } := by
      simp [flush_full, h8]
    rw [hf]
    refine ⟨⟨by simp [shift_in], ?_⟩, ⟨[c.current_byte], rfl⟩, ?_, fun _ => by simp [shift_in]⟩
    · simp only [shift_in]
      rw [shift_byte 0 b (by omega) hb]
      simp only [Nat.mul_zero, Nat.zero_add, Nat.pow_one]
      omega
    · simp only [stream, shift_in]
      rw [shift_byte 0 b (by omega) hb, bytes_to_bits_append, h8]
      have := bits_of_nat_succ 0 0 b hb
      simp only [Nat.mul_zero, Nat.zero_add] at this ⊢
      rw [this]
      simp [bytes_to_bits, bits_of_nat]
  · have hf : flush_full c = c := by simp [flush_full, h8]
    rw [hf]
    have hlt : c.current_bit_count < 8 := by omega
    have hx : c.current_byte < 128 := by
      have : 2 ^ c.current_bit_count ≤ 2 ^ 7 := Nat.pow_le_pow_right (by omega) (by omega)
      omega
    refine ⟨⟨by simp only [shift_in]; omega, ?_⟩, ⟨[], by simp [shift_in]⟩, ?_,
      fun _ => by simp [shift_in]⟩
    · simp only [shift_in]
      rw [shift_byte _ b hx hb, Nat.pow_succ]
      omega
    · simp only [stream, shift_in]
      rw [shift_byte _ b hx hb, bits_of_nat_succ _ _ _ hb, List.append_assoc]

/-- A marker bit written without the test, on a cursor with fewer than eight pending bits. -/
theorem appends_marker {c : BitCursor} (h : Valid c) (hlt : c.current_bit_count < 8)
    (b : Nat) (hb : b ≤ 1) : Appends c (shift_in c b) [decide (b = 1)] := by
  have := appends_bit h b hb
  have hf : flush_full c = c := by
    simp only [flush_full]
    rw [if_neg (by omega)]
  rwa [hf] at this

theorem shift_one_eq (c : BitCursor) : shift_one c = shift_in c 1 := rfl

theorem shift_zero_eq (c : BitCursor) : shift_zero c = shift_in c 0 := by
  simp [shift_zero, shift_in]

theorem bit_of_uChar (u j : Nat) :
    (u >>> j) &&& 1 ≤ 1 ∧ decide ((u >>> j) &&& 1 = 1) = u.testBit j := by
  rw [Nat.and_one_is_mod, Nat.shiftRight_eq_div_pow, Nat.testBit_to_div_mod]
  exact ⟨by omega, rfl⟩

theorem appends_uChar_aux (u : Nat) (l : List Nat) : ∀ c : BitCursor, Valid c →
    Appends c (l.foldl (fun c i => shift_in (flush_full c) ((u >>> (7 - i)) &&& 1)) c)
      (l.map fun i => u.testBit (7 - i)) := by
  induction l with
  | nil => exact fun c h => Appends.refl h
  | cons i is ih =>
    intro c h
    have h1 := appends_bit h ((u >>> (7 - i)) &&& 1) (bit_of_uChar u (7 - i)).1
    rw [(bit_of_uChar u (7 - i)).2] at h1
    exact h1.trans (ih _ h1.valid)

/-- `write_from_uChar` appends the eight bits of its argument, most significant first. -/
theorem appends_uChar (u : Nat) {c : BitCursor} (h : Valid c) :
    Appends c (write_from_uChar u c) (bits_of_nat 8 u) :=
  appends_uChar_aux u (List.range 8) c h

theorem appends_code (code : List Char) (hcode : ∀ ch ∈ code, ch = '0' ∨ ch = '1') :
    ∀ c : BitCursor, Valid c →
      ∃ c', write_code code c = some c' ∧ Appends c c' (code_bits code) := by
  induction code with
  | nil => exact fun c h => ⟨c, rfl, Appends.refl h⟩
  | cons ch rest ih =>
    intro c h
    have hrest : ∀ x ∈ rest, x = '0' ∨ x = '1' := fun x hx => hcode x (List.mem_cons_of_mem _ hx)
    rcases hcode ch (List.mem_cons_self _ _) with h0 | h1
    · subst h0
      have hb := appends_bit h 0 (by omega)
      obtain ⟨c', hc', ha⟩ := ih hrest _ hb.valid
      refine ⟨c', ?_, ?_⟩
      · rw [write_code, if_neg (by decide), if_neg (by decide), if_pos rfl, shift_zero_eq]
        exact hc'
      · exact hb.trans ha
    · subst h1
      have hb := appends_bit h 1 (by omega)
      obtain ⟨c', hc', ha⟩ := ih hrest _ hb.valid
      refine ⟨c', ?_, ?_⟩
      · rw [write_code, if_neg (by decide), if_pos rfl, shift_one_eq]
        exact hc'
      · exact hb.trans ha

theorem appends_codes (str_arr : Nat → List Char) (bytes : List Nat)
    (hcode : ∀ b ∈ bytes, ∀ ch ∈ str_arr b, ch = '0' ∨ ch = '1') :
    ∀ c : BitCursor, Valid c →
      ∃ c', write_codes bytes str_arr c = some c' ∧
        Appends c c' (bytes.flatMap fun b => code_bits (str_arr b)) := by
  induction bytes with
  | nil => exact fun c h => ⟨c, rfl, Appends.refl h⟩
  | cons b bs ih =>
    intro c h
    obtain ⟨c1, hc1, ha1⟩ := appends_code (str_arr b) (hcode b (List.mem_cons_self _ _)) c h
    obtain ⟨c2, hc2, ha2⟩ := ih (fun x hx => hcode x (List.mem_cons_of_mem _ hx)) c1 ha1.valid
    refine ⟨c2, ?_, ?_⟩
    · rw [write_codes, hc1]
      exact hc2
    · exact ha1.trans ha2

theorem appends_size_aux (size : Nat) (l : List Nat) : ∀ c : BitCursor, Valid c →
    Appends c
      (l.foldl (fun c i => write_from_uChar ((size >>> ((7 - i) * 8)) &&& 0xFF) c) c)
      (l.flatMap fun i => bits_of_nat 8 ((size >>> ((7 - i) * 8)) &&& 0xFF)) := by
  induction l with
  | nil => exact fun c h => Appends.refl h
  | cons i is ih =>
    intro c h
    have h1 := appends_uChar ((size >>> ((7 - i) * 8)) &&& 0xFF) h
    exact h1.trans (ih _ h1.valid)

theorem testBit_byte_of (size m k : Nat) (hk : k < 8) :
    ((size >>> (m * 8)) &&& 0xFF).testBit k = size.testBit (m * 8 + k) := by
  have h255 : ∀ j < 8, Nat.testBit 255 j = true := by decide
  rw [Nat.testBit_and, Nat.testBit_shiftRight, h255 k hk, Bool.and_true]

theorem bits_of_size (size : Nat) :
    ((List.range 8).flatMap fun i => bits_of_nat 8 ((size >>> ((7 - i) * 8)) &&& 0xFF)) =
      bits_of_nat 64 size := by
  have e : ∀ m, bits_of_nat 8 ((size >>> (m * 8)) &&& 0xFF) =
      (List.range 8).map fun k => size.testBit (m * 8 + (7 - k)) := by
    intro m
    unfold bits_of_nat
    apply List.map_congr_left
    intro k _
    exact testBit_byte_of size m (7 - k) (by omega)
  simp only [e]
  rfl

/-- `write_file_size` appends the 64 bits of the size, most significant first. -/
theorem appends_size (size : Nat) {c : BitCursor} (h : Valid c) :
    Appends c (write_file_size size c) (bits_of_nat 64 size) := by
  have := appends_size_aux size (List.range 8) c h
  rwa [bits_of_size] at this

set_option maxRecDepth 100000 in
theorem bits_of_padded : ∀ k < 9, ∀ x < 2 ^ k,
    bits_of_nat 8 ((x <<< (8 - k)) % 256) = bits_of_nat k x ++ List.replicate (8 - k) false := by
  decide

/-- The flush at the end of a top-level file completes the pending bits with zeros to one more
byte and leaves the cursor empty. -/
theorem flush_item_spec {c : BitCursor} (h : Valid c) (hpos : 1 ≤ c.current_bit_count) :
    (flush_item c).current_byte = 0 ∧ (flush_item c).current_bit_count = 0 ∧
      ∃ last, (flush_item c).out = c.out ++ [last] ∧
        bytes_to_bits (flush_item c).out =
          stream c ++ List.replicate (8 - c.current_bit_count) false := by
  have hf : flush_item c =
      { current_byte := 0, current_bit_count := 0,
        out := c.out ++ [(c.current_byte <<< (8 - c.current_bit_count)) % 256] } := by
    simp only [flush_item]
    rw [if_pos (by omega)]
  rw [hf]
  refine ⟨rfl, rfl, _, rfl, ?_⟩
  simp only [stream]
  rw [bytes_to_bits_append, List.append_assoc,
    ← bits_of_padded c.current_bit_count (by have := h.1; omega) c.current_byte h.2]
  simp [bytes_to_bits]

/-! ## Properties of the code table -/

theorem CodeFacts.lookup {sorted : List ersel} {str_arr : Nat → List Char} {t : HTree}
    (h : CodeFacts sorted str_arr t) {b : Nat} (hb : b ∈ sorted.map ersel.character) :
    ∃ i, i < sorted.length ∧ (i, str_arr b) ∈ t.leafCodes [] := by
  obtain ⟨c, hc, rfl⟩ := List.mem_map.1 hb
  obtain ⟨i, hi, hic⟩ := List.getElem_of_mem hc
  exact ⟨i, hi, h.code i c (by rw [List.getElem?_eq_getElem hi, hic])⟩

theorem CodeFacts.bits {sorted : List ersel} {str_arr : Nat → List Char} {t : HTree}
    (h : CodeFacts sorted str_arr t) (b : Nat) :
    ∀ ch ∈ str_arr b, ch = '0' ∨ ch = '1' := by
  by_cases hb : b ∈ sorted.map ersel.character
  · obtain ⟨i, _, hi⟩ := h.lookup hb
    exact t.leafCodes_bits [] (fun ch hch => by cases hch) _ hi
  · rw [h.other b hb]
    intro ch hch
    cases hch

theorem CodeFacts.length_le {sorted : List ersel} {str_arr : Nat → List Char} {t : HTree}
    (h : CodeFacts sorted str_arr t) (b : Nat) :
    (str_arr b).length ≤ sorted.length - 1 := by
  by_cases hb : b ∈ sorted.map ersel.character
  · obtain ⟨i, _, hi⟩ := h.lookup hb
    have h1 := t.leafCodes_length_le [] _ hi
    have h2 := t.height_le
    have h3 := t.length_leafIdxs
    have h4 := h.leaves.length_eq
    rw [List.length_range] at h4
    simp only [List.length_nil] at h1
    omega
  · rw [h.other b hb]
    simp

theorem CodeFacts.prefix_free {sorted : List ersel} {str_arr : Nat → List Char} {t : HTree}
    (h : CodeFacts sorted str_arr t) {b b' : Nat}
    (hb : b ∈ sorted.map ersel.character) (hb' : b' ∈ sorted.map ersel.character)
    (hpre : str_arr b <+: str_arr b') : b = b' := by
  obtain ⟨c, hc, rfl⟩ := List.mem_map.1 hb
  obtain ⟨c', hc', rfl⟩ := List.mem_map.1 hb'
  obtain ⟨i, hi, hic⟩ := List.getElem_of_mem hc
  obtain ⟨j, hj, hjc⟩ := List.getElem_of_mem hc'
  have h1 := h.code i c (by rw [List.getElem?_eq_getElem hi, hic])
  have h2 := h.code j c' (by rw [List.getElem?_eq_getElem hj, hjc])
  have h3 := t.leafCodes_prefix_free [] _ h1 _ h2 hpre
  have hij : i = j := congrArg Prod.fst h3
  subst hij
  rw [← hic, ← hjc]

/-- With at least two leaves every code has at least one character. -/
theorem CodeFacts.nonempty {sorted : List ersel} {str_arr : Nat → List Char} {t : HTree}
    (h : CodeFacts sorted str_arr t) (h2 : 2 ≤ sorted.length) {b : Nat}
    (hb : b ∈ sorted.map ersel.character) : 1 ≤ (str_arr b).length := by
  obtain ⟨i, _, hi⟩ := h.lookup hb
  have h4 := h.leaves.length_eq
  rw [List.length_range] at h4
  cases t with
  | leaf k =>
    simp only [HTree.leafIdxs, List.length_singleton] at h4
    omega
  | node k l r =>
    have := HTree.leafCodes_length_gt k l r [] _ hi
    simp only [List.length_nil] at this
    omega

/-- C1 (prefix-freeness).  For every histogram with at least one byte and every admissible
result of the sort, the builder produces a code table, and in it the code of a byte that occurs
is never a prefix of the code of a different byte that occurs. -/
theorem prefix_freeness (number : Nat → Nat) (sorted : List ersel)
    (hs : IsSortOf (extract_leaves number) sorted) (hpos : ∃ b, b < 256 ∧ 0 < number b) :
    ∃ str_arr, code_table sorted = some str_arr ∧
      ∀ b b', b < 256 → b' < 256 → 0 < number b → 0 < number b' → b ≠ b' →
        ¬ (str_arr b <+: str_arr b') := by
  obtain ⟨str_arr, a, t, _, htab, _, _, _, hfacts⟩ := code_table_spec hs hpos
  refine ⟨str_arr, htab, ?_⟩
  intro b b' hb hb' hnb hnb' hne hpre
  exact hne (hfacts.prefix_free ((hs.mem_character b).2 ⟨hb, by omega⟩)
    ((hs.mem_character b').2 ⟨hb', by omega⟩) hpre)

/-- Witness of `prefix_freeness`: the histogram `{A:3, B:2, C:1}`. -/
theorem prefix_freeness_witness :
    IsSortOf (extract_leaves hist_ABC) (sort_array (extract_leaves hist_ABC)) ∧
    (∃ b, b < 256 ∧ 0 < hist_ABC b) ∧
    ∃ str_arr, code_table (sort_array (extract_leaves hist_ABC)) = some str_arr ∧
      ∀ b b', b < 256 → b' < 256 → 0 < hist_ABC b → 0 < hist_ABC b' → b ≠ b' →
        ¬ (str_arr b <+: str_arr b') :=
  ⟨sort_array_isSortOf _, ⟨65, by decide, by decide⟩,
    prefix_freeness hist_ABC _ (sort_array_isSortOf _) ⟨65, by decide, by decide⟩⟩

/-- C8 at the failing input: when `a` is the only byte of the histogram, the builder gives it
the empty code and does not reject the input. -/
theorem single_byte_code_empty :
    letter_count hist_a = 1 ∧
    (code_table (sort_array (extract_leaves hist_a))).map (fun str_arr => str_arr 97)
      = some [] := by
  decide

/-- With two or more bytes in the histogram every byte that occurs has a code of at least one
character: the empty code arises for a single byte only. -/
theorem codes_nonempty_of_two (number : Nat → Nat) (sorted : List ersel)
    (hs : IsSortOf (extract_leaves number) sorted) (h2 : 2 ≤ letter_count number) :
    ∃ str_arr, code_table sorted = some str_arr ∧
      ∀ b, b < 256 → 0 < number b → 1 ≤ (str_arr b).length := by
  have hpos : ∃ b, b < 256 ∧ 0 < number b := by
    have hlen : 0 < ((List.range 256).filter (fun i => number i ≠ 0)).length := by
      unfold letter_count at h2
      omega
    obtain ⟨b, hb⟩ := List.exists_mem_of_length_pos hlen
    simp only [List.mem_filter, List.mem_range] at hb
    exact ⟨b, hb.1, Nat.pos_of_ne_zero (by simpa using hb.2)⟩
  obtain ⟨str_arr, a, t, _, htab, _, _, _, hfacts⟩ := code_table_spec hs hpos
  refine ⟨str_arr, htab, ?_⟩
  intro b hb hbpos
  exact hfacts.nonempty (by rw [hs.length_eq]; exact h2)
    ((hs.mem_character b).2 ⟨hb, by omega⟩)

/-- C9 (code length fits one byte).  For every histogram with `n ≥ 1` bytes, every leaf of the
final node array carries a code of length at most `n - 1`, hence at most 255, so the value
`len` stored in an `unsigned char` is the length itself. -/
theorem code_length_fits (number : Nat → Nat) (sorted : List ersel)
    (hs : IsSortOf (extract_leaves number) sorted) (hpos : ∃ b, b < 256 ∧ 0 < number b) :
    ∃ array root, build_tree sorted = some (array, root) ∧
      1 ≤ letter_count number ∧ letter_count number ≤ 256 ∧
      ∀ (i : Nat) (e : ersel), i < letter_count number → array[i]? = some e →
        e.bit.length ≤ letter_count number - 1 ∧ e.bit.length ≤ 255 ∧
        e.bit.length % 256 = e.bit.length := by
  obtain ⟨str_arr, a, t, hbuild, _, _, _, hget, hfacts⟩ := code_table_spec hs hpos
  obtain ⟨b, hb, hbpos⟩ := hpos
  have h1 := letter_count_pos hb hbpos
  have h2 := letter_count_le number
  refine ⟨a, _, hbuild, h1, h2, ?_⟩
  intro i e hi he
  rw [← hs.length_eq] at hi
  have h3 := hfacts.length_le e.character
  rw [hget i e hi he, hs.length_eq] at h3
  refine ⟨h3, by omega, ?_⟩
  exact Nat.mod_eq_of_lt (by omega)

/-- Witness of `code_length_fits`: the histogram `{A:3, B:2, C:1}`. -/
theorem code_length_fits_witness :
    ∃ array root, build_tree (sort_array (extract_leaves hist_ABC)) = some (array, root) ∧
      1 ≤ letter_count hist_ABC ∧ letter_count hist_ABC ≤ 256 ∧
      ∀ (i : Nat) (e : ersel), i < letter_count hist_ABC → array[i]? = some e →
        e.bit.length ≤ letter_count hist_ABC - 1 ∧ e.bit.length ≤ 255 ∧
        e.bit.length % 256 = e.bit.length :=
  code_length_fits hist_ABC _ (sort_array_isSortOf _) ⟨65, by decide, by decide⟩

/-! ## Records and header -/

theorem valid_empty (buffer : List Nat) :
    Valid { current_byte := 0, current_bit_count := 0, out := buffer } := by
  constructor <;> simp

theorem length_code_bits (code : List Char) : (code_bits code).length = code.length := by
  simp [code_bits]

theorem length_file_record_bits (str_arr : Nat → List Char) (content : List Nat) :
    (file_record_bits str_arr content).length =
      65 + (content.map fun b => (str_arr b).length).sum := by
  have e : (content.flatMap fun b => code_bits (str_arr b)).length =
      (content.map fun b => (str_arr b).length).sum := by
    induction content with
    | nil => rfl
    | cons x xs ih =>
      simp only [List.flatMap_cons, List.length_append, ih, length_code_bits, List.map_cons,
        List.sum_cons]
  simp only [file_record_bits, List.length_cons, List.length_append, length_bits_of_nat, e]
  omega

/-- C6 (top-level file record).  For every table of codes over `'0'` and `'1'` and every file
content, the pass-2 body started on an empty bit cursor succeeds, appends to the thread buffer
a record whose bits are the marker `1`, the size as 64 bits most significant first and the codes
of the content bytes, followed by fewer than eight zero bits, of `⌈(65 + Σ|C[b]|)/8⌉` bytes in
all, and leaves the cursor empty. -/
theorem top_level_file_record (str_arr : Nat → List Char) (name content buffer : List Nat)
    (hcode : ∀ b ∈ content, ∀ ch ∈ str_arr b, ch = '0' ∨ ch = '1') :
    ∃ c' rec pad,
      compress_item str_arr { current_byte := 0, current_bit_count := 0, out := buffer }
        { name := name, target := .file content } = some c' ∧
      c'.current_bit_count = 0 ∧ c'.current_byte = 0 ∧
      c'.out = buffer ++ rec ∧
      bytes_to_bits rec = file_record_bits str_arr content ++ List.replicate pad false ∧
      pad < 8 ∧
      rec.length = (65 + (content.map fun b => (str_arr b).length).sum + 7) / 8 := by
  have h0 := valid_empty buffer
  have hm := appends_marker h0 (by simp) 1 (by omega)
  have hsz := appends_size content.length hm.valid
  obtain ⟨c3, hc3, hw⟩ := appends_codes str_arr content hcode _ hsz.valid
  have hall := (hm.trans hsz).trans hw
  have hpos : 1 ≤ c3.current_bit_count := hall.pos (Or.inr (by simp))
  obtain ⟨hb, hcnt, last, hout, hbits⟩ := flush_item_spec hw.valid hpos
  obtain ⟨rec3, hrec3⟩ := hall.out_ext
  have hstream : stream c3 = bytes_to_bits buffer ++ file_record_bits str_arr content := by
    rw [hall.stream_eq]
    simp [stream, bits_of_nat, file_record_bits]
  have hrecbits : bytes_to_bits (rec3 ++ [last]) = file_record_bits str_arr content ++
      List.replicate (8 - c3.current_bit_count) false := by
    have e1 : (flush_item c3).out = buffer ++ (rec3 ++ [last]) := by
      rw [hout, hrec3, List.append_assoc]
    rw [e1, hstream, bytes_to_bits_append, List.append_assoc] at hbits
    exact List.append_cancel_left hbits
  refine ⟨flush_item c3, rec3 ++ [last], 8 - c3.current_bit_count, ?_, hcnt, hb, ?_, hrecbits,
    by omega, ?_⟩
  · simp only [compress_item, write_the_file_content]
    rw [shift_one_eq, hc3]
    rfl
  · rw [hout, hrec3, List.append_assoc]
  · have hl := congrArg List.length hrecbits
    rw [length_bytes_to_bits, @List.length_append _ (file_record_bits str_arr content),
      length_file_record_bits, List.length_replicate] at hl
    omega

/-- Witness of `top_level_file_record`: the file holding the byte `b`, coded `0`. -/
theorem top_level_file_record_witness :
    (∀ b ∈ [98], ∀ ch ∈ table_01 b, ch = '0' ∨ ch = '1') ∧
    ∃ c' rec pad,
      compress_item table_01 { current_byte := 0, current_bit_count := 0, out := [] }
        { name := [97], target := .file [98] } = some c' ∧
      c'.current_bit_count = 0 ∧ c'.current_byte = 0 ∧
      c'.out = [] ++ rec ∧
      bytes_to_bits rec = file_record_bits table_01 [98] ++ List.replicate pad false ∧
      pad < 8 ∧
      rec.length = (65 + ([98].map fun b => (table_01 b).length).sum + 7) / 8 :=
  ⟨by decide, top_level_file_record table_01 [97] [98] [] (by decide)⟩

theorem appends_code_table (l : List ersel)
    (hbits : ∀ e ∈ l, ∀ ch ∈ e.bit, ch = '0' ∨ ch = '1') :
    ∀ (f : Nat → List Char) (c : BitCursor), Valid c →
      ∃ c', write_code_table l f c = some (fill_str_arr l f, c') ∧
        Appends c c' (l.flatMap fun e =>
          bits_of_nat 8 e.character ++
            (bits_of_nat 8 (e.bit.length % 256) ++ code_bits e.bit)) := by
  induction l with
  | nil => exact fun f c h => ⟨c, rfl, Appends.refl h⟩
  | cons e es ih =>
    intro f c h
    have h1 := appends_uChar e.character h
    have h2 := appends_uChar (e.bit.length % 256) h1.valid
    obtain ⟨c3, hc3, h3⟩ := appends_code e.bit (hbits e (List.mem_cons_self _ _)) _ h2.valid
    obtain ⟨c4, hc4, h4⟩ := ih (fun x hx => hbits x (List.mem_cons_of_mem _ hx))
      (Function.update f e.character e.bit) c3 h3.valid
    refine ⟨c4, ?_, ?_⟩
    · simp only [write_code_table, hc3]
      rw [hc4]
      rfl
    · have := ((h1.trans h2).trans h3).trans h4
      simpa [List.flatMap_cons, List.append_assoc] using this

/-- C7 (code-table completeness and layout).  For every histogram with at least one byte,
every admissible result of the sort and every valid header cursor, the table loop succeeds; the
entries are the sorted leaves, whose bytes are pairwise different and are exactly the bytes
below 256 with a positive count, in non-decreasing order of count; the stream grows by the
entries in that order, each one the byte as 8 bits, the code length (at most 255) as 8 bits and
the code; and the code written for a byte is the entry of `str_arr` handed to pass 2. -/
theorem code_table_layout (number : Nat → Nat) (sorted : List ersel)
    (hs : IsSortOf (extract_leaves number) sorted) (hpos : ∃ b, b < 256 ∧ 0 < number b)
    (c : BitCursor) (hc : Valid c) :
    ∃ array root str_arr c',
      build_tree sorted = some (array, root) ∧
      write_code_table (array.take sorted.length) (fun _ => []) c = some (str_arr, c') ∧
      code_table sorted = some str_arr ∧
      (sorted.map ersel.character).Nodup ∧
      (∀ b, b ∈ sorted.map ersel.character ↔ b < 256 ∧ 0 < number b) ∧
      sorted.Pairwise (fun e1 e2 => number e1.character ≤ number e2.character) ∧
      (∀ b, (str_arr b).length ≤ 255) ∧
      stream c' = stream c ++
        sorted.flatMap (fun e => table_entry_bits e.character (str_arr e.character)) := by
  obtain ⟨str_arr, a, t, hbuild, htab, hdef, hstrip, hget, hfacts⟩ := code_table_spec hs hpos
  have hn : sorted.length ≤ 256 := by rw [hs.length_eq]; exact letter_count_le _
  have hlen : ∀ b, (str_arr b).length ≤ 255 := by
    intro b
    have := hfacts.length_le b
    omega
  have hmemL : ∀ e ∈ a.take sorted.length, e.bit = str_arr e.character := by
    intro e he
    obtain ⟨i, hi, hie⟩ := List.getElem_of_mem he
    have hi' : i < sorted.length := by
      rw [List.length_take] at hi
      omega
    have : a[i]? = some e := by
      have h1 : (a.take sorted.length)[i]? = some e := by
        rw [List.getElem?_eq_getElem hi, hie]
      rwa [List.getElem?_take, if_pos hi'] at h1
    exact (hget i e hi' this).symm
  obtain ⟨c', hc', happ⟩ := appends_code_table (a.take sorted.length)
    (fun e he => by rw [hmemL e he]; exact hfacts.bits _) (fun _ => []) c hc
  have hpairs : (a.take sorted.length).map (fun e => (e.character, e.bit)) =
      sorted.map (fun e => (e.character, str_arr e.character)) := by
    apply List.ext_getElem?
    intro j
    rw [List.getElem?_map, List.getElem?_map, List.getElem?_take]
    by_cases hj : j < sorted.length
    · rw [if_pos hj]
      have h1 := hstrip j hj
      rw [List.getElem?_eq_getElem hj] at h1 ⊢
      obtain ⟨e, he, hse⟩ := Option.map_eq_some'.1 h1
      rw [he]
      simp only [Option.map_some', Option.some.injEq, Prod.mk.injEq]
      have hch := ((strip_eq_iff _ _).1 hse).2.2.2
      refine ⟨hch, ?_⟩
      rw [← hget j e hj he, hch]
    · rw [if_neg hj, List.getElem?_eq_none (by omega)]
      rfl
  have hflat : ((a.take sorted.length).flatMap fun e =>
      bits_of_nat 8 e.character ++ (bits_of_nat 8 (e.bit.length % 256) ++ code_bits e.bit)) =
      sorted.flatMap (fun e => table_entry_bits e.character (str_arr e.character)) := by
    have e1 : ((a.take sorted.length).flatMap fun e =>
        bits_of_nat 8 e.character ++ (bits_of_nat 8 (e.bit.length % 256) ++ code_bits e.bit)) =
        ((a.take sorted.length).map (fun e => (e.character, e.bit))).flatMap
          (fun p => table_entry_bits p.1 p.2) := by
      rw [List.flatMap_map]
      apply List.flatMap_congr
      intro e he
      have : e.bit.length % 256 = e.bit.length := by
        apply Nat.mod_eq_of_lt
        have := hlen e.character
        rw [← hmemL e he] at this
        omega
      simp only [table_entry_bits, this]
    rw [e1, hpairs, List.flatMap_map]
  refine ⟨a, _, str_arr, c', hbuild, ?_, htab, hs.nodup, ?_, ?_, hlen, ?_⟩
  · rw [hc', hdef]
  · intro b
    rw [hs.mem_character b]
    constructor
    · exact fun h => ⟨h.1, Nat.pos_of_ne_zero h.2⟩
    · exact fun h => ⟨h.1, Nat.pos_iff_ne_zero.1 h.2⟩
  · refine List.Pairwise.imp_of_mem ?_ hs.2
    intro e1 e2 h1 h2 h12
    simp only [erselcompare0, decide_eq_false_iff_not, not_lt] at h12
    rw [(hs.mem h1).2.2.2.2, (hs.mem h2).2.2.2.2] at h12
    exact_mod_cast h12
  · rw [happ.stream_eq, hflat]

/-- Witness of `code_table_layout`: the histogram `{A:3, B:2, C:1}` and the empty cursor. -/
theorem code_table_layout_witness :
    ∃ array root str_arr c',
      build_tree (sort_array (extract_leaves hist_ABC)) = some (array, root) ∧
      write_code_table (array.take (sort_array (extract_leaves hist_ABC)).length) (fun _ => [])
        { current_byte := 0, current_bit_count := 0, out := [] } = some (str_arr, c') ∧
      code_table (sort_array (extract_leaves hist_ABC)) = some str_arr ∧
      ((sort_array (extract_leaves hist_ABC)).map ersel.character).Nodup ∧
      (∀ b, b ∈ (sort_array (extract_leaves hist_ABC)).map ersel.character ↔
        b < 256 ∧ 0 < hist_ABC b) ∧
      (sort_array (extract_leaves hist_ABC)).Pairwise
        (fun e1 e2 => hist_ABC e1.character ≤ hist_ABC e2.character) ∧
      (∀ b, (str_arr b).length ≤ 255) ∧
      stream c' = stream { current_byte := 0, current_bit_count := 0, out := [] } ++
        (sort_array (extract_leaves hist_ABC)).flatMap
          (fun e => table_entry_bits e.character (str_arr e.character)) :=
  code_table_layout hist_ABC _ (sort_array_isSortOf _) ⟨65, by decide, by decide⟩ _
    (valid_empty [])

/-- C10 (letter_count byte).  Whenever the program completes, the first byte of the archive is
the number of bytes with a positive count modulo 256; and for a histogram with at least one
byte that value is 0 exactly when all 256 byte values occur. -/
theorem letter_count_byte (r : Run) (bytes : List Nat) (h : main r = some bytes) :
    bytes.head? = some (letter_count r.number % 256) ∧
    ((∃ b, b < 256 ∧ 0 < r.number b) →
      (letter_count r.number % 256 = 0 ↔ ∀ b, b < 256 → 0 < r.number b)) := by
  constructor
  · unfold main at h
    split at h
    · cases h
    · split at h
      · cases h
      · split at h
        · cases h
        · split at h
          · cases h
          · split at h
            · cases h
            · split at h
              · cases h
              · cases h
                rfl
  · rintro ⟨b, hb, hbpos⟩
    have h1 := letter_count_pos hb hbpos
    have h2 := letter_count_le r.number
    have key : letter_count r.number = 256 ↔ ∀ b, b < 256 → 0 < r.number b := by
      unfold letter_count
      have e := @List.filter_length_eq_length Nat (fun i => decide (r.number i ≠ 0))
        (List.range 256)
      rw [List.length_range] at e
      rw [e]
      constructor
      · intro h b hb
        have := h b (List.mem_range.2 hb)
        simpa [Nat.pos_iff_ne_zero] using this
      · intro h b hb
        have := h b (List.mem_range.1 hb)
        simpa [Nat.pos_iff_ne_zero] using this
    rw [← key]
    omega

/-- Witness of `letter_count_byte`: the run on the file `a` holding the byte `b`. -/
theorem letter_count_byte_witness :
    main run_file_a = some [2, 0, 97, 1, 177, 0, 128, 64, 128, 0, 0, 0, 0, 0, 0, 0, 128] ∧
    [2, 0, 97, 1, 177, 0, 128, 64, 128, 0, 0, 0, 0, 0, 0, 0, 128].head? =
      some (letter_count run_file_a.number % 256) ∧
    ((∃ b, b < 256 ∧ 0 < run_file_a.number b) →
      (letter_count run_file_a.number % 256 = 0 ↔ ∀ b, b < 256 → 0 < run_file_a.number b)) :=
  ⟨by rfl, letter_count_byte run_file_a _ (by rfl)⟩

/-- After `write_file_count` the header cursor always holds between one and eight bits that
have not been emitted. -/
theorem write_file_count_pending (file_count : Nat) {c : BitCursor} (h : Valid c) :
    1 ≤ (write_file_count file_count c).current_bit_count ∧
      (write_file_count file_count c).current_bit_count ≤ 8 := by
  have h1 := appends_uChar (file_count % 256) h
  have h2 := appends_uChar (file_count / 256 % 256) h1.valid
  refine ⟨h2.pos (Or.inr ?_), h2.valid.1⟩
  intro hnil
  have := congrArg List.length hnil
  rw [length_bits_of_nat] at this
  cases this

/-- C4 at the failing input (one file `a` holding the byte `b`): the header stream has 50 bits,
the header cursor has emitted 6 bytes and still holds the last 2 bits of `file_count`, and in
the output file the 6 header bytes are followed at once by the record of the file. -/
theorem header_bits_dropped :
    (header run_file_a).map Prod.snd =
      some { current_byte := 0, current_bit_count := 2, out := [97, 1, 177, 0, 128, 64] } ∧
    ((header run_file_a).map fun p => (stream p.2).length) = some 50 ∧
    ((header run_file_a).bind fun p =>
        thread_buffers run_file_a.args run_file_a.owner2 p.1 run_file_a.num_threads) =
      some [[128, 0, 0, 0, 0, 0, 0, 0, 128]] ∧
    main run_file_a = some [2, 0, 97, 1, 177, 0, 128, 64, 128, 0, 0, 0, 0, 0, 0, 0, 128] := by
  refine ⟨by rfl, by rfl, by rfl, by rfl⟩

/-- C5: on a top-level directory the pass-2 body leaves the cursor and the buffer of its
thread as they are, whatever the directory holds. -/
theorem top_level_folder_skipped (str_arr : Nat → List Char) (c : BitCursor)
    (name : List Nat) (entries : List Entry) :
    compress_item str_arr c { name := name, target := .folder entries } = some c :=
  rfl

/-- C3 at the failing input: the directory `d` holding the file `x` with bytes `ab` and the
same directory with bytes `ba` give the same archive. -/
theorem archive_not_injective :
    run_dir_ab.args ≠ run_dir_ba.args ∧
    main run_dir_ab = some [4, 0, 97, 2, 216, 128, 166, 64, 37, 224, 8, 1] ∧
    main run_dir_ba = some [4, 0, 97, 2, 216, 128, 166, 64, 37, 224, 8, 1] := by
  refine ⟨?_, by rfl, by rfl⟩
  intro h
  simp [run_dir_ab, run_dir_ba, run_of] at h

/-! ## Optimality of the greedy merge -/

theorem PrefixFreeOn.swap {S : Finset Nat} {code : Nat → List Bool} (h : PrefixFreeOn S code)
    {a b : Nat} (ha : a ∈ S) (hb : b ∈ S) : PrefixFreeOn S (code ∘ Equiv.swap a b) := by
  have hmem : ∀ x ∈ S, Equiv.swap a b x ∈ S := by
    intro x hx
    by_cases hxa : x = a
    · rw [hxa, Equiv.swap_apply_left]; exact hb
    · by_cases hxb : x = b
      · rw [hxb, Equiv.swap_apply_right]; exact ha
      · rw [Equiv.swap_apply_of_ne_of_ne hxa hxb]; exact hx
  intro x hx y hy hxy
  exact h _ (hmem x hx) _ (hmem y hy) (fun e => hxy ((Equiv.swap a b).injective e))

theorem wcost_split (w : Nat → Nat) (S : Finset Nat) (code : Nat → List Bool) {a b : Nat}
    (ha : a ∈ S) (hb : b ∈ S) (hab : a ≠ b) :
    wcost w S code = w a * (code a).length + (w b * (code b).length +
      wcost w ((S.erase a).erase b) code) := by
  unfold wcost
  rw [← Finset.add_sum_erase S _ ha,
    ← Finset.add_sum_erase (S.erase a) _ (Finset.mem_erase.2 ⟨Ne.symm hab, hb⟩)]

theorem wcost_congr (w : Nat → Nat) (S : Finset Nat) (c1 c2 : Nat → List Bool)
    (h : ∀ x ∈ S, (c1 x).length = (c2 x).length) : wcost w S c1 = wcost w S c2 := by
  unfold wcost
  exact Finset.sum_congr rfl (fun x hx => by rw [h x hx])

theorem wcost_mono (w : Nat → Nat) (S : Finset Nat) (c1 c2 : Nat → List Bool)
    (h : ∀ x ∈ S, (c1 x).length ≤ (c2 x).length) : wcost w S c1 ≤ wcost w S c2 := by
  unfold wcost
  exact Finset.sum_le_sum (fun x hx => Nat.mul_le_mul_left _ (h x hx))

/-- Giving the longer code to the lighter symbol does not increase the weighted length. -/
theorem wcost_swap_le (w : Nat → Nat) (S : Finset Nat) (code : Nat → List Bool) {a b : Nat}
    (ha : a ∈ S) (hb : b ∈ S) (hw : w a ≤ w b) (hl : (code a).length ≤ (code b).length) :
    wcost w S (code ∘ Equiv.swap a b) ≤ wcost w S code := by
  by_cases hab : a = b
  · subst hab
    simp [Equiv.swap_self]
  · rw [wcost_split w S code ha hb hab, wcost_split w S (code ∘ Equiv.swap a b) ha hb hab]
    have hrest : wcost w ((S.erase a).erase b) (code ∘ Equiv.swap a b) =
        wcost w ((S.erase a).erase b) code := by
      apply wcost_congr
      intro x hx
      have hxb : x ≠ b := (Finset.mem_erase.1 hx).1
      have hxa : x ≠ a := (Finset.mem_erase.1 (Finset.mem_erase.1 hx).2).1
      simp [Equiv.swap_apply_of_ne_of_ne hxa hxb]
    rw [hrest]
    simp only [Function.comp_apply, Equiv.swap_apply_left, Equiv.swap_apply_right]
    obtain ⟨d, hd⟩ := Nat.exists_eq_add_of_le hw
    obtain ⟨e, he⟩ := Nat.exists_eq_add_of_le hl
    rw [hd, he]
    nlinarith [Nat.zero_le (d * e)]

/-- Some code that is no longer than the given one has two sibling codes of greatest length. -/
theorem exists_siblings (S : Finset Nat) (hS : 2 ≤ S.card) :
    ∀ (L : Nat) (code : Nat → List Bool), PrefixFreeOn S code →
      (∑ x ∈ S, (code x).length) ≤ L →
      ∃ code2, PrefixFreeOn S code2 ∧ (∀ x ∈ S, (code2 x).length ≤ (code x).length) ∧
        ∃ x ∈ S, ∃ y ∈ S, x ≠ y ∧ ∃ (p : List Bool) (b : Bool),
          code2 x = p ++ [b] ∧ code2 y = p ++ [!b] ∧
          ∀ z ∈ S, (code2 z).length ≤ p.length + 1 := by
  intro L
  induction L using Nat.strong_induction_on with
  | _ L ih =>
    intro code hpf hL
    have hne : S.Nonempty := Finset.card_pos.1 (by omega)
    obtain ⟨x, hx, hmax⟩ := Finset.exists_max_image S (fun z => (code z).length) hne
    obtain ⟨y0, hy0, hy0x⟩ := Finset.exists_mem_ne (by omega : 1 < S.card) x
    have hxne : code x ≠ [] := by
      intro h
      exact hpf x hx y0 hy0 (Ne.symm hy0x) (by rw [h]; exact List.nil_prefix)
    obtain ⟨p, b, hpb⟩ : ∃ (p : List Bool) (b : Bool), code x = p ++ [b] := by
      rcases List.eq_nil_or_concat (code x) with h | ⟨p, b, h⟩
      · exact absurd h hxne
      · exact ⟨p, b, by rw [h, List.concat_eq_append]⟩
    have hlenx : (code x).length = p.length + 1 := by rw [hpb]; simp
    by_cases hsib : ∃ y ∈ S, code y = p ++ [!b]
    · obtain ⟨y, hy, hcy⟩ := hsib
      refine ⟨code, hpf, fun _ _ => le_refl _, x, hx, y, hy, ?_, p, b, hpb, hcy, ?_⟩
      · intro hxy
        rw [← hxy, hpb] at hcy
        have := List.append_cancel_left hcy
        cases b <;> simp at this
      · intro z hz
        rw [← hlenx]
        exact hmax z hz
    · -- no sibling: shorten the code of `x`
      have hpf' : PrefixFreeOn S (Function.update code x p) := by
        intro u hu v hv huv hpre
        by_cases hux : u = x
        · subst hux
          have hvx : v ≠ u := Ne.symm huv
          rw [Function.update_same, Function.update_noteq hvx] at hpre
          obtain ⟨r, hr⟩ := hpre
          cases r with
          | nil =>
            rw [List.append_nil] at hr
            exact hpf v hv u hu hvx (by rw [← hr, hpb]; exact List.prefix_append _ _)
          | cons a r' =>
            by_cases hab : a = b
            · subst hab
              exact hpf u hu v hv huv (by
                rw [hpb, ← hr]
                exact ⟨r', by simp⟩)
            · have hlen := hmax v hv
              simp only at hlen
              rw [← hr, hlenx] at hlen
              simp only [List.length_append, List.length_cons] at hlen
              have hr' : r' = [] := List.length_eq_zero.1 (by omega)
              apply hsib
              refine ⟨v, hv, ?_⟩
              rw [← hr, hr']
              congr 2
              cases a <;> cases b <;> simp_all
        · by_cases hvx : v = x
          · subst hvx
            rw [Function.update_same, Function.update_noteq hux] at hpre
            exact hpf u hu v hv huv (hpre.trans (by rw [hpb]; exact List.prefix_append _ _))
          · rw [Function.update_noteq hux, Function.update_noteq hvx] at hpre
            exact hpf u hu v hv huv hpre
      have hsum : (∑ z ∈ S, (Function.update code x p z).length) + 1 =
          ∑ z ∈ S, (code z).length := by
        rw [← Finset.add_sum_erase S _ hx, ← Finset.add_sum_erase S (fun z => (code z).length) hx]
        have : ∑ z ∈ S.erase x, (Function.update code x p z).length =
            ∑ z ∈ S.erase x, (code z).length := by
          apply Finset.sum_congr rfl
          intro z hz
          rw [Function.update_noteq (Finset.mem_erase.1 hz).1]
        rw [this, Function.update_same, hlenx]
        omega
      obtain ⟨code2, h1, h2, h3⟩ := ih (∑ z ∈ S, (Function.update code x p z).length)
        (by omega) (Function.update code x p) hpf' (le_refl _)
      refine ⟨code2, h1, ?_, h3⟩
      intro z hz
      refine (h2 z hz).trans ?_
      by_cases hzx : z = x
      · subst hzx
        rw [Function.update_same, hlenx]
        omega
      · rw [Function.update_noteq hzx]

/-- Two sibling codes are replaced by their common prefix, given to a new symbol that carries
the two weights. -/
theorem merge_siblings (w : Nat → Nat) (S : Finset Nat) (code : Nat → List Bool) {i j k : Nat}
    {p : List Bool} {b : Bool} (hi : i ∈ S) (hj : j ∈ S) (hij : i ≠ j) (hk : k ∉ S)
    (hwk : w k = w i + w j) (hci : code i = p ++ [b]) (hcj : code j = p ++ [!b])
    (hpf : PrefixFreeOn S code) :
    PrefixFreeOn (insert k ((S.erase i).erase j)) (Function.update code k p) ∧
    wcost w (insert k ((S.erase i).erase j)) (Function.update code k p) + w k =
      wcost w S code := by
  have hrest : ∀ z ∈ (S.erase i).erase j, z ∈ S ∧ z ≠ i ∧ z ≠ j ∧ z ≠ k := by
    intro z hz
    have h1 := Finset.mem_erase.1 hz
    have h2 := Finset.mem_erase.1 h1.2
    exact ⟨h2.2, h2.1, h1.1, fun e => hk (e ▸ h2.2)⟩
  have hkrest : k ∉ (S.erase i).erase j := fun h => (hrest k h).2.2.2 rfl
  constructor
  · intro u hu v hv huv hpre
    rcases Finset.mem_insert.1 hu with hu | hu <;> rcases Finset.mem_insert.1 hv with hv | hv
    · exact huv (hu.trans hv.symm)
    · obtain ⟨hvS, hvi, hvj, hvk⟩ := hrest v hv
      rw [hu, Function.update_same, Function.update_noteq hvk] at hpre
      obtain ⟨r, hr⟩ := hpre
      cases r with
      | nil =>
        rw [List.append_nil] at hr
        exact hpf v hvS i hi hvi (by rw [← hr, hci]; exact List.prefix_append _ _)
      | cons a r' =>
        by_cases hab : a = b
        · subst hab
          exact hpf i hi v hvS (Ne.symm hvi) (by rw [hci, ← hr]; exact ⟨r', by simp⟩)
        · have ha : a = !b := by cases a <;> cases b <;> simp_all
          subst ha
          exact hpf j hj v hvS (Ne.symm hvj) (by rw [hcj, ← hr]; exact ⟨r', by simp⟩)
    · obtain ⟨huS, hui, _, huk⟩ := hrest u hu
      rw [hv, Function.update_same, Function.update_noteq huk] at hpre
      exact hpf u huS i hi hui (hpre.trans (by rw [hci]; exact List.prefix_append _ _))
    · obtain ⟨huS, _, _, huk⟩ := hrest u hu
      obtain ⟨hvS, _, _, hvk⟩ := hrest v hv
      rw [Function.update_noteq huk, Function.update_noteq hvk] at hpre
      exact hpf u huS v hvS huv hpre
  · rw [wcost_split w S code hi hj hij]
    have e1 : wcost w (insert k ((S.erase i).erase j)) (Function.update code k p) =
        w k * p.length + wcost w ((S.erase i).erase j) code := by
      unfold wcost
      rw [Finset.sum_insert hkrest, Function.update_same]
      congr 1
      apply Finset.sum_congr rfl
      intro z hz
      rw [Function.update_noteq (hrest z hz).2.2.2]
    rw [e1, hci, hcj, hwk]
    simp only [List.length_append, List.length_singleton]
    ring

/-- One greedy step loses nothing: a prefix-free code on the symbols before the merge gives one
on the symbols after it whose weighted length is smaller by the weight of the new symbol. -/
theorem reduce_code (w : Nat → Nat) (S : Finset Nat) (code : Nat → List Bool) {i j k : Nat}
    (hi : i ∈ S) (hj : j ∈ S) (hij : i ≠ j) (hk : k ∉ S) (hwk : w k = w i + w j)
    (hwij : w i ≤ w j) (hmin : ∀ x ∈ S, x ≠ i → x ≠ j → w j ≤ w x)
    (hpf : PrefixFreeOn S code) :
    ∃ code', PrefixFreeOn (insert k ((S.erase i).erase j)) code' ∧
      wcost w (insert k ((S.erase i).erase j)) code' + w k ≤ wcost w S code := by
  have hS : 2 ≤ S.card := Finset.one_lt_card.2 ⟨i, hi, j, hj, hij⟩
  obtain ⟨code2, hpf2, hle2, x, hx, y, hy, hxy, p, b, hcx, hcy, hmax⟩ :=
    exists_siblings S hS _ code hpf (le_refl _)
  have hcost2 := wcost_mono w S code2 code hle2
  -- first swap: `i` takes the code of `x`
  have hwix : w i ≤ w x := by
    by_cases h1 : x = i
    · rw [h1]
    · by_cases h2 : x = j
      · rw [h2]; exact hwij
      · exact hwij.trans (hmin x hx h1 h2)
  have hlx : (code2 x).length = p.length + 1 := by rw [hcx]; simp
  have hcost3 := wcost_swap_le w S code2 hi hx hwix (by rw [hlx]; exact hmax i hi)
  have hpf3 := hpf2.swap hi hx
  have hmem : ∀ z ∈ S, Equiv.swap i x z ∈ S := by
    intro z hz
    by_cases hzi : z = i
    · rw [hzi, Equiv.swap_apply_left]; exact hx
    · by_cases hzx : z = x
      · rw [hzx, Equiv.swap_apply_right]; exact hi
      · rw [Equiv.swap_apply_of_ne_of_ne hzi hzx]; exact hz
  have hy'S : Equiv.swap i x y ∈ S := hmem y hy
  have hy'i : Equiv.swap i x y ≠ i := by
    intro h
    have := congrArg (Equiv.swap i x) h
    rw [Equiv.swap_apply_self, Equiv.swap_apply_left] at this
    exact hxy this.symm
  have hc3i : (code2 ∘ Equiv.swap i x) i = p ++ [b] := by
    simp [hcx]
  have hc3y : (code2 ∘ Equiv.swap i x) (Equiv.swap i x y) = p ++ [!b] := by
    simp [hcy]
  have hmax3 : ∀ z ∈ S, ((code2 ∘ Equiv.swap i x) z).length ≤ p.length + 1 :=
    fun z hz => hmax _ (hmem z hz)
  -- second swap: `j` takes the code of the sibling
  have hwjy : w j ≤ w (Equiv.swap i x y) := by
    by_cases h2 : Equiv.swap i x y = j
    · rw [h2]
    · exact hmin _ hy'S hy'i h2
  have hcost4 := wcost_swap_le w S (code2 ∘ Equiv.swap i x) hj hy'S hwjy
    (by rw [hc3y]; simpa using hmax3 j hj)
  have hpf4 := hpf3.swap hj hy'S
  have hc4j : ((code2 ∘ Equiv.swap i x) ∘ Equiv.swap j (Equiv.swap i x y)) j = p ++ [!b] := by
    rw [Function.comp_apply, Equiv.swap_apply_left, hc3y]
  have hc4i : ((code2 ∘ Equiv.swap i x) ∘ Equiv.swap j (Equiv.swap i x y)) i = p ++ [b] := by
    rw [Function.comp_apply, Equiv.swap_apply_of_ne_of_ne hij (Ne.symm hy'i), hc3i]
  obtain ⟨h5, h6⟩ := merge_siblings w S _ hi hj hij hk hwk hc4i hc4j hpf4
  exact ⟨_, h5, by omega⟩

/-- The greedy merge is optimal: the sum of the weights it creates is at most the weighted
length of any prefix-free code on the symbols. -/
theorem greedy_optimal {w : Nat → Nat} {S : Finset Nat} {c : Nat} (h : Greedy w S c) :
    ∀ code, PrefixFreeOn S code → c ≤ wcost w S code := by
  induction h with
  | single i => exact fun _ _ => Nat.zero_le _
  | step S i j k c hi hj hij hk hwk hwij hmin _ ih =>
    intro code hpf
    obtain ⟨code', h1, h2⟩ := reduce_code w S code hi hj hij hk hwk hwij hmin hpf
    have := ih code' h1
    omega

/-! ## The merge loop is a greedy merge -/

theorem num_eq_of_strip {a b : List ersel} {j : Nat}
    (h : (b[j]?).map strip = (a[j]?).map strip) : num b j = num a j := by
  unfold num
  cases ha : a[j]? with
  | none =>
    rw [ha] at h
    have : b[j]? = none := by simpa using h
    rw [this]
  | some e =>
    rw [ha, Option.map_some'] at h
    obtain ⟨e', he', hs⟩ := Option.map_eq_some'.1 h
    rw [he']
    simp only [Option.map_some', Option.getD_some]
    exact ((strip_eq_iff e e').1 hs).2.2.1

theorem num_of_get {a : List ersel} {j : Nat} {e : ersel} (h : a[j]? = some e) :
    num a j = e.number := by
  simp [num, h]

theorem wrapLong_eq {x : Int} (h0 : 0 ≤ x) (h1 : x < 2 ^ 63) : wrapLong x = x := by
  unfold wrapLong
  rw [Int.emod_eq_of_lt (by omega) (by omega)]
  omega

/-- What `combine` does to the state. -/
theorem combine_some {s s' : BuildState} (h : combine s = some s') :
    s'.min1 = s.min1 ∧ s'.min2 = s.min2 ∧ s'.isleaf = s.isleaf ∧ s'.notleaf = s.notleaf ∧
    s'.array.length = s.array.length + 1 ∧
    (∀ j, j < s.array.length → (s'.array[j]?).map strip = (s.array[j]?).map strip) ∧
    ∃ e, s'.array[s.array.length]? = some e ∧ e.left = some s.min1 ∧ e.right = some s.min2 ∧
      s.min1 < s.array.length ∧ s.min2 < s.array.length ∧
      e.number = wrapLong (num s.array s.min1 + num s.array s.min2) := by
  unfold combine at h
  cases h1 : s.array[s.min1]? with
  | none => simp [h1] at h
  | some e1 =>
    cases h2 : s.array[s.min2]? with
    | none => simp [h1, h2] at h
    | some e2 =>
      rw [h1, h2] at h
      dsimp only at h
      split at h
      · cases h
        have hstrip : ∀ (node : ersel) (j : Nat),
            ((List.modify (fun e : ersel => { e with bit := ['0'] }) s.min2
              (List.modify (fun e : ersel => { e with bit := ['1'] }) s.min1
                (s.array ++ [node])))[j]?).map strip = ((s.array ++ [node])[j]?).map strip := by
          intro node j
          rw [strip_modify_bit, strip_modify_bit]
        refine ⟨rfl, rfl, rfl, rfl, ?_, ?_, ?_⟩
        · simp only [List.length_modify, List.length_append, List.length_singleton]
        · intro j hj
          dsimp only
          rw [hstrip, List.getElem?_append_left hj]
        · have h3 := hstrip ⟨some s.min1, some s.min2, wrapLong (e1.number + e2.number), 0, []⟩
            s.array.length
          rw [List.getElem?_append_right (le_refl _)] at h3
          simp only [Nat.sub_self, List.getElem?_cons_zero, Option.map_some'] at h3
          obtain ⟨e', he', hs⟩ := Option.map_eq_some'.1 h3
          have hs' := (strip_eq_iff _ _).1 hs
          refine ⟨e', he', hs'.1, hs'.2.1, (List.getElem?_eq_some.1 h1).1,
            (List.getElem?_eq_some.1 h2).1, ?_⟩
          rw [hs'.2.2.1, num_of_get h1, num_of_get h2]
      · cases h

/-- What `select_min1` does to the state. -/
theorem select_min1_some {n : Nat} {s s' : BuildState} (h : select_min1 n s = some s') :
    s'.array = s.array ∧ s'.min2 = s.min2 ∧
    ((s'.min1 = s.isleaf ∧ s'.isleaf = s.isleaf + 1 ∧ s'.notleaf = s.notleaf ∧ s.isleaf < n ∧
        num s.array s.isleaf < num s.array s.notleaf) ∨
     (s'.min1 = s.notleaf ∧ s'.notleaf = s.notleaf + 1 ∧ s'.isleaf = s.isleaf ∧
        (n ≤ s.isleaf ∨ num s.array s.notleaf ≤ num s.array s.isleaf))) := by
  unfold select_min1 at h
  split at h
  · cases h
    exact ⟨rfl, rfl, Or.inr ⟨rfl, rfl, rfl, Or.inl (by assumption)⟩⟩
  · rename_i hlt
    cases h1 : s.array[s.isleaf]? with
    | none => simp [h1] at h
    | some e1 =>
      cases h2 : s.array[s.notleaf]? with
      | none => simp [h1, h2] at h
      | some e2 =>
        rw [h1, h2] at h
        dsimp only at h
        split at h
        · cases h
          refine ⟨rfl, rfl, Or.inl ⟨rfl, rfl, rfl, by omega, ?_⟩⟩
          rw [num_of_get h1, num_of_get h2]
          assumption
        · cases h
          refine ⟨rfl, rfl, Or.inr ⟨rfl, rfl, rfl, Or.inr ?_⟩⟩
          rw [num_of_get h1, num_of_get h2]
          omega

/-- What `select_min2` does to the state. -/
theorem select_min2_some {n : Nat} {s s' : BuildState} (h : select_min2 n s = some s') :
    s'.array = s.array ∧ s'.min1 = s.min1 ∧
    ((s'.min2 = s.isleaf ∧ s'.isleaf = s.isleaf + 1 ∧ s'.notleaf = s.notleaf ∧ s.isleaf < n ∧
        (s.array.length ≤ s.notleaf ∨ num s.array s.isleaf < num s.array s.notleaf)) ∨
     (s'.min2 = s.notleaf ∧ s'.notleaf = s.notleaf + 1 ∧ s'.isleaf = s.isleaf ∧
        (n ≤ s.isleaf ∨ num s.array s.notleaf ≤ num s.array s.isleaf))) := by
  unfold select_min2 at h
  split at h
  · cases h
    exact ⟨rfl, rfl, Or.inr ⟨rfl, rfl, rfl, Or.inl (by assumption)⟩⟩
  · rename_i hlt
    split at h
    · cases h
      exact ⟨rfl, rfl, Or.inl ⟨rfl, rfl, rfl, by omega, Or.inl (by assumption)⟩⟩
    · cases h1 : s.array[s.isleaf]? with
      | none => simp [h1] at h
      | some e1 =>
        cases h2 : s.array[s.notleaf]? with
        | none => simp [h1, h2] at h
        | some e2 =>
          rw [h1, h2] at h
          dsimp only at h
          split at h
          · cases h
            refine ⟨rfl, rfl, Or.inl ⟨rfl, rfl, rfl, by omega, Or.inr ?_⟩⟩
            rw [num_of_get h1, num_of_get h2]
            assumption
          · cases h
            refine ⟨rfl, rfl, Or.inr ⟨rfl, rfl, rfl, Or.inr ?_⟩⟩
            rw [num_of_get h1, num_of_get h2]
            omega

theorem mem_queued_iff {n : Nat} {s : BuildState} {r : Nat} :
    r ∈ queued n s ↔ (s.isleaf ≤ r ∧ r < n) ∨ (s.notleaf ≤ r ∧ r < s.array.length) := by
  simp only [queued, List.mem_append, List.mem_range'_1]
  omega

theorem queued_after_combine {n : Nat} {s s1 : BuildState} (hi : s1.isleaf = s.isleaf)
    (hn : s1.notleaf = s.notleaf) (hl : s1.array.length = s.array.length + 1)
    (hle : s.notleaf ≤ s.array.length) :
    queued n s1 = queued n s ++ [s.array.length] := by
  simp only [queued, hi, hn, hl]
  have e1 : s.array.length + 1 - s.notleaf = (s.array.length - s.notleaf) + 1 := by omega
  rw [e1, List.range'_concat, List.append_assoc]
  congr 3
  omega

theorem sum_map_nonneg (f : Nat → Int) (l : List Nat) (h : ∀ i, 0 ≤ f i) :
    0 ≤ (l.map f).sum := by
  induction l with
  | nil => simp
  | cons x xs ih =>
    simp only [List.map_cons, List.sum_cons]
    have := h x
    omega

theorem combine_w {sorted : List ersel} {total : Int} {s s1 : BuildState}
    (hinv : Inv sorted [s.min1, s.min2] s) (hw : WHead sorted.length total s)
    (hc : combine s = some s1) :
    WMid sorted.length total (num s.array s.min2) (num s.array s.min2) [] s1 ∧
    num s1.array s.array.length = num s.array s.min1 + num s.array s.min2 ∧
    (∀ j, j < s.array.length → num s1.array j = num s.array j) := by
  obtain ⟨_, _, hi, hn, hl, hstrip, e, he, hel, her, hm1, hm2, henum⟩ := combine_some hc
  have hold : ∀ j, j < s.array.length → num s1.array j = num s.array j :=
    fun j hj => num_eq_of_strip (hstrip j hj)
  have h1 := hw.base.nonneg s.min1
  have h2 := hw.base.nonneg s.min2
  have hsum : num s.array s.min1 + num s.array s.min2 ≤ total := by
    have := hw.base.sum_roots
    simp only [List.cons_append, List.nil_append, List.map_cons, List.sum_cons] at this
    have := sum_map_nonneg (num s.array) (queued sorted.length s) hw.base.nonneg
    omega
  have hlt := hw.base.total_lt
  have hnew : num s1.array s.array.length = num s.array s.min1 + num s.array s.min2 := by
    rw [num_of_get he, henum]
    exact wrapLong_eq (by omega) (by omega)
  have hq := queued_after_combine (n := sorted.length) hi hn hl hinv.notleaf_le
  have hqlt := mem_queued_lt hinv.size_le hinv.isleaf_le hinv.notleaf_le
  refine ⟨⟨⟨?_, ?_, ?_, ?_, hlt, ?_⟩, le_refl _, ?_, ?_⟩, hnew, hold⟩
  · intro i
    rcases Nat.lt_trichotomy i s.array.length with h | h | h
    · rw [hold i h]; exact hw.base.nonneg i
    · rw [h, hnew]; omega
    · have : s1.array[i]? = none := List.getElem?_eq_none (by omega)
      simp [num, this]
  · intro i j hij hj
    have := hinv.size_le
    rw [hold i (by omega), hold j (by omega)]
    exact hw.base.leaves_sorted i j hij hj
  · intro i j hi' hij hj
    rw [hl] at hj
    by_cases hjl : j = s.array.length
    · subst hjl
      by_cases hil : i = s.array.length
      · rw [hil]
      · rw [hold i (by omega), hnew]
        exact hw.inner_le i hi' (by omega)
    · rw [hold i (by omega), hold j (by omega)]
      exact hw.base.inner_sorted i j hi' hij (by omega)
  · rw [List.nil_append, hq, List.map_append, List.sum_append]
    have e1 : (queued sorted.length s).map (num s1.array) =
        (queued sorted.length s).map (num s.array) :=
      List.map_congr_left (fun r hr => hold r (hqlt r hr))
    have := hw.base.sum_roots
    simp only [List.cons_append, List.nil_append, List.map_cons, List.sum_cons] at this
    rw [e1]
    simp only [List.map_cons, List.map_nil, List.sum_cons, List.sum_nil, hnew]
    omega
  · intro i x hx l r hxl hxr
    have hi' : i < s1.array.length := (List.getElem?_eq_some.1 hx).1
    rw [hl] at hi' ⊢
    by_cases hil : i = s.array.length
    · subst hil
      rw [he] at hx
      cases hx
      rw [hel] at hxl
      rw [her] at hxr
      cases hxl
      cases hxr
      refine ⟨by omega, by omega, ?_⟩
      rw [hold _ hm1, hold _ hm2, ← hnew, num_of_get he]
    · have hi2 : i < s.array.length := by omega
      have h3 := hstrip i hi2
      rw [hx, List.getElem?_eq_getElem hi2] at h3
      simp only [Option.map_some', Option.some.injEq] at h3
      have h4 := (strip_eq_iff _ _).1 h3
      obtain ⟨hl1, hr1, hnum1⟩ := hw.base.exact i s.array[i] (List.getElem?_eq_getElem hi2) l r
        (by rw [← h4.1]; exact hxl) (by rw [← h4.2.1]; exact hxr)
      refine ⟨by omega, by omega, ?_⟩
      rw [hold l hl1, hold r hr1, ← hnum1]
      exact h4.2.2.1
  · intro r hr
    rw [hq] at hr
    rcases List.mem_append.1 hr with h | h
    · rw [hold r (hqlt r h)]
      exact hw.min2_le r h
    · rw [List.mem_singleton.1 h, hnew]
      omega
  · intro i hi' hil
    rw [hl] at hil
    have hml := hw.min_le
    by_cases hil2 : i = s.array.length
    · rw [hil2, hnew]
      omega
    · rw [hold i (by omega)]
      have := hw.inner_le i hi' (by omega)
      omega

theorem WInv.of_perm {n : Nat} {total : Int} {e1 e2 : List Nat} {s s' : BuildState}
    (h : WInv n total e1 s) (ha : s'.array = s.array)
    (hp : (e2 ++ queued n s').Perm (e1 ++ queued n s)) : WInv n total e2 s' := by
  refine ⟨?_, ?_, ?_, ?_, h.total_lt, ?_⟩
  · rw [ha]; exact h.nonneg
  · rw [ha]; exact h.leaves_sorted
  · rw [ha]; exact h.inner_sorted
  · rw [ha, ← h.sum_roots]
    exact (hp.map _).sum_eq
  · rw [ha]; exact h.exact

theorem select_min1_w {sorted : List ersel} {total m : Int} {s s' : BuildState}
    (hinv : Inv sorted [] s) (hw : WMid sorted.length total m m [] s)
    (hnl : s.notleaf < s.array.length) (hs : select_min1 sorted.length s = some s') :
    WMid sorted.length total m (num s'.array s'.min1) [s'.min1] s' ∧
      (queued sorted.length s).Perm (s'.min1 :: queued sorted.length s') := by
  obtain ⟨ha, _, hcase⟩ := select_min1_some hs
  have hge := hinv.notleaf_ge
  rcases hcase with ⟨h1, h2, h3, hlt, hcmp⟩ | ⟨h1, h2, h3, hcmp⟩
  · have hq : queued sorted.length s = s'.min1 :: queued sorted.length s' := by
      rw [queued_take_leaf sorted.length s s'.min1 s'.min2 hlt, h1]
      simp only [queued, h2, h3, ha]
    refine ⟨⟨hw.base.of_perm ha (by rw [hq]; simp), ?_, ?_, ?_⟩, by rw [hq]⟩
    · rw [ha]
      exact hw.low _ (by rw [hq]; exact List.mem_cons_self _ _)
    · intro r hr
      rw [ha, h1]
      rcases mem_queued_iff.1 hr with h | h
      · rw [h2] at h
        exact hw.base.leaves_sorted _ _ (by omega) h.2
      · rw [h3, ha] at h
        have := hw.base.inner_sorted s.notleaf r hge h.1 h.2
        omega
    · rw [ha]
      exact hw.inner_le
  · have hq : (queued sorted.length s).Perm (s'.min1 :: queued sorted.length s') := by
      refine (queued_take_int sorted.length s s'.min1 s'.min2 hnl).trans ?_
      rw [h1]
      simp only [queued, h2, h3, ha]
      exact List.Perm.refl _
    refine ⟨⟨hw.base.of_perm ha (by simpa using hq.symm), ?_, ?_, ?_⟩, hq⟩
    · rw [ha]
      exact hw.low _ (hq.symm.subset (List.mem_cons_self _ _))
    · intro r hr
      rw [ha, h1]
      rcases mem_queued_iff.1 hr with h | h
      · rw [h3] at h
        have h5 := hw.base.leaves_sorted s.isleaf r h.1 h.2
        rcases hcmp with h4 | h4
        · omega
        · omega
      · rw [h2, ha] at h
        exact hw.base.inner_sorted _ _ hge (by omega) h.2
    · rw [ha]
      exact hw.inner_le

theorem select_min2_w {sorted : List ersel} {total m : Int} {s s' : BuildState}
    (hinv : Inv sorted [s.min1] s)
    (hw : WMid sorted.length total m (num s.array s.min1) [s.min1] s)
    (hinv' : Inv sorted [s'.min1, s'.min2] s') (hs : select_min2 sorted.length s = some s') :
    WHead sorted.length total s' ∧
      (queued sorted.length s).Perm (s'.min2 :: queued sorted.length s') := by
  obtain ⟨ha, hm1, hcase⟩ := select_min2_some hs
  have hge := hinv.notleaf_ge
  have hq : (queued sorted.length s).Perm (s'.min2 :: queued sorted.length s') := by
    rcases hcase with ⟨h1, h2, h3, hlt, _⟩ | ⟨h1, h2, h3, _⟩
    · rw [queued_take_leaf sorted.length s s'.min1 s'.min2 hlt, h1]
      simp only [queued, h2, h3, ha]
      exact List.Perm.refl _
    · have hnl : s.notleaf < s.array.length := by
        have := hinv'.notleaf_le
        rw [h2, ha] at this
        omega
      refine (queued_take_int sorted.length s s'.min1 s'.min2 hnl).trans ?_
      rw [h1]
      simp only [queued, h2, h3, ha]
      exact List.Perm.refl _
  have hmin2 : num s.array s.min1 ≤ num s.array s'.min2 :=
    hw.low _ (hq.symm.subset (List.mem_cons_self _ _))
  refine ⟨⟨hw.base.of_perm ha ?_, ?_, ?_, ?_⟩, hq⟩
  · rw [hm1]
    simp only [List.cons_append, List.nil_append]
    exact List.Perm.cons _ hq.symm
  · rw [ha, hm1]
    exact hmin2
  · intro r hr
    rw [ha]
    rcases hcase with ⟨h1, h2, h3, hlt, hcmp⟩ | ⟨h1, h2, h3, hcmp⟩
    · rw [h1]
      rcases mem_queued_iff.1 hr with h | h
      · rw [h2] at h
        exact hw.base.leaves_sorted _ _ (by omega) h.2
      · rw [h3, ha] at h
        have := hw.base.inner_sorted s.notleaf r hge h.1 h.2
        rcases hcmp with h4 | h4
        · omega
        · omega
    · rw [h1]
      rcases mem_queued_iff.1 hr with h | h
      · rw [h3] at h
        have h5 := hw.base.leaves_sorted s.isleaf r h.1 h.2
        rcases hcmp with h4 | h4
        · omega
        · omega
      · rw [h2, ha] at h
        exact hw.base.inner_sorted _ _ hge (by omega) h.2
  · intro i hi hil
    rw [ha] at hil ⊢
    rw [hm1]
    have h1 := hw.inner_le i hi hil
    have h2 := hw.m_le
    omega

theorem IsForest.roots_nodup {a : List ersel} {roots : List Nat} (h : IsForest a roots) :
    roots.Nodup := by
  obtain ⟨T, hT, hlt, hperm⟩ := h
  have hnd : (roots.flatMap fun r => (T r).idxs).Nodup :=
    hperm.nodup_iff.2 (List.nodup_range _)
  rw [List.nodup_flatMap] at hnd
  refine List.Pairwise.imp_of_mem ?_ hnd.2
  intro x y hx _ hdis hxy
  subst hxy
  have hmem : x ∈ (T x).idxs := by
    have := (T x).root_mem_idxs
    rwa [(hT x (hlt x hx)).2] at this
  exact hdis hmem hmem

theorem weight_add {a : List ersel} {i j k : Nat} (h : num a k = num a i + num a j)
    (hi : 0 ≤ num a i) (hj : 0 ≤ num a j) : weight a k = weight a i + weight a j := by
  unfold weight
  rw [h, Int.toNat_add hi hj]

theorem weight_le {a : List ersel} {i j : Nat} (h : num a i ≤ num a j) :
    weight a i ≤ weight a j :=
  Int.toNat_le_toNat h

/-- The merge done at the head of the loop is a greedy step on the weights of the final
array. -/
theorem greedy_head_step {sorted : List ersel} {total : Int} {s : BuildState}
    {A : List ersel} {c : Nat} (hinv : Inv sorted [s.min1, s.min2] s)
    (hw : WHead sorted.length total s)
    (hold : ∀ j, j < s.array.length → num A j = num s.array j)
    (hnew : num A s.array.length = num s.array s.min1 + num s.array s.min2)
    (hG : Greedy (weight A) (insert s.array.length (queued sorted.length s).toFinset) c) :
    Greedy (weight A) (s.min1 :: s.min2 :: queued sorted.length s).toFinset
      (c + weight A s.array.length) := by
  have hnd := hinv.forest.roots_nodup
  obtain ⟨_, _, hlt, _⟩ := hinv.forest
  simp only [List.cons_append, List.nil_append] at hnd hlt
  have hm1 : s.min1 < s.array.length := hlt _ (by simp)
  have hm2 : s.min2 < s.array.length := hlt _ (by simp)
  rw [List.nodup_cons, List.nodup_cons] at hnd
  obtain ⟨hn1, hn2, _⟩ := hnd
  have hne : s.min1 ≠ s.min2 := fun e => hn1 (by rw [e]; exact List.mem_cons_self _ _)
  have hq1 : s.min1 ∉ queued sorted.length s := fun h => hn1 (List.mem_cons_of_mem _ h)
  have hS' : ((s.min1 :: s.min2 :: queued sorted.length s).toFinset.erase s.min1).erase s.min2
      = (queued sorted.length s).toFinset := by
    ext x
    simp only [Finset.mem_erase, List.mem_toFinset, List.mem_cons]
    constructor
    · rintro ⟨h2, h1, h | h | h⟩
      · exact absurd h h1
      · exact absurd h h2
      · exact h
    · intro h
      exact ⟨fun e => hn2 (e ▸ h), fun e => hq1 (e ▸ h), Or.inr (Or.inr h)⟩
  have h1 := hw.base.nonneg s.min1
  have h2 := hw.base.nonneg s.min2
  refine Greedy.step _ s.min1 s.min2 s.array.length c (by simp) (by simp) hne ?_ ?_ ?_ ?_ ?_
  · intro h
    have := hlt _ (List.mem_toFinset.1 h)
    omega
  · apply weight_add
    · rw [hnew, hold _ hm1, hold _ hm2]
    · rw [hold _ hm1]; exact h1
    · rw [hold _ hm2]; exact h2
  · apply weight_le
    rw [hold _ hm1, hold _ hm2]
    exact hw.min_le
  · intro x hx hx1 hx2
    have hxq : x ∈ queued sorted.length s := by
      rcases List.mem_cons.1 (List.mem_toFinset.1 hx) with h | h
      · exact absurd h hx1
      · rcases List.mem_cons.1 h with h | h
        · exact absurd h hx2
        · exact h
    apply weight_le
    rw [hold _ hm2, hold _ (hlt x (List.mem_cons_of_mem _ (List.mem_cons_of_mem _ hxq)))]
    exact hw.min2_le x hxq
  · rw [hS']
    exact hG

theorem merge_loop_greedy {sorted : List ersel} {total : Int} (hn : sorted.length ≤ 256) :
    ∀ (k : Nat) (s : BuildState), Inv sorted [s.min1, s.min2] s →
      WHead sorted.length total s → s.array.length + k + 2 = 2 * sorted.length →
      ∃ s', merge_loop sorted.length (k + 1) s = some s' ∧
        (∀ j, j < s.array.length → num s'.array j = num s.array j) ∧
        (∀ i, 0 ≤ num s'.array i) ∧
        (∀ (i : Nat) (e : ersel), s'.array[i]? = some e → ∀ l r, e.left = some l →
          e.right = some r → e.number = num s'.array l + num s'.array r) ∧
        Greedy (weight s'.array) (s.min1 :: s.min2 :: queued sorted.length s).toFinset
          (((List.range' s.array.length (k + 1)).map (weight s'.array)).sum) := by
  intro k
  induction k with
  | zero =>
    intro s hinv hw hlen
    obtain ⟨s1, hc, h1, hnl, hl1⟩ := combine_inv hinv hn
    obtain ⟨hw1, hnew, hold1⟩ := combine_w hinv hw hc
    obtain ⟨s2, hs2, h2, ha2⟩ := select_min1_inv h1 hnl
    have hq2 : (queued sorted.length s2).length = 0 := by
      have := h2.count
      rw [ha2, hl1] at this
      simp only [List.length_cons, List.length_nil] at this
      omega
    obtain ⟨s3, hs3, ha3⟩ := select_min2_last hq2
    have harr : s3.array = s1.array := ha3.trans ha2
    have hq : queued sorted.length s = [] := by
      apply List.length_eq_zero.1
      have := hinv.count
      simp only [List.length_cons, List.length_nil] at this
      omega
    refine ⟨s3, ?_, ?_, ?_, ?_, ?_⟩
    · simp only [merge_loop, merge_step, hc, Option.some_bind, hs2, hs3]
    · rw [harr]; exact hold1
    · rw [harr]; exact hw1.base.nonneg
    · rw [harr]
      intro i e he l r hl hr
      exact (hw1.base.exact i e he l r hl hr).2.2
    · rw [harr]
      have hG : Greedy (weight s1.array)
          (insert s.array.length (queued sorted.length s).toFinset) 0 := by
        rw [hq]
        exact Greedy.single _
      have := greedy_head_step hinv hw hold1 hnew hG
      simpa using this
  | succ k ih =>
    intro s hinv hw hlen
    obtain ⟨s1, hc, h1, hnl, hl1⟩ := combine_inv hinv hn
    obtain ⟨hw1, hnew, hold1⟩ := combine_w hinv hw hc
    obtain ⟨_, _, hi1, hn1, _, _, _⟩ := combine_some hc
    obtain ⟨s2, hs2, h2, ha2⟩ := select_min1_inv h1 hnl
    obtain ⟨hw2, hp2⟩ := select_min1_w h1 hw1 hnl hs2
    have hq2 : 1 ≤ (queued sorted.length s2).length := by
      have := h2.count
      rw [ha2, hl1] at this
      simp only [List.length_cons, List.length_nil] at this
      omega
    obtain ⟨s3, hs3, h3, ha3⟩ := select_min2_inv h2 hq2
    obtain ⟨hw3, hp3⟩ := select_min2_w h2 hw2 h3 hs3
    obtain ⟨_, hm13, _⟩ := select_min2_some hs3
    have harr : s3.array = s1.array := ha3.trans ha2
    have hlen3 : s3.array.length = s.array.length + 1 := by rw [harr, hl1]
    obtain ⟨s', hs', hold', hnn, hex, hG⟩ := ih s3 h3 hw3 (by rw [hlen3]; omega)
    have hold : ∀ j, j < s.array.length → num s'.array j = num s.array j := by
      intro j hj
      rw [hold' j (by omega), harr, hold1 j hj]
    have hnew' : num s'.array s.array.length = num s.array s.min1 + num s.array s.min2 := by
      rw [hold' _ (by omega), harr, hnew]
    have hroots : (s3.min1 :: s3.min2 :: queued sorted.length s3).toFinset =
        insert s.array.length (queued sorted.length s).toFinset := by
      have hp : (s3.min1 :: s3.min2 :: queued sorted.length s3).Perm
          (queued sorted.length s ++ [s.array.length]) := by
        rw [← queued_after_combine (n := sorted.length) hi1 hn1 hl1 hinv.notleaf_le, hm13]
        exact ((List.Perm.cons _ hp3).symm).trans hp2.symm
      rw [List.toFinset_eq_of_perm _ _ hp]
      ext x
      simp only [List.toFinset_append, List.toFinset_cons, List.toFinset_nil,
        Finset.mem_union, Finset.mem_insert, List.mem_toFinset, Finset.not_mem_empty, or_false]
      tauto
    rw [hroots] at hG
    have := greedy_head_step hinv hw hold hnew' hG
    refine ⟨s', ?_, hold, hnn, hex, ?_⟩
    · rw [merge_loop]
      simp only [merge_step, hc, Option.some_bind, hs2, hs3]
      exact hs'
    · rw [List.range'_succ, List.map_cons, List.sum_cons, add_comm]
      rw [hlen3] at this
      exact this

theorem toFinset_range (n : Nat) : (List.range n).toFinset = Finset.range n := by
  ext x
  simp

theorem num_sorted_nonneg {sorted : List ersel} (hnn : ∀ e ∈ sorted, 0 ≤ e.number) (i : Nat) :
    0 ≤ num sorted i := by
  unfold num
  cases h : sorted[i]? with
  | none => simp
  | some e =>
    simp only [Option.map_some', Option.getD_some]
    exact hnn e (List.getElem?_mem h)

theorem num_sorted_le {sorted : List ersel}
    (hsorted : sorted.Pairwise (fun a b => a.number ≤ b.number)) {i j : Nat} (hij : i ≤ j)
    (hj : j < sorted.length) : num sorted i ≤ num sorted j := by
  have hi : i < sorted.length := by omega
  rw [num_of_get (List.getElem?_eq_getElem hi), num_of_get (List.getElem?_eq_getElem hj)]
  rcases Nat.eq_or_lt_of_le hij with h | h
  · subst h
    exact le_refl _
  · exact (List.pairwise_iff_getElem.1 hsorted) i j hi hj h

theorem init_whead {sorted : List ersel} (h2 : 2 ≤ sorted.length)
    (hleaf : ∀ e ∈ sorted, e.left = none ∧ e.right = none)
    (hnn : ∀ e ∈ sorted, 0 ≤ e.number)
    (hsorted : sorted.Pairwise (fun a b => a.number ≤ b.number))
    (htot : ((List.range sorted.length).map (num sorted)).sum < 2 ^ 63) :
    WHead sorted.length ((List.range sorted.length).map (num sorted)).sum
      { array := sorted, min1 := 0, min2 := 1, notleaf := sorted.length, isleaf := 2 } := by
  have hq : queued sorted.length
      { array := sorted, min1 := 0, min2 := 1, notleaf := sorted.length, isleaf := 2 }
      = List.range' 2 (sorted.length - 2) := by
    simp [queued]
  have hr : [0, 1] ++ List.range' 2 (sorted.length - 2) = List.range sorted.length := by
    obtain ⟨m, hm⟩ : ∃ m, sorted.length = m + 2 := ⟨sorted.length - 2, by omega⟩
    rw [hm, List.range_eq_range', List.range'_succ, List.range'_succ]
    simp
  refine ⟨⟨num_sorted_nonneg hnn, ?_, ?_, ?_, htot, ?_⟩, ?_, ?_, ?_⟩
  · exact fun i j hij hj => num_sorted_le hsorted hij hj
  · intro i j hi hij hj
    have : j < sorted.length := hj
    omega
  · rw [hq, hr]
  · intro i e he l r hl _
    have := (hleaf e (List.getElem?_mem he)).1
    rw [this] at hl
    cases hl
  · show num sorted 0 ≤ num sorted 1
    exact num_sorted_le hsorted (by omega) (by omega)
  · intro r hr'
    rw [hq, List.mem_range'_1] at hr'
    show num sorted 1 ≤ num sorted r
    exact num_sorted_le hsorted (by omega) (by omega)
  · intro i hi hil
    have : i < sorted.length := hil
    omega

/-- The builder on sorted leaves with non-negative frequencies whose total fits a `long int`:
the result of `build_tree_spec`, and in addition the frequencies of the final array are exact
sums and the internal nodes were created by a greedy merge of the leaves. -/
theorem build_greedy {sorted : List ersel} (h1 : 1 ≤ sorted.length)
    (hn : sorted.length ≤ 256) (hleaf : ∀ e ∈ sorted, e.left = none ∧ e.right = none)
    (hnn : ∀ e ∈ sorted, 0 ≤ e.number)
    (hsorted : sorted.Pairwise (fun a b => a.number ≤ b.number))
    (htot : ((List.range sorted.length).map (num sorted)).sum < 2 ^ 63) :
    ∃ (a : List ersel) (t : HTree),
      build_tree sorted = some (a, 2 * sorted.length - 2) ∧
      a.length + 1 = 2 * sorted.length ∧
      Rep a t ∧
      t.idxs.Perm (List.range a.length) ∧
      t.leafIdxs.Perm (List.range sorted.length) ∧
      (∀ i, i < sorted.length → (a[i]?).map strip = (sorted[i]?).map strip) ∧
      (∀ x ∈ t.leafCodes [], (a[x.1]?).map ersel.bit = some x.2) ∧
      (∀ i, 0 ≤ num a i) ∧
      (∀ (i : Nat) (e : ersel), a[i]? = some e → ∀ l r, e.left = some l →
        e.right = some r → e.number = num a l + num a r) ∧
      Greedy (weight a) (Finset.range sorted.length)
        (((List.range' sorted.length (sorted.length - 1)).map (weight a)).sum) := by
  obtain ⟨a, t, hbuild, hlen, hrep, _, hidx, hleaves, hstrip, hcodes, s', hs', hst⟩ :=
    build_tree_spec h1 hn hleaf
  have hnum : ∀ j, num a j = num s'.array j := fun j => num_eq_of_strip (hst j)
  have hweight : weight a = weight s'.array := by
    funext j
    simp only [weight, hnum]
  have hexact_of : (∀ (i : Nat) (e : ersel), s'.array[i]? = some e → ∀ l r, e.left = some l →
      e.right = some r → e.number = num s'.array l + num s'.array r) →
      ∀ (i : Nat) (e : ersel), a[i]? = some e → ∀ l r, e.left = some l →
        e.right = some r → e.number = num a l + num a r := by
    intro hex i e he l r hl hr
    have h3 := hst i
    rw [he, Option.map_some'] at h3
    obtain ⟨e', he', hs⟩ := Option.map_eq_some'.1 h3.symm
    have h4 := (strip_eq_iff _ _).1 hs
    rw [hnum l, hnum r, ← hex i e' he' l r (by rw [h4.1]; exact hl) (by rw [h4.2.1]; exact hr)]
    exact h4.2.2.1.symm
  refine ⟨a, t, hbuild, hlen, hrep, hidx, hleaves, hstrip, hcodes, ?_⟩
  by_cases h2 : 2 ≤ sorted.length
  · obtain ⟨k, hk⟩ : ∃ k, sorted.length = k + 2 := ⟨sorted.length - 2, by omega⟩
    obtain ⟨s'', hs'', _, hnn', hex, hG⟩ := merge_loop_greedy hn k
      { array := sorted, min1 := 0, min2 := 1, notleaf := sorted.length, isleaf := 2 }
      (init_inv h2 hleaf) (init_whead h2 hleaf hnn hsorted htot)
      (by show sorted.length + k + 2 = _; omega)
    have e : sorted.length - 1 = k + 1 := by omega
    rw [e] at hs'
    have hss : s' = s'' := Option.some.inj (hs'.symm.trans hs'')
    subst hss
    refine ⟨fun i => by rw [hnum]; exact hnn' i, hexact_of hex, ?_⟩
    rw [hweight, e]
    have hroots : (0 :: 1 :: queued sorted.length
        { array := sorted, min1 := 0, min2 := 1, notleaf := sorted.length, isleaf := 2 }).toFinset
        = Finset.range sorted.length := by
      have hq : queued sorted.length
          { array := sorted, min1 := 0, min2 := 1, notleaf := sorted.length, isleaf := 2 }
          = List.range' 2 (sorted.length - 2) := by
        simp [queued]
      have hr : 0 :: 1 :: List.range' 2 (sorted.length - 2) = List.range sorted.length := by
        rw [hk, List.range_eq_range', List.range'_succ, List.range'_succ]
        simp
      rw [hq, hr, toFinset_range]
    rw [← hroots]
    exact hG
  · have e : sorted.length = 1 := by omega
    rw [e] at hs'
    have hss : s' = { array := sorted, min1 := 0, min2 := 1, notleaf := 1, isleaf := 2 } :=
      (Option.some.inj hs').symm
    have harr : s'.array = sorted := by rw [hss]
    refine ⟨fun i => by rw [hnum, harr]; exact num_sorted_nonneg hnn i, ?_, ?_⟩
    · apply hexact_of
      rw [harr]
      intro i e' he' l r hl _
      have := (hleaf e' (List.getElem?_mem he')).1
      rw [this] at hl
      cases hl
    · rw [e]
      have : Finset.range 1 = {0} := by decide
      rw [this]
      exact Greedy.single 0

/-- In a represented tree with exact sums the frequency of the top node is the sum of the
frequencies of the leaves. -/
theorem tree_weight {a : List ersel}
    (hex : ∀ (i : Nat) (e : ersel), a[i]? = some e → ∀ l r, e.left = some l →
      e.right = some r → e.number = num a l + num a r) :
    ∀ t, Rep a t → num a t.root = (t.leafIdxs.map (num a)).sum := by
  intro t
  induction t with
  | leaf i => intro _; simp [HTree.root, HTree.leafIdxs]
  | node i l r ihl ihr =>
    rintro ⟨e, he, hl, hr, hrl, hrr⟩
    simp only [HTree.root, HTree.leafIdxs, List.map_append, List.sum_append]
    rw [num_of_get he, hex i e he _ _ hl hr, ihl hrl, ihr hrr]

/-- The weighted length of the path codes of a tree is the weight of the leaves times the length
of the code at the top plus the sum of the frequencies of the internal nodes. -/
theorem tree_cost {a : List ersel}
    (hex : ∀ (i : Nat) (e : ersel), a[i]? = some e → ∀ l r, e.left = some l →
      e.right = some r → e.number = num a l + num a r) :
    ∀ (t : HTree) (c : List Char), Rep a t →
      ((t.leafCodes c).map (fun x => num a x.1 * (x.2.length : Int))).sum =
        (t.leafIdxs.map (num a)).sum * (c.length : Int) + (t.innerIdxs.map (num a)).sum := by
  intro t
  induction t with
  | leaf i => intro c _; simp [HTree.leafCodes, HTree.leafIdxs, HTree.innerIdxs]
  | node i l r ihl ihr =>
    intro c hrep
    have hw := tree_weight hex _ hrep
    obtain ⟨e, he, hl, hr, hrl, hrr⟩ := hrep
    have hwl := tree_weight hex _ hrl
    have hwr := tree_weight hex _ hrr
    have hi : num a i = num a l.root + num a r.root := by
      rw [num_of_get he, hex i e he _ _ hl hr]
    simp only [HTree.leafCodes, HTree.leafIdxs, HTree.innerIdxs, List.map_append,
      List.sum_append, List.map_cons, List.sum_cons]
    rw [ihl _ hrl, ihr _ hrr, hi, hwl, hwr]
    simp only [List.length_append, List.length_singleton]
    push_cast
    ring

/-! ## Optimality of the code table -/

theorem leaf_char_get {sorted : List ersel} {i : Nat} (hi : i < sorted.length) :
    leaf_char sorted i = sorted[i].character := by
  simp [leaf_char, List.getElem?_eq_getElem hi]

theorem IsSortOf.num_eq {number : Nat → Nat} {sorted : List ersel}
    (hs : IsSortOf (extract_leaves number) sorted) {i : Nat} (hi : i < sorted.length) :
    num sorted i = (number (leaf_char sorted i) : Int) := by
  rw [num_of_get (List.getElem?_eq_getElem hi), leaf_char_get hi]
  exact (hs.mem (List.getElem_mem hi)).2.2.2.2

theorem IsSortOf.leaf_char_inj {number : Nat → Nat} {sorted : List ersel}
    (hs : IsSortOf (extract_leaves number) sorted) :
    ∀ i ∈ Finset.range sorted.length, ∀ j ∈ Finset.range sorted.length,
      leaf_char sorted i = leaf_char sorted j → i = j := by
  intro i hi j hj h
  have hi' : i < sorted.length := Finset.mem_range.1 hi
  have hj' : j < sorted.length := Finset.mem_range.1 hj
  rw [leaf_char_get hi', leaf_char_get hj'] at h
  have hnd := hs.nodup
  have h1 : i < (sorted.map ersel.character).length := by simpa using hi'
  have h2 : j < (sorted.map ersel.character).length := by simpa using hj'
  have h3 : (sorted.map ersel.character)[i] = (sorted.map ersel.character)[j] := by
    simp only [List.getElem_map]
    exact h
  exact (List.Nodup.getElem_inj_iff hnd).1 h3

theorem IsSortOf.pairwise_le {number : Nat → Nat} {sorted : List ersel}
    (hs : IsSortOf (extract_leaves number) sorted) :
    sorted.Pairwise (fun a b => a.number ≤ b.number) := by
  refine List.Pairwise.imp ?_ hs.2
  intro a b hab
  simp only [erselcompare0, decide_eq_false_iff_not, not_lt] at hab
  exact hab

/-- A sum over the byte values weighted by the histogram is a sum over the sorted leaves. -/
theorem IsSortOf.sum_reindex {number : Nat → Nat} {sorted : List ersel}
    (hs : IsSortOf (extract_leaves number) sorted) (f : Nat → Nat) :
    weighted_length number f =
      ∑ i ∈ Finset.range sorted.length,
        number (leaf_char sorted i) * f (leaf_char sorted i) := by
  have himg : (Finset.range sorted.length).image (leaf_char sorted) =
      (Finset.range 256).filter (fun b => number b ≠ 0) := by
    ext b
    simp only [Finset.mem_image, Finset.mem_range, Finset.mem_filter]
    constructor
    · rintro ⟨i, hi, rfl⟩
      rw [leaf_char_get hi]
      have := hs.mem (List.getElem_mem hi)
      exact ⟨this.2.2.1, this.2.2.2.1⟩
    · intro hb
      obtain ⟨c, hc, hcb⟩ := List.mem_map.1 ((hs.mem_character b).2 hb)
      obtain ⟨i, hi, hic⟩ := List.getElem_of_mem hc
      exact ⟨i, hi, by rw [leaf_char_get hi, hic, hcb]⟩
  unfold weighted_length
  have h1 := Finset.sum_image (f := fun b => number b * f b) hs.leaf_char_inj
  rw [← h1, himg]
  symm
  apply Finset.sum_filter_of_ne
  intro b _ hne hzero
  exact hne (by rw [hzero, Nat.zero_mul])

theorem sum_list_range (f : Nat → Int) (n : Nat) :
    ((List.range n).map f).sum = ∑ i ∈ Finset.range n, f i := by
  rw [← toFinset_range, List.sum_toFinset f (List.nodup_range n)]

theorem IsSortOf.total_eq {number : Nat → Nat} {sorted : List ersel}
    (hs : IsSortOf (extract_leaves number) sorted) :
    ((List.range sorted.length).map (num sorted)).sum =
      ((weighted_length number (fun _ => 1) : Nat) : Int) := by
  rw [sum_list_range, hs.sum_reindex, Nat.cast_sum]
  apply Finset.sum_congr rfl
  intro i hi
  rw [hs.num_eq (Finset.mem_range.1 hi), Nat.mul_one]

/-- C2 (optimality).  For every histogram with at least one byte whose counts sum to less than
`2^63`, and every admissible result of the sort, the code table `C` built by the two-queue
construction has the least weighted length: `Σ H[b]·|C[b]| ≤ Σ H[b]·|D[b]|` for every binary code
`D` that is prefix-free on the bytes with `H[b] > 0`. -/
theorem optimality (number : Nat → Nat) (sorted : List ersel)
    (hs : IsSortOf (extract_leaves number) sorted) (hpos : ∃ b, b < 256 ∧ 0 < number b)
    (htot : (∑ b ∈ Finset.range 256, number b) < 2 ^ 63) :
    ∃ str_arr, code_table sorted = some str_arr ∧
      ∀ D : Nat → List Bool,
        (∀ b b', b < 256 → b' < 256 → 0 < number b → 0 < number b' → b ≠ b' →
          ¬ (D b <+: D b')) →
        weighted_length number (fun b => (str_arr b).length) ≤
          weighted_length number (fun b => (D b).length) := by
  obtain ⟨b0, hb0, hb0pos⟩ := hpos
  have h1 : 1 ≤ sorted.length := by rw [hs.length_eq]; exact letter_count_pos hb0 hb0pos
  have hn : sorted.length ≤ 256 := by rw [hs.length_eq]; exact letter_count_le _
  have htot' : ((List.range sorted.length).map (num sorted)).sum < 2 ^ 63 := by
    rw [hs.total_eq]
    have : weighted_length number (fun _ => 1) = ∑ b ∈ Finset.range 256, number b := by
      simp [weighted_length]
    rw [this]
    exact_mod_cast htot
  obtain ⟨a, t, hbuild, hlen, hrep, hidx, hleaves, hstrip, hcodes, hnn, hex, hG⟩ :=
    build_greedy h1 hn (fun e he => ⟨(hs.mem he).1, (hs.mem he).2.1⟩)
      (fun e he => by rw [(hs.mem he).2.2.2.2]; exact Int.natCast_nonneg _)
      hs.pairwise_le htot'
  obtain ⟨_, hfacts⟩ := code_facts_of_build hs hlen hleaves hstrip hcodes
  refine ⟨fill_str_arr (a.take sorted.length) (fun _ => []), ?_, ?_⟩
  · simp only [code_table, hbuild, Option.map_some']
  generalize fill_str_arr (a.take sorted.length) (fun _ => []) = str_arr at hfacts ⊢
  intro D hD
  -- frequencies of the leaves in the final array
  have hnum : ∀ i, i < sorted.length → num a i = (number (leaf_char sorted i) : Int) := by
    intro i hi
    rw [num_eq_of_strip (hstrip i hi), hs.num_eq hi]
  have hwt : ∀ i, i < sorted.length → weight a i = number (leaf_char sorted i) := by
    intro i hi
    simp [weight, hnum i hi]
  -- the codes of the tree are the entries of the table
  have hndl : t.leafIdxs.Nodup := hleaves.nodup_iff.2 (List.nodup_range _)
  have hx2 : ∀ x ∈ t.leafCodes [], x.2 = str_arr (leaf_char sorted x.1) := by
    intro x hx
    have hx1 : x.1 ∈ t.leafIdxs := by
      rw [← t.leafCodes_map_fst []]
      exact List.mem_map_of_mem _ hx
    have hlt : x.1 < sorted.length := List.mem_range.1 (hleaves.subset hx1)
    have hmem := hfacts.code x.1 sorted[x.1] (List.getElem?_eq_getElem hlt)
    rw [← leaf_char_get hlt] at hmem
    have hnd : ((t.leafCodes []).map Prod.fst).Nodup := by
      rw [t.leafCodes_map_fst]
      exact hndl
    have := List.inj_on_of_nodup_map hnd hx hmem rfl
    rw [this]
  -- weighted length of the table = sum of the internal frequencies
  have hinner : t.innerIdxs.Perm (List.range' sorted.length (sorted.length - 1)) := by
    have e1 : List.range a.length =
        List.range sorted.length ++ List.range' sorted.length (sorted.length - 1) := by
      have := List.range'_append 0 sorted.length (sorted.length - 1) 1
      simp only [Nat.zero_add, Nat.one_mul] at this
      rw [List.range_eq_range', List.range_eq_range', this]
      congr 1
      omega
    have e2 := (t.idxs_perm.symm.trans hidx)
    rw [e1] at e2
    exact (List.perm_append_left_iff _).1 ((List.Perm.append_right _ hleaves.symm).trans e2)
  have hcost := tree_cost hex t [] hrep
  simp only [List.length_nil, Nat.cast_zero, mul_zero, zero_add] at hcost
  have hlhs : ((t.leafCodes []).map (fun x => num a x.1 * (x.2.length : Int))).sum =
      ((∑ i ∈ Finset.range sorted.length,
        number (leaf_char sorted i) * (str_arr (leaf_char sorted i)).length : Nat) : Int) := by
    have e1 : (t.leafCodes []).map (fun x => num a x.1 * (x.2.length : Int)) =
        ((t.leafCodes []).map Prod.fst).map
          (fun i => num a i * ((str_arr (leaf_char sorted i)).length : Int)) := by
      rw [List.map_map]
      apply List.map_congr_left
      intro x hx
      simp only [Function.comp_apply, hx2 x hx]
    rw [e1, t.leafCodes_map_fst, (hleaves.map _).sum_eq, sum_list_range, Nat.cast_sum]
    apply Finset.sum_congr rfl
    intro i hi
    rw [hnum i (Finset.mem_range.1 hi)]
    push_cast
    rfl
  have hrhs : (t.innerIdxs.map (num a)).sum =
      ((((List.range' sorted.length (sorted.length - 1)).map (weight a)).sum : Nat) : Int) := by
    rw [(hinner.map _).sum_eq]
    generalize List.range' sorted.length (sorted.length - 1) = l
    induction l with
    | nil => simp
    | cons x xs ih =>
      simp only [List.map_cons, List.sum_cons, Nat.cast_add, ih]
      congr 1
      simp [weight, Int.toNat_of_nonneg (hnn x)]
  have hhuff : weighted_length number (fun b => (str_arr b).length) =
      ((List.range' sorted.length (sorted.length - 1)).map (weight a)).sum := by
    rw [hs.sum_reindex]
    have := hlhs.symm.trans (hcost.trans hrhs)
    exact_mod_cast this
  -- any other prefix-free code
  have hpf : PrefixFreeOn (Finset.range sorted.length) (fun i => D (leaf_char sorted i)) := by
    intro i hi j hj hij
    have hi' : i < sorted.length := Finset.mem_range.1 hi
    have hj' : j < sorted.length := Finset.mem_range.1 hj
    have h3 := hs.mem (List.getElem_mem hi')
    have h4 := hs.mem (List.getElem_mem hj')
    rw [← leaf_char_get hi'] at h3
    rw [← leaf_char_get hj'] at h4
    exact hD _ _ h3.2.2.1 h4.2.2.1 (Nat.pos_of_ne_zero h3.2.2.2.1)
      (Nat.pos_of_ne_zero h4.2.2.2.1) (fun e => hij (hs.leaf_char_inj i hi j hj e))
  have hopt := greedy_optimal hG _ hpf
  have hD' : wcost (weight a) (Finset.range sorted.length) (fun i => D (leaf_char sorted i)) =
      weighted_length number (fun b => (D b).length) := by
    rw [hs.sum_reindex]
    unfold wcost
    apply Finset.sum_congr rfl
    intro i hi
    rw [hwt i (Finset.mem_range.1 hi)]
  rw [hhuff, ← hD']
  exact hopt

/-- Witness of `optimality`: the histogram `{A:3, B:2, C:1}`. -/
theorem optimality_witness :
    ∃ str_arr, code_table (sort_array (extract_leaves hist_ABC)) = some str_arr ∧
      ∀ D : Nat → List Bool,
        (∀ b b', b < 256 → b' < 256 → 0 < hist_ABC b → 0 < hist_ABC b' → b ≠ b' →
          ¬ (D b <+: D b')) →
        weighted_length hist_ABC (fun b => (str_arr b).length) ≤
          weighted_length hist_ABC (fun b => (D b).length) :=
  optimality hist_ABC _ (sort_array_isSortOf _) ⟨65, by decide, by decide⟩ (by decide)

/-! ## The writers do not read the bytes already emitted -/

theorem prepend_nil (c : BitCursor) : prepend [] c = c := by
  simp [prepend]

theorem flush_full_prepend (buffer : List Nat) (c : BitCursor) :
    flush_full (prepend buffer c) = prepend buffer (flush_full c) := by
  unfold flush_full prepend
  by_cases h : c.current_bit_count = 8
  · simp [h, List.append_assoc]
  · simp [h]

theorem shift_in_prepend (buffer : List Nat) (c : BitCursor) (b : Nat) :
    shift_in (prepend buffer c) b = prepend buffer (shift_in c b) := rfl

theorem foldl_prepend {α : Type} (f : BitCursor → α → BitCursor) (buffer : List Nat)
    (hf : ∀ c x, f (prepend buffer c) x = prepend buffer (f c x)) (l : List α) :
    ∀ c, l.foldl f (prepend buffer c) = prepend buffer (l.foldl f c) := by
  induction l with
  | nil => exact fun c => rfl
  | cons x xs ih =>
    intro c
    rw [List.foldl_cons, hf, ih, List.foldl_cons]

theorem write_from_uChar_prepend (buffer : List Nat) (u : Nat) (c : BitCursor) :
    write_from_uChar u (prepend buffer c) = prepend buffer (write_from_uChar u c) := by
  unfold write_from_uChar
  apply foldl_prepend
  intro c i
  rw [flush_full_prepend, shift_in_prepend]

theorem write_file_size_prepend (buffer : List Nat) (size : Nat) (c : BitCursor) :
    write_file_size size (prepend buffer c) = prepend buffer (write_file_size size c) := by
  unfold write_file_size
  apply foldl_prepend
  intro c i
  rw [write_from_uChar_prepend]

theorem write_code_prepend (buffer : List Nat) (code : List Char) :
    ∀ c, write_code code (prepend buffer c) = (write_code code c).map (prepend buffer) := by
  induction code with
  | nil => exact fun c => rfl
  | cons ch rest ih =>
    intro c
    simp only [write_code]
    by_cases h0 : ch = Char.ofNat 0
    · simp [h0]
    · rw [if_neg h0, if_neg h0]
      by_cases h1 : ch = '1'
      · rw [if_pos h1, if_pos h1, shift_one_eq, shift_one_eq, flush_full_prepend,
          shift_in_prepend, ih]
      · rw [if_neg h1, if_neg h1]
        by_cases h2 : ch = '0'
        · rw [if_pos h2, if_pos h2, shift_zero_eq, shift_zero_eq, flush_full_prepend,
            shift_in_prepend, ih]
        · rw [if_neg h2, if_neg h2]
          rfl

theorem write_codes_prepend (buffer : List Nat) (str_arr : Nat → List Char)
    (bytes : List Nat) :
    ∀ c, write_codes bytes str_arr (prepend buffer c) =
      (write_codes bytes str_arr c).map (prepend buffer) := by
  induction bytes with
  | nil => exact fun c => rfl
  | cons x xs ih =>
    intro c
    simp only [write_codes]
    rw [write_code_prepend]
    cases write_code (str_arr x) c with
    | none => rfl
    | some c1 => exact ih c1

theorem flush_item_prepend (buffer : List Nat) (c : BitCursor) :
    flush_item (prepend buffer c) = prepend buffer (flush_item c) := by
  unfold flush_item prepend
  by_cases h : c.current_bit_count > 0
  · simp [h, List.append_assoc]
  · simp [h]

theorem compress_item_prepend (buffer : List Nat) (str_arr : Nat → List Char) (a : Arg)
    (c : BitCursor) :
    compress_item str_arr (prepend buffer c) a =
      (compress_item str_arr c a).map (prepend buffer) := by
  unfold compress_item
  cases a.target with
  | missing => rfl
  | folder es => rfl
  | file content =>
    simp only [write_the_file_content]
    rw [shift_one_eq, shift_one_eq, shift_in_prepend, write_file_size_prepend,
      write_codes_prepend]
    cases write_codes content str_arr (write_file_size content.length (shift_in c 1)) with
    | none => rfl
    | some c1 => simp [flush_item_prepend]

/-- The cursor that a top-level file leaves behind: the body of the pass-2 loop succeeds on a
table of binary codes and ends on an empty bit cursor. -/
theorem compress_file_empty (str_arr : Nat → List Char) (content : List Nat)
    (hcode : ∀ b ∈ content, ∀ ch ∈ str_arr b, ch = '0' ∨ ch = '1') (a : Arg)
    (ha : a.target = .file content) :
    ∃ rec, compress_item str_arr empty_cursor a =
        some { current_byte := 0, current_bit_count := 0, out := rec } ∧
      ∃ c3, write_codes content str_arr
          (write_file_size content.length (shift_in empty_cursor 1)) = some c3 ∧
        Valid c3 ∧ 1 ≤ c3.current_bit_count ∧ rec = (flush_item c3).out := by
  have h0 : Valid empty_cursor := valid_empty []
  have hm := appends_marker h0 (by simp [empty_cursor]) 1 (by omega)
  have hsz := appends_size content.length hm.valid
  obtain ⟨c3, hc3, hw⟩ := appends_codes str_arr content hcode _ hsz.valid
  have hall := (hm.trans hsz).trans hw
  have hpos : 1 ≤ c3.current_bit_count := hall.pos (Or.inr (by simp))
  obtain ⟨hb, hcnt, -⟩ := flush_item_spec hw.valid hpos
  refine ⟨(flush_item c3).out, ?_, c3, hc3, hw.valid, hpos, rfl⟩
  simp only [compress_item, ha, write_the_file_content]
  rw [shift_one_eq, hc3]
  simp only [Option.map_some', Option.some.injEq]
  cases hfc : flush_item c3 with
  | mk x y z =>
    rw [hfc] at hb hcnt
    simp only at hb hcnt
    rw [hb, hcnt]

/-- On a buffer that already holds `buffer`, the body of the pass-2 loop appends the record of
its argument and leaves the bit cursor empty. -/
theorem compress_item_record (str_arr : Nat → List Char) (a : Arg)
    (hcode : ∀ b ∈ a.content, ∀ ch ∈ str_arr b, ch = '0' ∨ ch = '1') (buffer : List Nat) :
    compress_item str_arr { current_byte := 0, current_bit_count := 0, out := buffer } a =
      some { current_byte := 0, current_bit_count := 0,
             out := buffer ++ item_record str_arr a } := by
  have e : ({ current_byte := 0, current_bit_count := 0, out := buffer } : BitCursor) =
      prepend buffer empty_cursor := by
    simp [prepend, empty_cursor]
  rw [e, compress_item_prepend]
  cases ht : a.target with
  | missing => simp [compress_item, item_record, ht, prepend, empty_cursor]
  | folder es => simp [compress_item, item_record, ht, prepend, empty_cursor]
  | file content =>
    have hc : a.content = content := by simp [Arg.content, ht]
    obtain ⟨rec, hrec, -⟩ := compress_file_empty str_arr content (hc ▸ hcode) a ht
    simp [item_record, hrec, prepend]

/-! ## Scenarios -/

/-- C16 (scenario S2).  For every code table, the body of the pass-2 loop on an empty top-level
file appends exactly the nine bytes `0x80, 0, 0, 0, 0, 0, 0, 0, 0` to the thread buffer and
leaves the bit cursor empty; the record of the format is the marker bit `1` followed by 64 zero
bits, with no content bit, and the nine bytes are these 65 bits followed by seven zero bits. -/
theorem empty_file_record (str_arr : Nat → List Char) (name buffer : List Nat) :
    compress_item str_arr { current_byte := 0, current_bit_count := 0, out := buffer }
        { name := name, target := .file [] } =
      some { current_byte := 0, current_bit_count := 0,
             out := buffer ++ [128, 0, 0, 0, 0, 0, 0, 0, 0] } ∧
    file_record_bits str_arr [] = true :: List.replicate 64 false ∧
    bytes_to_bits [128, 0, 0, 0, 0, 0, 0, 0, 0] =
      file_record_bits str_arr [] ++ List.replicate 7 false := by
  refine ⟨?_, by rfl, by rfl⟩
  have h := compress_item_record str_arr { name := name, target := .file [] }
    (fun b hb => by simp [Arg.content] at hb) buffer
  rw [h]
  rfl

/-- C14 (scenario S5), the run of the program.  For the two top-level files `a` (100 bytes
`0x00`) and `b` (100 bytes `0xFF`) the counter `letter_count` is 4, not 2. -/
theorem two_files_letter_count : letter_count run_two_files.number = 4 := by
  rfl

/-- C14 (scenario S5), amended.  For the two top-level files `a` (100 bytes `0x00`) and `b`
(100 bytes `0xFF`) pass 1 also counts the bytes of the two argument strings, so the leaves are
the four bytes `0x00` (100), `a` (1), `b` (1) and `0xFF` (100), and the archive is written with
a first byte of 4: the code table has exactly four entries. -/
theorem two_files_four_entries :
    (extract_leaves run_two_files.number).map (fun e => (e.character, e.number)) =
      [(0, 100), (97, 1), (98, 1), (255, 100)] ∧
    (run_two_files.sorted).length = 4 ∧
    (main run_two_files).map List.head? = some (some 4) := by
  refine ⟨by rfl, by rfl, by rfl⟩

/-- Two sorted rearrangements of the same elements are equal when no two distinct elements are
equivalent for the order. -/
theorem sorted_unique {α : Type} (r : α → α → Prop) :
    ∀ (l1 l2 : List α), l1.Perm l2 → l1.Pairwise r → l2.Pairwise r →
      (∀ a ∈ l1, ∀ b ∈ l1, r a b → r b a → a = b) → l1 = l2 := by
  intro l1
  induction l1 with
  | nil =>
    intro l2 hp _ _ _
    exact (List.Perm.nil_eq hp)
  | cons a l1 ih =>
    intro l2 hp h1 h2 hanti
    cases l2 with
    | nil => exact absurd hp.symm (List.not_perm_nil_cons _ _)
    | cons b l2 =>
      have hab : a = b := by
        by_contra hne
        have ha : a ∈ b :: l2 := hp.subset (List.mem_cons_self _ _)
        have hb : b ∈ a :: l1 := hp.symm.subset (List.mem_cons_self _ _)
        have ha2 : a ∈ l2 := by
          rcases List.mem_cons.1 ha with h | h
          · exact absurd h hne
          · exact h
        have hb1 : b ∈ l1 := by
          rcases List.mem_cons.1 hb with h | h
          · exact absurd h.symm hne
          · exact h
        exact hne (hanti a (List.mem_cons_self _ _) b hb
          ((List.pairwise_cons.1 h1).1 b hb1) ((List.pairwise_cons.1 h2).1 a ha2))
      subst hab
      have := ih l2 (List.Perm.cons_inv hp) (List.pairwise_cons.1 h1).2
        (List.pairwise_cons.1 h2).2
        (fun x hx y hy => hanti x (List.mem_cons_of_mem _ hx) y (List.mem_cons_of_mem _ hy))
      rw [this]

/-- The sort of the leaves of `hist_ABC` has a single admissible result. -/
theorem sorted_ABC (sorted : List ersel) (h : IsSortOf (extract_leaves hist_ABC) sorted) :
    sorted = sort_array (extract_leaves hist_ABC) := by
  have h0 := sort_array_isSortOf (extract_leaves hist_ABC)
  refine sorted_unique (fun a b => erselcompare0 b a = false) _ _
    (h.1.trans h0.1.symm) h.2 h0.2 ?_
  have hd : ∀ a ∈ extract_leaves hist_ABC, ∀ b ∈ extract_leaves hist_ABC,
      erselcompare0 b a = false → erselcompare0 a b = false → a = b := by
    decide
  intro a ha b hb
  exact hd a (h.1.subset ha) b (h.1.subset hb)

/-- C15 (scenario S1).  For the histogram `A:3, B:2, C:1` and every result of the sort, the
builder gives `A` the code `0`, `B` the code `10` and `C` the code `11`, of lengths 1, 2 and 2,
and from every valid cursor the content `A,B,A,C,A,B` is written as exactly 9 bits, the codes of
its bytes in order. -/
theorem scenario_code_lengths (sorted : List ersel)
    (h : IsSortOf (extract_leaves hist_ABC) sorted) :
    ∃ str_arr, code_table sorted = some str_arr ∧
      str_arr 65 = ['0'] ∧ str_arr 66 = ['1', '0'] ∧ str_arr 67 = ['1', '1'] ∧
      (str_arr 65).length = 1 ∧ (str_arr 66).length = 2 ∧ (str_arr 67).length = 2 ∧
      ∀ c, Valid c → ∃ c' bits,
        write_the_file_content [65, 66, 65, 67, 65, 66] str_arr c = some c' ∧
        stream c' = stream c ++ bits ∧
        bits = [false, true, false, false, true, true, false, true, false] ∧
        bits.length = 9 := by
  rw [sorted_ABC sorted h]
  have hct : code_table (sort_array (extract_leaves hist_ABC)) = some (fill_str_arr
      [{ left := none, right := none, number := 1, character := 67, bit := ['1', '1'] },
       { left := none, right := none, number := 2, character := 66, bit := ['1', '0'] },
       { left := none, right := none, number := 3, character := 65, bit := ['0'] }]
      (fun _ => [])) := by
    rfl
  refine ⟨_, hct, by rfl, by rfl, by rfl, by rfl, by rfl, by rfl, ?_⟩
  intro c hc
  have hcode : ∀ b ∈ [65, 66, 65, 67, 65, 66], ∀ ch ∈ fill_str_arr
      [{ left := none, right := none, number := 1, character := 67, bit := ['1', '1'] },
       { left := none, right := none, number := 2, character := 66, bit := ['1', '0'] },
       { left := none, right := none, number := 3, character := 65, bit := ['0'] }]
      (fun _ => []) b, ch = '0' ∨ ch = '1' := by
    decide
  obtain ⟨c', hc', hw⟩ := appends_codes _ [65, 66, 65, 67, 65, 66] hcode c hc
  exact ⟨c', _, hc', hw.stream_eq, by rfl, by rfl⟩

/-- Witness of `scenario_code_lengths`: the insertion sort of the three leaves. -/
theorem scenario_code_lengths_witness :
    IsSortOf (extract_leaves hist_ABC) (sort_array (extract_leaves hist_ABC)) ∧
    ∃ str_arr, code_table (sort_array (extract_leaves hist_ABC)) = some str_arr ∧
      str_arr 65 = ['0'] ∧ str_arr 66 = ['1', '0'] ∧ str_arr 67 = ['1', '1'] ∧
      (str_arr 65).length = 1 ∧ (str_arr 66).length = 2 ∧ (str_arr 67).length = 2 ∧
      ∀ c, Valid c → ∃ c' bits,
        write_the_file_content [65, 66, 65, 67, 65, 66] str_arr c = some c' ∧
        stream c' = stream c ++ bits ∧
        bits = [false, true, false, false, true, true, false, true, false] ∧
        bits.length = 9 :=
  ⟨sort_array_isSortOf _, scenario_code_lengths _ (sort_array_isSortOf _)⟩

/-! ## Password block and tie-break -/

/-- C17 (password block and independence).  Whenever a run writes an archive, the archive is the
`letter_count` byte, then the password block, then a remainder; the block is the single byte 0
when no password is set and otherwise the password length (between 1 and 100) followed by the
password bytes; for the password `secret` the bytes 1..7 are `6, s, e, c, r, e, t`; and the same
inputs with any other accepted password choice give the same first byte and the same
remainder after the new password block. -/
theorem password_independence (r : Run) (bytes : List Nat) (h : main r = some bytes) :
    ∃ block rest, password_block r.check_password r.password = some block ∧
      bytes = letter_count r.number % 256 :: (block ++ rest) ∧
      (r.check_password = 0 → block = [0]) ∧
      (r.check_password ≠ 0 → 1 ≤ r.password.length ∧ r.password.length ≤ 100 ∧
        block = r.password.length :: r.password) ∧
      (r.check_password ≠ 0 → r.password = [115, 101, 99, 114, 101, 116] →
        (bytes.drop 1).take 7 = [6, 115, 101, 99, 114, 101, 116]) ∧
      ∀ (check_password : Int) (password block2 : List Nat),
        password_block check_password password = some block2 →
        main { r with check_password := check_password, password := password } =
          some (letter_count r.number % 256 :: (block2 ++ rest)) := by
  unfold main at h
  by_cases h1 : r.args.isEmpty
  · rw [if_pos h1] at h
    exact absurd h (by simp)
  rw [if_neg h1] at h
  by_cases h2 : r.args.any (fun a => this_is_not_a_folder a.target && is_missing a.target)
  · rw [if_pos h2] at h
    exact absurd h (by simp)
  rw [if_neg h2] at h
  cases hpw : password_block r.check_password r.password with
  | none => rw [hpw] at h; exact absurd h (by simp)
  | some block =>
    rw [hpw] at h
    cases hh : header r with
    | none => rw [hh] at h; exact absurd h (by simp)
    | some p =>
      obtain ⟨str_arr, c⟩ := p
      rw [hh] at h
      by_cases h3 : r.check = 0
      · simp only [h3, if_true] at h
        exact absurd h (by simp)
      simp only [h3, if_false] at h
      cases hb : thread_buffers r.args r.owner2 str_arr r.num_threads with
      | none => rw [hb] at h; exact absurd h (by simp)
      | some buffers =>
        rw [hb] at h
        simp only [Option.some.injEq] at h
        have hblock : (r.check_password = 0 → block = [0]) ∧
            (r.check_password ≠ 0 → 1 ≤ r.password.length ∧ r.password.length ≤ 100 ∧
              block = r.password.length :: r.password) := by
          unfold password_block at hpw
          by_cases hc : r.check_password = 0
          · simp only [hc, ne_eq, not_true_eq_false, if_false, Option.some.injEq] at hpw
            exact ⟨fun _ => hpw.symm, fun hn => absurd hc hn⟩
          · rw [if_pos hc] at hpw
            by_cases hl0 : r.password.length = 0
            · rw [if_pos hl0] at hpw
              exact absurd hpw (by simp)
            rw [if_neg hl0] at hpw
            by_cases hl1 : r.password.length > 100
            · rw [if_pos hl1] at hpw
              exact absurd hpw (by simp)
            rw [if_neg hl1, Option.some.injEq, Nat.mod_eq_of_lt (by omega)] at hpw
            exact ⟨fun h0 => absurd h0 hc, fun _ => ⟨by omega, by omega, hpw.symm⟩⟩
        refine ⟨block, c.out ++ merge_buffers buffers, rfl, h.symm, hblock.1, hblock.2, ?_, ?_⟩
        · intro hc hs
          have hb3 := (hblock.2 hc).2.2
          rw [← h, hb3, hs]
          rfl
        · intro cp pw block2 hp2
          unfold main
          have e1 : ({ r with check_password := cp, password := pw } : Run).args = r.args := rfl
          have e2 : header { r with check_password := cp, password := pw } = header r := rfl
          have e3 : ({ r with check_password := cp, password := pw } : Run).number =
              r.number := rfl
          simp only [e1, e2, e3, h1, h2, hh, hp2, h3, hb]
          simp

/-- Witness of `password_independence`: the file `a` holding the byte `b`, with the password
`secret`. -/
theorem password_independence_witness :
    main run_secret = some [2, 6, 115, 101, 99, 114, 101, 116, 97, 1, 177, 0, 128, 64,
      128, 0, 0, 0, 0, 0, 0, 0, 128] ∧
    ∃ block rest, password_block run_secret.check_password run_secret.password = some block ∧
      [2, 6, 115, 101, 99, 114, 101, 116, 97, 1, 177, 0, 128, 64,
        128, 0, 0, 0, 0, 0, 0, 0, 128] =
        letter_count run_secret.number % 256 :: (block ++ rest) ∧
      (run_secret.check_password = 0 → block = [0]) ∧
      (run_secret.check_password ≠ 0 → 1 ≤ run_secret.password.length ∧
        run_secret.password.length ≤ 100 ∧
        block = run_secret.password.length :: run_secret.password) ∧
      (run_secret.check_password ≠ 0 → run_secret.password = [115, 101, 99, 114, 101, 116] →
        (([2, 6, 115, 101, 99, 114, 101, 116, 97, 1, 177, 0, 128, 64,
          128, 0, 0, 0, 0, 0, 0, 0, 128] : List Nat).drop 1).take 7 =
          [6, 115, 101, 99, 114, 101, 116]) ∧
      ∀ (check_password : Int) (password block2 : List Nat),
        password_block check_password password = some block2 →
        main { run_secret with check_password := check_password, password := password } =
          some (letter_count run_secret.number % 256 :: (block2 ++ rest)) :=
  ⟨by rfl, password_independence run_secret _ (by rfl)⟩

/-- C18 (queue tie-break), the run of the program.  For the histogram `A:1, B:1, C:2`, after
the first node is written the leaf `C` at the head of the leaf queue (index 2) and the internal
node at the head of the other queue (index 3) both have frequency 2, and the next `min1` is the
internal node: the leaf stays in its queue. -/
theorem tie_selects_internal_node :
    state_tie.map (fun s => (num s.array s.isleaf, num s.array s.notleaf, s.isleaf, s.notleaf)) =
      some (2, 2, 2, 3) ∧
    (state_tie.bind (select_min1 3)).map (fun s => (s.min1, s.isleaf, s.notleaf)) =
      some (3, 2, 4) := by
  constructor <;> rfl

/-- C18 (queue tie-break), amended.  In the two-queue merge, whenever the leaf queue is not
exhausted and the head of the leaf queue and the head of the internal-node queue have equal
frequency, the next node selected, for `min1` and for `min2` alike, is the internal node:
`notleaf` advances and `isleaf` stays. -/
theorem tie_break_internal_first (array_size : Nat) (s : BuildState) (l nl : ersel)
    (hleaf : s.isleaf < array_size)
    (hl : s.array[s.isleaf]? = some l) (hnl : s.array[s.notleaf]? = some nl)
    (heq : l.number = nl.number) :
    select_min1 array_size s = some { s with min1 := s.notleaf, notleaf := s.notleaf + 1 } ∧
    select_min2 array_size s = some { s with min2 := s.notleaf, notleaf := s.notleaf + 1 } := by
  have h1 : ¬ s.isleaf ≥ array_size := by omega
  have h2 : ¬ l.number < nl.number := by omega
  have h3 : ¬ s.notleaf ≥ s.array.length := by
    intro h
    rw [List.getElem?_eq_none h] at hnl
    exact absurd hnl (by simp)
  constructor
  · simp only [select_min1, if_neg h1, hl, hnl, if_neg h2]
  · simp only [select_min2, if_neg h1, if_neg h3, hl, hnl, if_neg h2]

/-- Witness of `tie_break_internal_first`: the state after the first node of the histogram `A:1, B:1, C:2`, with the leaf `C` and the internal node of
frequency 2 at the heads of the two queues. -/
theorem tie_break_internal_first_witness :
    (2 : Nat) < 3 ∧
    select_min1 3 ⟨[⟨none, none, 1, 65, ['1']⟩, ⟨none, none, 1, 66, ['0']⟩, ⟨none, none, 2, 67, []⟩,
        ⟨some 0, some 1, 2, 0, []⟩], 0, 1, 3, 2⟩ =
      some ⟨[⟨none, none, 1, 65, ['1']⟩, ⟨none, none, 1, 66, ['0']⟩, ⟨none, none, 2, 67, []⟩,
        ⟨some 0, some 1, 2, 0, []⟩], 3, 1, 4, 2⟩ :=
  ⟨by decide,
   (tie_break_internal_first 3
      ⟨[⟨none, none, 1, 65, ['1']⟩, ⟨none, none, 1, 66, ['0']⟩, ⟨none, none, 2, 67, []⟩,
        ⟨some 0, some 1, 2, 0, []⟩], 0, 1, 3, 2⟩
      ⟨none, none, 2, 67, []⟩ ⟨some 0, some 1, 2, 0, []⟩ (by decide) rfl rfl rfl).1⟩

/-! ## The bit packer on every cursor with at most eight pending bits -/

theorem grows_refl {c : BitCursor} (h : c.current_bit_count ≤ 8) : Grows c c [] :=
  ⟨h, ⟨[], by simp⟩, by simp⟩

theorem grows_trans {c1 c2 c3 : BitCursor} {b1 b2 : List Bool}
    (h1 : Grows c1 c2 b1) (h2 : Grows c2 c3 b2) : Grows c1 c3 (b1 ++ b2) := by
  refine ⟨h2.count_le, ?_, ?_⟩
  · obtain ⟨r1, e1⟩ := h1.out_ext
    obtain ⟨r2, e2⟩ := h2.out_ext
    exact ⟨r1 ++ r2, by rw [e2, e1, List.append_assoc]⟩
  · rw [h2.stream_eq, h1.stream_eq, List.append_assoc]

/-- The low `k` bits, for `k < 8`, do not see the bits of weight 128 and above. -/
theorem bits_of_nat_mod (k x : Nat) (hk : k < 8) :
    bits_of_nat k (x % 128) = bits_of_nat k x := by
  unfold bits_of_nat
  apply List.map_congr_left
  intro i hi
  have hi' : i < k := List.mem_range.1 hi
  have e : (128 : Nat) = 2 ^ 7 := by norm_num
  rw [e, Nat.testBit_mod_two_pow]
  have : k - 1 - i < 7 := by omega
  simp [this]

/-- A shift of `current_byte` as an `unsigned char` keeps the pending bits and adds one. -/
theorem shift_bits (k x b : Nat) (hk : k < 8) (hb : b ≤ 1) :
    bits_of_nat (k + 1) (((x <<< 1) % 256) ||| b) = bits_of_nat k x ++ [decide (b = 1)] := by
  have e : (x <<< 1) % 256 = ((x % 128) <<< 1) % 256 := by
    rw [Nat.shiftLeft_eq, Nat.shiftLeft_eq]
    omega
  rw [e, shift_byte (x % 128) b (Nat.mod_lt _ (by norm_num)) hb, bits_of_nat_succ _ _ _ hb,
    bits_of_nat_mod k x hk]

/-- The test `current_bit_count == 8` does not change the logical stream. -/
theorem stream_flush_full (c : BitCursor) : stream (flush_full c) = stream c := by
  by_cases h8 : c.current_bit_count = 8
  · have hf : flush_full c =
        { current_byte := 0, current_bit_count := 0, out := c.out ++ [c.current_byte] } := by
      simp [flush_full, h8]
    rw [hf]
    simp only [stream]
    rw [bytes_to_bits_append, h8]
    simp [bytes_to_bits, bits_of_nat]
  · have hf : flush_full c = c := by simp [flush_full, h8]
    rw [hf]

/-- One bit written after the `current_bit_count == 8` test, from any cursor with at most
eight pending bits. -/
theorem grows_bit {c : BitCursor} (h : c.current_bit_count ≤ 8) (b : Nat) (hb : b ≤ 1) :
    Grows c (shift_in (flush_full c) b) [decide (b = 1)] := by
  have hlt : (flush_full c).current_bit_count < 8 := by
    unfold flush_full
    by_cases h8 : c.current_bit_count = 8
    · simp [h8]
    · rw [if_neg h8]
      omega
  have hout : ∃ rec, (flush_full c).out = c.out ++ rec := by
    unfold flush_full
    by_cases h8 : c.current_bit_count = 8
    · exact ⟨[c.current_byte], by simp [h8]⟩
    · exact ⟨[], by simp [h8]⟩
  refine ⟨?_, hout, ?_⟩
  · show (flush_full c).current_bit_count + 1 ≤ 8
    omega
  · rw [← stream_flush_full c]
    simp only [stream, shift_in]
    rw [shift_bits _ _ b hlt hb, List.append_assoc]

theorem grows_uChar_aux (u : Nat) (l : List Nat) : ∀ c : BitCursor, c.current_bit_count ≤ 8 →
    Grows c (l.foldl (fun c i => shift_in (flush_full c) ((u >>> (7 - i)) &&& 1)) c)
      (l.map fun i => u.testBit (7 - i)) := by
  induction l with
  | nil => exact fun c h => grows_refl h
  | cons i is ih =>
    intro c h
    have h1 := grows_bit h ((u >>> (7 - i)) &&& 1) (bit_of_uChar u (7 - i)).1
    rw [(bit_of_uChar u (7 - i)).2] at h1
    exact grows_trans h1 (ih _ h1.count_le)

theorem grows_uChar (u : Nat) {c : BitCursor} (h : c.current_bit_count ≤ 8) :
    Grows c (write_from_uChar u c) (bits_of_nat 8 u) :=
  grows_uChar_aux u (List.range 8) c h

theorem grows_size_aux (size : Nat) (l : List Nat) : ∀ c : BitCursor,
    c.current_bit_count ≤ 8 →
    Grows c
      (l.foldl (fun c i => write_from_uChar ((size >>> ((7 - i) * 8)) &&& 0xFF) c) c)
      (l.flatMap fun i => bits_of_nat 8 ((size >>> ((7 - i) * 8)) &&& 0xFF)) := by
  induction l with
  | nil => exact fun c h => grows_refl h
  | cons i is ih =>
    intro c h
    have h1 := grows_uChar ((size >>> ((7 - i) * 8)) &&& 0xFF) h
    exact grows_trans h1 (ih _ h1.count_le)

theorem nat_of_bits_concat (l : List Bool) (b : Bool) :
    nat_of_bits (l ++ [b]) = 2 * nat_of_bits l + b.toNat := by
  simp [nat_of_bits, List.foldl_append]

/-- Reading back the `w` low bits of `n` gives `n` modulo `2 ^ w`. -/
theorem nat_of_bits_of_nat (w : Nat) : ∀ n, nat_of_bits (bits_of_nat w n) = n % 2 ^ w := by
  induction w with
  | zero =>
    intro n
    simp [bits_of_nat, nat_of_bits, Nat.mod_one]
  | succ w ih =>
    intro n
    have e : n = 2 * (n / 2) + n % 2 := by omega
    have hb : n % 2 ≤ 1 := by omega
    conv_lhs => rw [e]
    rw [bits_of_nat_succ w (n / 2) (n % 2) hb, nat_of_bits_concat, ih, pow_succ',
      Nat.mod_mul]
    have : (decide (n % 2 = 1)).toNat = n % 2 := by
      rcases Nat.mod_two_eq_zero_or_one n with h | h <;> simp [h]
    rw [this]
    omega

/-- The byte at position `m` of a size, counted from the least significant. -/
theorem byte_of_size (size m : Nat) :
    (size >>> (m * 8)) &&& 0xFF = size / 256 ^ m % 256 := by
  have e1 : (0xFF : Nat) = 2 ^ 8 - 1 := by norm_num
  have e2 : (256 : Nat) = 2 ^ 8 := by norm_num
  rw [e1, Nat.and_pow_two_sub_one_eq_mod, Nat.shiftRight_eq_div_pow, e2, ← pow_mul,
    Nat.mul_comm 8 m]

theorem bits_of_big_endian (size : Nat) :
    bytes_to_bits (big_endian_bytes size) = bits_of_nat 64 size := by
  rw [← bits_of_size]
  unfold bytes_to_bits big_endian_bytes
  rw [List.flatMap_map]
  apply List.flatMap_congr
  intro i _
  rw [byte_of_size]

/-- C20 (bit packer semantics).  Reading the logical stream of a cursor as the bits of the
emitted bytes, most significant first, followed by the `current_bit_count` low bits of
`current_byte`: from every cursor with at most eight pending bits, `write_from_uChar` appends
exactly the eight bits of its argument, most significant first, and `write_file_size` appends
exactly the 64 bits of the size, which are the bits of its eight bytes in big-endian order and,
for a size below `2 ^ 63`, read back as the size; the bytes already emitted stay a prefix of the
buffer and the count of pending bits stays at most eight. -/
theorem bit_packer_semantics (c : BitCursor) (hc : c.current_bit_count ≤ 8) (u size : Nat)
    (hs : size < 2 ^ 63) :
    Grows c (write_from_uChar u c) (bits_of_nat 8 u) ∧
    Grows c (write_file_size size c) (bits_of_nat 64 size) ∧
    bits_of_nat 64 size = bytes_to_bits (big_endian_bytes size) ∧
    nat_of_bits (bits_of_nat 64 size) = size := by
  refine ⟨grows_uChar u hc, ?_, (bits_of_big_endian size).symm, ?_⟩
  · have := grows_size_aux size (List.range 8) c hc
    rwa [bits_of_size] at this
  · rw [nat_of_bits_of_nat]
    exact Nat.mod_eq_of_lt (by omega)

/-- Witness of `bit_packer_semantics`: the byte `A` and the size 258 written on a cursor that
holds the three pending bits `101` after the byte `0xFF`. -/
theorem bit_packer_semantics_witness :
    (3 : Nat) ≤ 8 ∧ (258 : Nat) < 2 ^ 63 ∧
    Grows { current_byte := 5, current_bit_count := 3, out := [255] }
      (write_from_uChar 65 { current_byte := 5, current_bit_count := 3, out := [255] })
      (bits_of_nat 8 65) ∧
    Grows { current_byte := 5, current_bit_count := 3, out := [255] }
      (write_file_size 258 { current_byte := 5, current_bit_count := 3, out := [255] })
      (bits_of_nat 64 258) ∧
    bits_of_nat 64 258 = bytes_to_bits (big_endian_bytes 258) ∧
    nat_of_bits (bits_of_nat 64 258) = 258 :=
  ⟨by decide, by decide,
    bit_packer_semantics { current_byte := 5, current_bit_count := 3, out := [255] }
      (by decide) 65 258 (by decide)⟩

/-! ## The folder record -/

/-- C13 (folder record format), the run of `write_the_folder`.  On the empty cursor and the
folder holding the single file `x` with content `x`, the format asks for 91 bits: the count 1 as
16 bits, the marker, the size, the name record and the content.  The two count bytes leave eight
pending bits, the marker is shifted in without the test for a full byte, the count of pending
bits passes 8 and never equals 8 again: only the byte `0x01` is emitted, 83 bits are left
pending in an 8-bit `current_byte`, and the logical stream is not the one of the format.  The
child counts themselves are as the format says: 0 for an empty directory, written as 16 zero
bits, and 2 for a directory with one file and one empty subdirectory. -/
theorem folder_marker_overflows :
    (write_the_folder folder_x table_x empty_cursor).map
        (fun c => (c.current_byte, c.current_bit_count, c.out)) = some (7, 83, [1]) ∧
    (folder_record_bits table_x folder_x).length = 91 ∧
    (write_the_folder folder_x table_x empty_cursor).map stream ≠
      some (stream empty_cursor ++ folder_record_bits table_x folder_x) ∧
    (write_the_folder [] table_x empty_cursor).map stream =
      some (stream empty_cursor ++ folder_record_bits table_x []) ∧
    folder_record_bits table_x [] = List.replicate 16 false ∧
    count_entries [] = 0 ∧
    count_entries [.file [120] [120], .folder [121] []] = 2 := by
  refine ⟨by rfl, by rfl, by decide, by rfl, by rfl, by rfl, by rfl⟩

/-! ## The merged histogram -/

theorem count_bytes_apply (b : Nat) : ∀ (l : List Nat) (number : Nat → Nat),
    count_bytes l number b = number b + l.count b := by
  intro l
  induction l with
  | nil => intro number; simp [count_bytes]
  | cons x xs ih =>
    intro number
    have e : count_bytes (x :: xs) number =
        count_bytes xs (Function.update number x (number x + 1)) := rfl
    rw [e, ih]
    by_cases hx : b = x
    · subst hx
      simp only [Function.update_same, List.count_cons_self]
      omega
    · rw [Function.update_noteq hx, List.count_cons_of_ne hx]

mutual
theorem count_entry_apply (b : Nat) : ∀ (e : Entry) (number : Nat → Nat),
    count_entry e number b = number b + (content_occ_entry b e + name_occ_entry b e)
  | .file d_name content, number => by
    simp only [count_entry, content_occ_entry, name_occ_entry]
    by_cases hd : is_dot d_name = true
    · simp [hd]
    · simp only [hd, if_false, count_bytes_apply, Bool.false_eq_true]
      omega
  | .folder d_name entries, number => by
    simp only [count_entry, content_occ_entry, name_occ_entry]
    by_cases hd : is_dot d_name = true
    · simp [hd]
    · simp only [hd, if_false, Bool.false_eq_true]
      rw [count_in_folder_apply b entries, count_bytes_apply]
      omega
theorem count_in_folder_apply (b : Nat) : ∀ (es : List Entry) (number : Nat → Nat),
    count_in_folder es number b =
      number b + (content_occ_entries b es + name_occ_entries b es)
  | [], number => by
    simp [count_in_folder, content_occ_entries, name_occ_entries]
  | e :: es, number => by
    simp only [count_in_folder, content_occ_entries, name_occ_entries]
    rw [count_in_folder_apply b es, count_entry_apply b e]
    omega
end

theorem count_item_apply (b : Nat) (a : Arg) (number : Nat → Nat) :
    count_item a number b = number b + occ_arg b a := by
  unfold count_item occ_arg content_occ_arg name_occ_arg
  cases a.target with
  | missing => simp only [count_bytes_apply]; omega
  | file content => simp only [count_bytes_apply]; omega
  | folder entries => simp only [count_in_folder_apply, count_bytes_apply]; omega

theorem foldl_count_item (b : Nat) : ∀ (l : List Arg) (number : Nat → Nat),
    l.foldl (fun number a => count_item a number) number b =
      number b + (l.map (occ_arg b)).sum := by
  intro l
  induction l with
  | nil => intro number; simp
  | cons a as ih =>
    intro number
    rw [List.foldl_cons, ih, count_item_apply, List.map_cons, List.sum_cons]
    omega

theorem local_number_apply (args : List Arg) (owner : Nat → Nat) (t b : Nat) :
    local_number args owner t b = ((items_of args owner t).map (occ_arg b)).sum := by
  unfold local_number
  rw [foldl_count_item]
  simp

theorem foldl_total (f : Nat → Nat → Nat) (b : Nat) : ∀ (l : List Nat) (total : Nat → Nat),
    l.foldl (fun total t => fun i => total i + f t i) total b =
      total b + (l.map fun t => f t b).sum := by
  intro l
  induction l with
  | nil => intro total; simp
  | cons t ts ih =>
    intro total
    rw [List.foldl_cons, ih, List.map_cons, List.sum_cons]
    omega

theorem total_number_apply (args : List Arg) (owner : Nat → Nat) (merge_order : List Nat)
    (b : Nat) :
    total_number args owner merge_order b =
      (merge_order.map fun t => local_number args owner t b).sum := by
  unfold total_number
  rw [foldl_total (fun t i => local_number args owner t i)]
  simp

theorem sum_filter_map {α : Type} (q : α → Bool) (f : α → Nat) (l : List α) :
    ((l.filter q).map f).sum = (l.map fun x => if q x then f x else 0).sum := by
  induction l with
  | nil => rfl
  | cons x xs ih =>
    by_cases hq : q x = true
    · rw [List.filter_cons_of_pos hq, List.map_cons, List.sum_cons, ih, List.map_cons,
        List.sum_cons, if_pos hq]
    · rw [List.filter_cons_of_neg hq, ih, List.map_cons, List.sum_cons, if_neg hq, Nat.zero_add]

theorem sum_ite_eq_count (k x : Nat) (l : List Nat) :
    (l.map fun t => if (k == t) = true then x else 0).sum = l.count k * x := by
  induction l with
  | nil => simp
  | cons t ts ih =>
    rw [List.map_cons, List.sum_cons, ih]
    by_cases h : k = t
    · subst h
      simp only [beq_self_eq_true, if_true, List.count_cons_self]
      rw [Nat.add_mul, Nat.one_mul, Nat.add_comm]
    · have h' : (k == t) = false := by simpa using h
      rw [List.count_cons_of_ne h, h']
      simp

/-- Summing over the threads the contributions of the items each thread owns gives the sum
over all items, when every owner enters the merge exactly once. -/
theorem sum_over_threads {α : Type} (key : α → Nat) (g : α → Nat) (merge_order : List Nat)
    (hnd : merge_order.Nodup) : ∀ (l : List α), (∀ p ∈ l, key p ∈ merge_order) →
    (merge_order.map fun t => ((l.filter fun p => key p == t).map g).sum).sum =
      (l.map g).sum := by
  intro l
  induction l with
  | nil => intro _; simp
  | cons p ps ih =>
    intro hmem
    have hstep : ∀ t, (((p :: ps).filter fun p => key p == t).map g).sum =
        (if (key p == t) = true then g p else 0) +
          ((ps.filter fun p => key p == t).map g).sum := by
      intro t
      by_cases h : (key p == t) = true
      · simp only [List.filter_cons, h, if_true, List.map_cons, List.sum_cons]
      · simp only [List.filter_cons, h, if_false, Nat.zero_add, Bool.false_eq_true]
    simp only [hstep]
    rw [List.sum_map_add, ih (fun q hq => hmem q (List.mem_cons_of_mem _ hq)),
      sum_ite_eq_count, List.count_eq_one_of_mem hnd (hmem p (List.mem_cons_self _ _)),
      Nat.one_mul, List.map_cons, List.sum_cons]

theorem sum_items_of (args : List Arg) (owner : Nat → Nat) (merge_order : List Nat)
    (g : Arg → Nat) (hnd : merge_order.Nodup)
    (hown : ∀ i, i < args.length → owner i ∈ merge_order) :
    (merge_order.map fun t => ((items_of args owner t).map g).sum).sum = (args.map g).sum := by
  have h := sum_over_threads (fun p : Nat × Arg => owner p.1) (fun p => g p.2) merge_order hnd
    args.enum (fun p hp => hown p.1 (List.fst_lt_of_mem_enum hp))
  have e : ∀ t, ((items_of args owner t).map g).sum =
      ((args.enum.filter fun p => owner p.1 == t).map fun p => g p.2).sum := by
    intro t
    simp [items_of, List.map_map, Function.comp_def]
  simp only [e]
  rw [h]
  have : (args.enum.map fun p => g p.2) = args.map g := by
    conv_rhs => rw [← List.enum_map_snd args]
    rw [List.map_map]
    rfl
  rw [this]

/-- C12 (histogram definition and merge determinism).  For every list of arguments and file
trees, every assignment `owner` of the arguments to threads and every order `merge_order` in
which the threads that count something enter the critical section, each once, the merged
histogram at byte `b` is the number of occurrences of `b` in the contents of all regular files,
plus those in the argument strings, plus those in the directory entry names met recursively;
hence any two such schedules give the same histogram. -/
theorem histogram_occurrences (args : List Arg) (owner : Nat → Nat) (merge_order : List Nat)
    (hnd : merge_order.Nodup) (hown : ∀ i, i < args.length → owner i ∈ merge_order) :
    (∀ b, total_number args owner merge_order b =
      content_occurrences b args + argument_occurrences b args + name_occurrences b args) ∧
    ∀ (owner2 : Nat → Nat) (merge_order2 : List Nat), merge_order2.Nodup →
      (∀ i, i < args.length → owner2 i ∈ merge_order2) →
      total_number args owner2 merge_order2 = total_number args owner merge_order := by
  have key : ∀ (ow : Nat → Nat) (mo : List Nat), mo.Nodup →
      (∀ i, i < args.length → ow i ∈ mo) → ∀ b, total_number args ow mo b =
        content_occurrences b args + argument_occurrences b args + name_occurrences b args := by
    intro ow mo hnd' hown' b
    rw [total_number_apply]
    simp only [local_number_apply]
    rw [sum_items_of args ow mo (occ_arg b) hnd' hown']
    unfold content_occurrences argument_occurrences name_occurrences
    rw [← List.sum_map_add, ← List.sum_map_add]
    rfl
  refine ⟨key owner merge_order hnd hown, ?_⟩
  intro owner2 merge_order2 hnd2 hown2
  funext b
  rw [key owner2 merge_order2 hnd2 hown2 b, key owner merge_order hnd hown b]

/-- Witness of `histogram_occurrences`: the directory `d` with the file `x` holding `ab`, and
the file `a` holding `b`, counted by two threads that merge in the order 1, 0. -/
theorem histogram_occurrences_witness :
    ([1, 0] : List Nat).Nodup ∧
    (∀ b, total_number
        [{ name := [100], target := .folder [.file [120] [97, 98]] },
         { name := [97], target := .file [98] }] (fun i => i % 2) [1, 0] b =
      content_occurrences b
        [{ name := [100], target := .folder [.file [120] [97, 98]] },
         { name := [97], target := .file [98] }] +
      argument_occurrences b
        [{ name := [100], target := .folder [.file [120] [97, 98]] },
         { name := [97], target := .file [98] }] +
      name_occurrences b
        [{ name := [100], target := .folder [.file [120] [97, 98]] },
         { name := [97], target := .file [98] }]) ∧
    total_number
        [{ name := [100], target := .folder [.file [120] [97, 98]] },
         { name := [97], target := .file [98] }] (fun i => i % 2) [1, 0] 98 = 2 :=
  ⟨by decide,
   (histogram_occurrences
      [{ name := [100], target := .folder [.file [120] [97, 98]] },
       { name := [97], target := .file [98] }] (fun i => i % 2) [1, 0] (by decide)
      (fun i hi => by
        have : i = 0 ∨ i = 1 := by simp at hi; omega
        rcases this with h | h <;> subst h <;> decide)).1,
   by rfl⟩

/-! ## Thread buffers and the single-threaded writer -/

theorem mem_items_of {args : List Arg} {owner : Nat → Nat} {t : Nat} {a : Arg}
    (h : a ∈ items_of args owner t) : a ∈ args := by
  simp only [items_of, List.mem_map, List.mem_filter] at h
  obtain ⟨p, ⟨hp, -⟩, rfl⟩ := h
  obtain ⟨i, x⟩ := p
  exact List.getElem?_mem (List.mk_mem_enum_iff_getElem?.1 hp)

/-- A thread appends the records of its items one after the other. -/
theorem foldlM_compress (str_arr : Nat → List Char) : ∀ (l : List Arg) (buffer : List Nat),
    (∀ a ∈ l, ∀ b ∈ a.content, ∀ ch ∈ str_arr b, ch = '0' ∨ ch = '1') →
    l.foldlM (compress_item str_arr)
        { current_byte := 0, current_bit_count := 0, out := buffer } =
      some { current_byte := 0, current_bit_count := 0,
             out := buffer ++ l.flatMap (item_record str_arr) } := by
  intro l
  induction l with
  | nil => intro buffer _; simp
  | cons a as ih =>
    intro buffer hcode
    rw [List.foldlM_cons, compress_item_record str_arr a (hcode a (List.mem_cons_self _ _))]
    simp only [Option.bind_eq_bind, Option.some_bind]
    rw [ih _ (fun x hx => hcode x (List.mem_cons_of_mem _ hx)), List.flatMap_cons,
      List.append_assoc]

theorem thread_state_eq (str_arr : Nat → List Char) (args : List Arg) (owner : Nat → Nat)
    (hcode : ∀ a ∈ args, ∀ b ∈ a.content, ∀ ch ∈ str_arr b, ch = '0' ∨ ch = '1') (t : Nat) :
    thread_state args owner str_arr t =
      some { current_byte := 0, current_bit_count := 0,
             out := (items_of args owner t).flatMap (item_record str_arr) } := by
  unfold thread_state
  rw [foldlM_compress str_arr _ [] (fun a ha => hcode a (mem_items_of ha)), List.nil_append]

theorem mapM_some {α β : Type} (f : α → Option β) (g : α → β) (h : ∀ x, f x = some (g x)) :
    ∀ l : List α, l.mapM f = some (l.map g) := by
  intro l
  induction l with
  | nil => rfl
  | cons x xs ih =>
    rw [List.mapM_cons, h x, ih]
    rfl

theorem thread_buffers_eq (str_arr : Nat → List Char) (args : List Arg) (owner : Nat → Nat)
    (hcode : ∀ a ∈ args, ∀ b ∈ a.content, ∀ ch ∈ str_arr b, ch = '0' ∨ ch = '1')
    (num_threads : Nat) :
    thread_buffers args owner str_arr num_threads =
      some ((List.range num_threads).map fun t =>
        (items_of args owner t).flatMap (item_record str_arr)) := by
  unfold thread_buffers
  apply mapM_some
  intro t
  rw [thread_state_eq str_arr args owner hcode t]
  rfl

/-! ### The merge loop concatenates the buffers -/

theorem merge_one_concat (st : List Nat × List Nat) (buffer : List Nat) :
    (merge_one st buffer).1 ++ (merge_one st buffer).2 = st.1 ++ st.2 ++ buffer := by
  unfold merge_one
  by_cases h1 : buffer.isEmpty = true
  · rw [if_pos h1]
    have : buffer = [] := List.isEmpty_iff.1 h1
    rw [this, List.append_nil]
  · rw [if_neg h1]
    by_cases h2 : st.2.length + buffer.length > WRITE_BUFFER_SIZE
    · rw [if_pos h2]
    · rw [if_neg h2, List.append_assoc]

theorem foldl_merge_one (buffers : List (List Nat)) : ∀ st : List Nat × List Nat,
    (buffers.foldl merge_one st).1 ++ (buffers.foldl merge_one st).2 =
      st.1 ++ st.2 ++ buffers.flatten := by
  induction buffers with
  | nil => intro st; simp
  | cons b bs ih =>
    intro st
    rw [List.foldl_cons, ih, merge_one_concat, List.flatten_cons, List.append_assoc]

theorem merge_buffers_eq (buffers : List (List Nat)) :
    merge_buffers buffers = buffers.flatten := by
  have h := foldl_merge_one buffers ([], [])
  simp only [List.append_nil, List.nil_append] at h
  unfold merge_buffers
  by_cases he : (buffers.foldl merge_one ([], [])).2.isEmpty = true
  · simp only [he, if_true]
    have : (buffers.foldl merge_one ([], [])).2 = [] := List.isEmpty_iff.1 he
    rw [this, List.append_nil] at h
    exact h
  · simp only [he, if_false, Bool.false_eq_true]
    exact h

/-! ### Worker order that agrees with input order -/

theorem filter_split {α : Type} (key : α → Nat) (T : Nat) : ∀ l : List α,
    l.Pairwise (fun p q => key p ≤ key q) → (∀ p ∈ l, key p ≤ T) →
    (l.filter fun p => decide (key p < T)) ++ (l.filter fun p => key p == T) = l := by
  intro l
  induction l with
  | nil => intro _ _; rfl
  | cons x xs ih =>
    intro hp hle
    have hp' := List.pairwise_cons.1 hp
    by_cases hx : key x < T
    · have h1 : decide (key x < T) = true := by simpa using hx
      have h2 : (key x == T) = false := by
        simp only [beq_eq_false_iff_ne, ne_eq]
        omega
      simp only [List.filter_cons, h1, h2, if_true, if_false, Bool.false_eq_true,
        List.cons_append]
      rw [ih hp'.2 (fun p hp => hle p (List.mem_cons_of_mem _ hp))]
    · have hT : key x = T := by
        have := hle x (List.mem_cons_self _ _)
        omega
      have hall : ∀ p ∈ x :: xs, key p = T := by
        intro p hp
        rcases List.mem_cons.1 hp with h | h
        · rw [h]; exact hT
        · have h1 := hp'.1 p h
          have h2 := hle p (List.mem_cons_of_mem _ h)
          omega
      have e1 : ((x :: xs).filter fun p => decide (key p < T)) = [] := by
        rw [List.filter_eq_nil_iff]
        intro p hp
        have := hall p hp
        simp only [decide_eq_true_eq]
        omega
      have e2 : ((x :: xs).filter fun p => key p == T) = x :: xs := by
        rw [List.filter_eq_self]
        intro p hp
        simp [hall p hp]
      rw [e1, e2, List.nil_append]

theorem flatMap_filter_range {α : Type} (key : α → Nat) : ∀ (T : Nat) (l : List α),
    l.Pairwise (fun p q => key p ≤ key q) → (∀ p ∈ l, key p < T) →
    ((List.range T).flatMap fun t => l.filter fun p => key p == t) = l := by
  intro T
  induction T with
  | zero =>
    intro l _ hlt
    cases l with
    | nil => rfl
    | cons x xs => exact absurd (hlt x (List.mem_cons_self _ _)) (by omega)
  | succ T ih =>
    intro l hp hlt
    rw [List.range_succ, List.flatMap_append]
    simp only [List.flatMap_cons, List.flatMap_nil, List.append_nil]
    have hsub : ∀ t ∈ List.range T, (l.filter fun p => key p == t) =
        ((l.filter fun p => decide (key p < T)).filter fun p => key p == t) := by
      intro t ht
      have htT : t < T := List.mem_range.1 ht
      rw [List.filter_filter]
      apply List.filter_congr
      intro p _
      by_cases h : key p = t
      · simp [h, htT]
      · simp [h]
    rw [List.flatMap_congr hsub, ih _ (hp.sublist (List.filter_sublist _))
      (fun p hp => by
        have := (List.mem_filter.1 hp).2
        simpa using this)]
    exact filter_split key T l hp (fun p hp => by have := hlt p hp; omega)

theorem enumFrom_pairwise {α : Type} : ∀ (l : List α) (n : Nat),
    (l.enumFrom n).Pairwise (fun p q => p.1 ≤ q.1) := by
  intro l
  induction l with
  | nil => intro n; exact List.Pairwise.nil
  | cons x xs ih =>
    intro n
    rw [List.enumFrom_cons, List.pairwise_cons]
    refine ⟨?_, ih (n + 1)⟩
    intro p hp
    have := List.le_fst_of_mem_enumFrom hp
    show n ≤ p.1
    omega

/-- When the owners do not decrease along the input, the items of the threads, taken thread
after thread, are the input in its order. -/
theorem items_of_range (args : List Arg) (owner : Nat → Nat) (num_threads : Nat)
    (hmono : ∀ i j, i ≤ j → j < args.length → owner i ≤ owner j)
    (hlt : ∀ i, i < args.length → owner i < num_threads) :
    ((List.range num_threads).flatMap fun t => items_of args owner t) = args := by
  have hp : args.enum.Pairwise (fun p q => owner p.1 ≤ owner q.1) := by
    have h1 : args.enum.Pairwise (fun p q => p.1 ≤ q.1 ∧ q ∈ args.enum) := by
      have h0 := enumFrom_pairwise args 0
      rw [List.pairwise_iff_forall_sublist] at h0 ⊢
      intro a b hab
      exact ⟨h0 hab, hab.subset (by simp)⟩
    exact h1.imp (fun {p q} h => hmono p.1 q.1 h.1 (List.fst_lt_of_mem_enum h.2))
  have h := flatMap_filter_range (fun p : Nat × Arg => owner p.1) num_threads args.enum hp
    (fun p hp => hlt p.1 (List.fst_lt_of_mem_enum hp))
  have e : ((List.range num_threads).flatMap fun t => items_of args owner t) =
      ((List.range num_threads).flatMap fun t =>
        args.enum.filter fun p => owner p.1 == t).map Prod.snd := by
    rw [List.map_flatMap]
    rfl
  rw [e, h, List.enum_map_snd]

/-! ## The writer of the format against the writer of the program -/

theorem foldl_flush_full {α : Type} (f g : BitCursor → α → BitCursor)
    (h : ∀ c x, f (flush_full c) x = flush_full (g c x)) (l : List α) :
    ∀ c, l.foldl f (flush_full c) = flush_full (l.foldl g c) := by
  induction l with
  | nil => exact fun c => rfl
  | cons x xs ih =>
    intro c
    rw [List.foldl_cons, h, ih, List.foldl_cons]

theorem spec_write_uchar_flush (u : Nat) (c : BitCursor) :
    spec_write_uchar u (flush_full c) = flush_full (write_from_uChar u c) := by
  unfold spec_write_uchar write_from_uChar
  apply foldl_flush_full
  intro c i
  rfl

theorem spec_write_u64_flush (v : Nat) (c : BitCursor) :
    spec_write_u64 v (flush_full c) = flush_full (write_file_size v c) := by
  unfold spec_write_u64 write_file_size
  apply foldl_flush_full
  intro c i
  exact spec_write_uchar_flush _ c

theorem spec_write_code_flush (code : List Char) (hcode : ∀ ch ∈ code, ch = '0' ∨ ch = '1') :
    ∀ c, spec_write_code code (flush_full c) = (write_code code c).map flush_full := by
  induction code with
  | nil => exact fun c => rfl
  | cons ch rest ih =>
    intro c
    have hrest : ∀ x ∈ rest, x = '0' ∨ x = '1' := fun x hx => hcode x (List.mem_cons_of_mem _ hx)
    rcases hcode ch (List.mem_cons_self _ _) with h | h
    · subst h
      have e : write_code ('0' :: rest) c = write_code rest (shift_zero (flush_full c)) := by
        simp [write_code]
      have e' : spec_write_code ('0' :: rest) (flush_full c) =
          spec_write_code rest (spec_write_bit 0 (flush_full c)) := by
        simp [spec_write_code]
      rw [e, e', shift_zero_eq, ← ih hrest]
      rfl
    · subst h
      have e : write_code ('1' :: rest) c = write_code rest (shift_one (flush_full c)) := by
        simp [write_code]
      have e' : spec_write_code ('1' :: rest) (flush_full c) =
          spec_write_code rest (spec_write_bit 1 (flush_full c)) := by
        simp [spec_write_code]
      rw [e, e', shift_one_eq, ← ih hrest]
      rfl

theorem spec_write_codes_flush (str_arr : Nat → List Char) (bytes : List Nat)
    (hcode : ∀ b ∈ bytes, ∀ ch ∈ str_arr b, ch = '0' ∨ ch = '1') :
    ∀ c, spec_write_codes bytes str_arr (flush_full c) =
      (write_codes bytes str_arr c).map flush_full := by
  induction bytes with
  | nil => exact fun c => rfl
  | cons x xs ih =>
    intro c
    simp only [spec_write_codes, write_codes]
    rw [spec_write_code_flush _ (hcode x (List.mem_cons_self _ _))]
    cases write_code (str_arr x) c with
    | none => rfl
    | some c1 => exact ih (fun b hb => hcode b (List.mem_cons_of_mem _ hb)) c1

/-- Padding after the eager flush is the flush at the end of a top-level file. -/
theorem spec_pad_flush {c : BitCursor} (h : Valid c) :
    spec_pad (flush_full c) = flush_item c := by
  obtain ⟨h1, h2⟩ := h
  by_cases h8 : c.current_bit_count = 8
  · have hb : c.current_byte < 256 := by rw [h8] at h2; exact h2
    simp [spec_pad, flush_full, flush_item, h8, Nat.mod_eq_of_lt hb]
  · have hf : flush_full c = c := by simp [flush_full, h8]
    rw [hf]
    rfl

/-- One file through the writer of the format is the body of the pass-2 loop. -/
theorem spec_record_eq (str_arr : Nat → List Char) (a : Arg) (content buffer : List Nat)
    (ha : a.target = .file content)
    (hcode : ∀ b ∈ content, ∀ ch ∈ str_arr b, ch = '0' ∨ ch = '1') :
    (spec_write_codes content str_arr
        (spec_write_u64 content.length
          (spec_write_bit 1 { current_byte := 0, current_bit_count := 0, out := buffer }))).map
        spec_pad =
      compress_item str_arr { current_byte := 0, current_bit_count := 0, out := buffer } a := by
  have h0 := valid_empty buffer
  have hm := appends_marker h0 (by simp) 1 (by omega)
  have hsz := appends_size content.length hm.valid
  obtain ⟨c3, hc3, hw⟩ := appends_codes str_arr content hcode _ hsz.valid
  have e1 : spec_write_bit 1 { current_byte := 0, current_bit_count := 0, out := buffer } =
      flush_full (shift_in { current_byte := 0, current_bit_count := 0, out := buffer } 1) :=
    rfl
  rw [e1, spec_write_u64_flush, spec_write_codes_flush str_arr content hcode, hc3]
  simp only [compress_item, ha, write_the_file_content]
  rw [shift_one_eq, hc3]
  simp only [Option.map_some', Option.some.injEq]
  exact spec_pad_flush hw.valid

theorem single_threaded_cursor_eq (str_arr : Nat → List Char) : ∀ (args : List Arg)
    (buffer : List Nat), (∀ a ∈ args, a.is_file = true) →
    (∀ a ∈ args, ∀ b ∈ a.content, ∀ ch ∈ str_arr b, ch = '0' ∨ ch = '1') →
    single_threaded_cursor str_arr (args.map Arg.content)
        { current_byte := 0, current_bit_count := 0, out := buffer } =
      some { current_byte := 0, current_bit_count := 0,
             out := buffer ++ args.flatMap (item_record str_arr) } := by
  intro args
  induction args with
  | nil => intro buffer _ _; simp [single_threaded_cursor]
  | cons a as ih =>
    intro buffer hfile hcode
    have ha : a.target = .file a.content := by
      have := hfile a (List.mem_cons_self _ _)
      unfold Arg.is_file at this
      unfold Arg.content
      cases ht : a.target with
      | file content => rfl
      | missing => rw [ht] at this; exact absurd this (by simp)
      | folder es => rw [ht] at this; exact absurd this (by simp)
    have hca := hcode a (List.mem_cons_self _ _)
    rw [List.map_cons, single_threaded_cursor, spec_record_eq str_arr a a.content buffer ha hca,
      compress_item_record str_arr a hca buffer]
    simp only [Option.some_bind]
    rw [ih _ (fun x hx => hfile x (List.mem_cons_of_mem _ hx))
      (fun x hx => hcode x (List.mem_cons_of_mem _ hx)), List.flatMap_cons, List.append_assoc]

/-- C11 (worker-buffer concatenation).  For every table of binary codes, every list of
top-level files and every assignment `owner` of the files to threads, each thread ends on an
empty bit cursor with a buffer that is the concatenation, in input order, of the records of its
files, where the record `item_record` of a file is a function of the file and the table alone;
the merge loop writes the buffers one after the other; and when the owners do not decrease
along the input (in particular with one thread) the bytes written are exactly the output of the
single-threaded writer of the format, which encodes the files in input order with an eager
`write_bit` and pads to a byte boundary after each file. -/
theorem worker_buffer_concatenation (str_arr : Nat → List Char) (args : List Arg)
    (owner : Nat → Nat) (num_threads : Nat)
    (hfile : ∀ a ∈ args, a.is_file = true)
    (hcode : ∀ a ∈ args, ∀ b ∈ a.content, ∀ ch ∈ str_arr b, ch = '0' ∨ ch = '1') :
    (∀ t, thread_state args owner str_arr t =
      some { current_byte := 0, current_bit_count := 0,
             out := (items_of args owner t).flatMap (item_record str_arr) }) ∧
    ∃ buffers, thread_buffers args owner str_arr num_threads = some buffers ∧
      merge_buffers buffers = buffers.flatten ∧
      ((∀ i j, i ≤ j → j < args.length → owner i ≤ owner j) →
        (∀ i, i < args.length → owner i < num_threads) →
        single_threaded_writer str_arr (args.map Arg.content) = some buffers.flatten) := by
  refine ⟨thread_state_eq str_arr args owner hcode, _,
    thread_buffers_eq str_arr args owner hcode num_threads, merge_buffers_eq _, ?_⟩
  intro hmono hlt
  unfold single_threaded_writer empty_cursor
  rw [single_threaded_cursor_eq str_arr args [] hfile hcode]
  simp only [Option.map_some', List.nil_append, Option.some.injEq]
  rw [List.flatten_eq_flatMap, List.flatMap_map]
  simp only [id]
  rw [← List.flatMap_assoc, items_of_range args owner num_threads hmono hlt]

/-- Witness of `worker_buffer_concatenation`: the files `a` (holding `b`) and `c` (holding
`bb`) written by two threads, one file each. -/
theorem worker_buffer_concatenation_witness :
    (∀ a ∈ ([{ name := [97], target := .file [98] },
             { name := [99], target := .file [98, 98] }] : List Arg), a.is_file = true) ∧
    (∀ t, thread_state [{ name := [97], target := .file [98] },
          { name := [99], target := .file [98, 98] }] (fun i => i) table_01 t =
      some { current_byte := 0, current_bit_count := 0,
             out := (items_of [{ name := [97], target := .file [98] },
               { name := [99], target := .file [98, 98] }] (fun i => i) t).flatMap
                 (item_record table_01) }) ∧
    single_threaded_writer table_01 [[98], [98, 98]] =
      some [128, 0, 0, 0, 0, 0, 0, 0, 128, 128, 0, 0, 0, 0, 0, 0, 1, 0] :=
  ⟨by decide,
   (worker_buffer_concatenation table_01 [{ name := [97], target := .file [98] },
      { name := [99], target := .file [98, 98] }] (fun i => i) 2 (by decide) (by decide)).1,
   by rfl⟩

/-! ## Two minima per step -/

theorem merge_loop_succ_end (n : Nat) : ∀ (k : Nat) (s : BuildState),
    merge_loop n (k + 1) s = (merge_loop n k s).bind (merge_step n) := by
  intro k
  induction k with
  | zero =>
    intro s
    simp only [merge_loop, Option.some_bind]
    cases merge_step n s <;> rfl
  | succ k ih =>
    intro s
    rw [merge_loop]
    cases hm : merge_step n s with
    | none => simp [merge_loop, hm]
    | some s1 =>
      simp only [Option.some_bind]
      rw [ih s1]
      conv_rhs => rw [merge_loop, hm]
      rfl

/-- A node of a tree read off the array is the top of the tree or has a parent. -/
theorem rep_idx_parent {a : List ersel} : ∀ t : HTree, Rep a t → ∀ k ∈ t.idxs,
    k = t.root ∨ has_parent a k := by
  intro t
  induction t with
  | leaf i =>
    intro _ k hk
    simp only [HTree.idxs, List.mem_singleton] at hk
    exact Or.inl hk
  | node i l r ihl ihr =>
    intro h k hk
    obtain ⟨e, he, hl, hr, hrl, hrr⟩ := h
    have hmem : e ∈ a := List.getElem?_mem he
    simp only [HTree.idxs, List.mem_cons, List.mem_append] at hk
    rcases hk with hk | hk | hk
    · exact Or.inl hk
    · rcases ihl hrl k hk with h1 | h1
      · exact Or.inr ⟨e, hmem, Or.inl (by rw [hl, h1])⟩
      · exact Or.inr h1
    · rcases ihr hrr k hk with h1 | h1
      · exact Or.inr ⟨e, hmem, Or.inr (by rw [hr, h1])⟩
      · exact Or.inr h1

/-- Every written node without a parent is one of the tops of the forest. -/
theorem forest_parentless {a : List ersel} {roots : List Nat} (h : IsForest a roots)
    {k : Nat} (hk : k < a.length) (hp : ¬ has_parent a k) : k ∈ roots := by
  obtain ⟨T, hT, hlt, hperm⟩ := h
  have hmem : k ∈ roots.flatMap fun r => (T r).idxs :=
    hperm.symm.subset (List.mem_range.2 hk)
  obtain ⟨r, hr, hkr⟩ := List.mem_flatMap.1 hmem
  obtain ⟨hrep, hroot⟩ := hT r (hlt r hr)
  rcases rep_idx_parent (T r) hrep k hkr with h1 | h1
  · rw [h1, hroot]; exact hr
  · exact absurd h1 hp

/-- The children of a written node are written nodes. -/
theorem forest_children {a : List ersel} {roots : List Nat} (h : IsForest a roots)
    {e : ersel} (he : e ∈ a) {k : Nat} (hk : e.left = some k ∨ e.right = some k) :
    k < a.length := by
  obtain ⟨T, hT, -, -⟩ := h
  obtain ⟨i, hi, hie⟩ := List.getElem_of_mem he
  have hget : a[i]? = some e := by rw [List.getElem?_eq_getElem hi, hie]
  obtain ⟨hrep, hroot⟩ := hT i hi
  cases hTi : T i with
  | leaf j =>
    rw [hTi] at hrep hroot
    obtain ⟨e', he', hl, hr⟩ := hrep
    simp only [HTree.root] at hroot
    rw [hroot, hget] at he'
    cases he'
    rcases hk with h1 | h1
    · rw [hl] at h1; cases h1
    · rw [hr] at h1; cases h1
  | node j l r =>
    rw [hTi] at hrep hroot
    obtain ⟨e', he', hl, hr, hrl, hrr⟩ := hrep
    simp only [HTree.root] at hroot
    rw [hroot, hget] at he'
    cases he'
    rcases hk with h1 | h1
    · rw [hl] at h1
      cases h1
      exact hrl.root_lt
    · rw [hr] at h1
      cases h1
      exact hrr.root_lt

/-- One iteration of the merge loop from the head of the loop, while the queues still hold a
node: the invariants hold again at the next head, and the nodes without a parent are the old
ones without `min1` and `min2`, and the node just written. -/
theorem head_step {sorted : List ersel} {total : Int} {s : BuildState}
    (hn : sorted.length ≤ 256) (hinv : Inv sorted [s.min1, s.min2] s)
    (hw : WHead sorted.length total s) (hlen : s.array.length + 3 ≤ 2 * sorted.length) :
    ∃ s1 s3, combine s = some s1 ∧ merge_step sorted.length s = some s3 ∧
      s3.array = s1.array ∧ Inv sorted [s3.min1, s3.min2] s3 ∧
      WHead sorted.length total s3 ∧
      (s3.min1 :: s3.min2 :: queued sorted.length s3).Perm
        (queued sorted.length s ++ [s.array.length]) := by
  obtain ⟨s1, hc, h1, hnl, hl1⟩ := combine_inv hinv hn
  obtain ⟨hw1, hnew, hold1⟩ := combine_w hinv hw hc
  obtain ⟨_, _, hi1, hn1, _, _, _⟩ := combine_some hc
  obtain ⟨s2, hs2, h2, ha2⟩ := select_min1_inv h1 hnl
  obtain ⟨hw2, hp2⟩ := select_min1_w h1 hw1 hnl hs2
  have hq2 : 1 ≤ (queued sorted.length s2).length := by
    have := h2.count
    rw [ha2, hl1] at this
    simp only [List.length_cons, List.length_nil] at this
    omega
  obtain ⟨s3, hs3, h3, ha3⟩ := select_min2_inv h2 hq2
  obtain ⟨hw3, hp3⟩ := select_min2_w h2 hw2 h3 hs3
  obtain ⟨_, hm13, _⟩ := select_min2_some hs3
  refine ⟨s1, s3, hc, ?_, ha3.trans ha2, h3, hw3, ?_⟩
  · simp only [merge_step, hc, Option.some_bind, hs2, hs3]
  · rw [← queued_after_combine (n := sorted.length) hi1 hn1 hl1 hinv.notleaf_le, hm13]
    exact ((List.Perm.cons _ hp3).symm).trans hp2.symm

/-- The nodes of the array after `combine`: the old nodes with their pointers, and the new node
pointing to `min1` and `min2`. -/
theorem combine_parent {s s1 : BuildState} (hc : combine s = some s1) {k : Nat}
    (h : has_parent s1.array k) : has_parent s.array k ∨ k = s.min1 ∨ k = s.min2 := by
  obtain ⟨_, _, _, _, hl, hstrip, e0, he0, hel, her, _, _, _⟩ := combine_some hc
  obtain ⟨e, he, hk⟩ := h
  obtain ⟨j, hj, hje⟩ := List.getElem_of_mem he
  have hget : s1.array[j]? = some e := by rw [List.getElem?_eq_getElem hj, hje]
  by_cases hjl : j < s.array.length
  · have hs := hstrip j hjl
    rw [hget, List.getElem?_eq_getElem hjl] at hs
    simp only [Option.map_some', Option.some.injEq, strip, Prod.mk.injEq] at hs
    left
    refine ⟨s.array[j], List.getElem_mem hjl, ?_⟩
    rw [← hs.1, ← hs.2.1]
    exact hk
  · have hj' : j = s.array.length := by omega
    rw [hj', he0] at hget
    cases hget
    right
    rcases hk with h1 | h1
    · rw [hel] at h1
      cases h1
      exact Or.inl rfl
    · rw [her] at h1
      cases h1
      exact Or.inr rfl

/-- The state at the head of every iteration of the merge loop. -/
theorem head_trace {sorted : List ersel} (h2 : 2 ≤ sorted.length) (hn : sorted.length ≤ 256)
    (hleaf : ∀ e ∈ sorted, e.left = none ∧ e.right = none)
    (hnn : ∀ e ∈ sorted, 0 ≤ e.number)
    (hsorted : sorted.Pairwise (fun a b => a.number ≤ b.number))
    (htot : ((List.range sorted.length).map (num sorted)).sum < 2 ^ 63) :
    ∀ j, j + 2 ≤ sorted.length →
      ∃ s, merge_loop sorted.length j
          { array := sorted, min1 := 0, min2 := 1, notleaf := sorted.length, isleaf := 2 } =
            some s ∧
        s.array.length = sorted.length + j ∧
        Inv sorted [s.min1, s.min2] s ∧
        WHead sorted.length ((List.range sorted.length).map (num sorted)).sum s ∧
        ∀ k ∈ s.min1 :: s.min2 :: queued sorted.length s, ¬ has_parent s.array k := by
  intro j
  induction j with
  | zero =>
    intro _
    refine ⟨_, rfl, rfl, init_inv h2 hleaf, init_whead h2 hleaf hnn hsorted htot, ?_⟩
    rintro k - ⟨e, he, hk⟩
    have := hleaf e he
    rcases hk with h | h
    · rw [this.1] at h; cases h
    · rw [this.2] at h; cases h
  | succ j ih =>
    intro hj
    obtain ⟨s, hs, hlen, hinv, hw, hpar⟩ := ih (by omega)
    obtain ⟨s1, s3, hc, hstep, harr, hinv3, hw3, hperm⟩ :=
      head_step hn hinv hw (by rw [hlen]; omega)
    obtain ⟨_, _, _, _, hl1, _, _, _, _, _, hm1, hm2, _⟩ := combine_some hc
    refine ⟨s3, ?_, ?_, hinv3, hw3, ?_⟩
    · rw [merge_loop_succ_end, hs]
      exact hstep
    · rw [harr, hl1, hlen]
      omega
    · intro k hk hpk
      rw [harr] at hpk
      have hnd := hinv.forest.roots_nodup
      simp only [List.cons_append, List.nil_append] at hnd
      rw [List.nodup_cons, List.nodup_cons] at hnd
      obtain ⟨hn1, hn2, _⟩ := hnd
      rcases List.mem_append.1 (hperm.subset hk) with hq | hq
      · rcases combine_parent hc hpk with h | h | h
        · exact hpar k (List.mem_cons_of_mem _ (List.mem_cons_of_mem _ hq)) h
        · exact hn1 (h ▸ List.mem_cons_of_mem _ hq)
        · exact hn2 (h ▸ hq)
      · have hk' : k = s.array.length := by simpa using hq
        rcases combine_parent hc hpk with h | h | h
        · obtain ⟨e, he, hek⟩ := h
          have := forest_children hinv.forest he hek
          omega
        · omega
        · omega

/-- C19 (two minima per step).  For every histogram with at least two bytes whose counts sum to
less than `2^63`, every result of the sort and every iteration `j` of the merge loop: the loop
reaches the iteration; the nodes `min1` and `min2` it combines are two different written nodes
that have no parent yet; `min1` is not more frequent than `min2`, and `min2` is not more
frequent than any other written node, leaf or internal, that has no parent yet; the new node
points to the two and carries the sum of their frequencies; and after it is written the internal
nodes are in non-decreasing frequency order. -/
theorem two_minima_per_step (number : Nat → Nat) (sorted : List ersel)
    (hs : IsSortOf (extract_leaves number) sorted) (h2 : 2 ≤ sorted.length)
    (htot : (∑ b ∈ Finset.range 256, number b) < 2 ^ 63) (j : Nat)
    (hj : j < sorted.length - 1) :
    ∃ s s1, merge_loop sorted.length j
        { array := sorted, min1 := 0, min2 := 1, notleaf := sorted.length, isleaf := 2 } =
          some s ∧
      s.array.length = sorted.length + j ∧
      s.min1 ≠ s.min2 ∧ s.min1 < s.array.length ∧ s.min2 < s.array.length ∧
      ¬ has_parent s.array s.min1 ∧ ¬ has_parent s.array s.min2 ∧
      num s.array s.min1 ≤ num s.array s.min2 ∧
      (∀ k, k < s.array.length → ¬ has_parent s.array k → k ≠ s.min1 → k ≠ s.min2 →
        num s.array s.min2 ≤ num s.array k) ∧
      combine s = some s1 ∧
      (∃ e, s1.array[s.array.length]? = some e ∧ e.left = some s.min1 ∧
        e.right = some s.min2 ∧ e.number = num s.array s.min1 + num s.array s.min2) ∧
      ∀ i k, sorted.length ≤ i → i ≤ k → k < s1.array.length →
        num s1.array i ≤ num s1.array k := by
  have hn : sorted.length ≤ 256 := by rw [hs.length_eq]; exact letter_count_le _
  have htot' : ((List.range sorted.length).map (num sorted)).sum < 2 ^ 63 := by
    rw [hs.total_eq]
    have : weighted_length number (fun _ => 1) = ∑ b ∈ Finset.range 256, number b := by
      simp [weighted_length]
    rw [this]
    exact_mod_cast htot
  obtain ⟨s, hms, hlen, hinv, hw, hpar⟩ := head_trace h2 hn
    (fun e he => ⟨(hs.mem he).1, (hs.mem he).2.1⟩)
    (fun e he => by rw [(hs.mem he).2.2.2.2]; exact Int.natCast_nonneg _)
    hs.pairwise_le htot' j (by omega)
  obtain ⟨s1, hc, -, -, -⟩ := combine_inv hinv hn
  obtain ⟨hw1, hnew, -⟩ := combine_w hinv hw hc
  obtain ⟨_, _, _, _, _, _, e, he, hel, her, hm1, hm2, _⟩ := combine_some hc
  have hnd := hinv.forest.roots_nodup
  simp only [List.cons_append, List.nil_append] at hnd
  rw [List.nodup_cons] at hnd
  have hne : s.min1 ≠ s.min2 := fun h => hnd.1 (by rw [h]; exact List.mem_cons_self _ _)
  refine ⟨s, s1, hms, hlen, hne, hm1, hm2, hpar _ (List.mem_cons_self _ _),
    hpar _ (List.mem_cons_of_mem _ (List.mem_cons_self _ _)), hw.min_le, ?_, hc,
    ⟨e, he, hel, her, ?_⟩, hw1.base.inner_sorted⟩
  · intro k hk hpk hk1 hk2
    have hmem := forest_parentless hinv.forest hk hpk
    simp only [List.cons_append, List.nil_append, List.mem_cons] at hmem
    rcases hmem with h | h | h
    · exact absurd h hk1
    · exact absurd h hk2
    · exact hw.min2_le k h
  · rw [← num_of_get he]
    exact hnew

/-- Witness of `two_minima_per_step`: the second iteration for the histogram `A:3, B:2, C:1`,
which combines the internal node of frequency 3 and the leaf `A`. -/
theorem two_minima_per_step_witness :
    IsSortOf (extract_leaves hist_ABC) (sort_array (extract_leaves hist_ABC)) ∧
    2 ≤ (sort_array (extract_leaves hist_ABC)).length ∧
    (∑ b ∈ Finset.range 256, hist_ABC b) < 2 ^ 63 ∧
    1 < (sort_array (extract_leaves hist_ABC)).length - 1 ∧
    ∃ s s1, merge_loop (sort_array (extract_leaves hist_ABC)).length 1
        { array := sort_array (extract_leaves hist_ABC), min1 := 0, min2 := 1,
          notleaf := (sort_array (extract_leaves hist_ABC)).length, isleaf := 2 } = some s ∧
      s.array.length = (sort_array (extract_leaves hist_ABC)).length + 1 ∧
      s.min1 ≠ s.min2 ∧ s.min1 < s.array.length ∧ s.min2 < s.array.length ∧
      ¬ has_parent s.array s.min1 ∧ ¬ has_parent s.array s.min2 ∧
      num s.array s.min1 ≤ num s.array s.min2 ∧
      (∀ k, k < s.array.length → ¬ has_parent s.array k → k ≠ s.min1 → k ≠ s.min2 →
        num s.array s.min2 ≤ num s.array k) ∧
      combine s = some s1 ∧
      (∃ e, s1.array[s.array.length]? = some e ∧ e.left = some s.min1 ∧
        e.right = some s.min2 ∧ e.number = num s.array s.min1 + num s.array s.min2) ∧
      ∀ i k, (sort_array (extract_leaves hist_ABC)).length ≤ i → i ≤ k →
        k < s1.array.length → num s1.array i ≤ num s1.array k :=
  ⟨sort_array_isSortOf _, by decide, by decide, by decide,
    two_minima_per_step hist_ABC _ (sort_array_isSortOf _) (by decide) (by decide) 1
      (by decide)⟩

/-! ## The merge of the thread buffers -/

/-- C24 (buffer merge loses nothing).  For every list of thread buffers, whatever their sizes,
the bytes written by the merge loop and the final flush of `write_buffer` are exactly the
buffers one after the other in thread order; the same holds after every iteration for the bytes
already written followed by the content of `write_buffer`, and the number of bytes written is
the sum of the buffer sizes. -/
theorem buffer_merge_lossless (buffers : List (List Nat)) :
    merge_buffers buffers = buffers.flatten ∧
    (∀ k, ((buffers.take k).foldl merge_one ([], [])).1 ++
        ((buffers.take k).foldl merge_one ([], [])).2 = (buffers.take k).flatten) ∧
    (merge_buffers buffers).length = (buffers.map List.length).sum := by
  refine ⟨merge_buffers_eq buffers, ?_, ?_⟩
  · intro k
    have h := foldl_merge_one (buffers.take k) ([], [])
    simpa using h
  · rw [merge_buffers_eq, List.length_flatten]

/-! ## Lazy emission of bytes -/

theorem length_stream (c : BitCursor) :
    (stream c).length = 8 * c.out.length + c.current_bit_count := by
  simp only [stream, List.length_append, length_bytes_to_bits, length_bits_of_nat]

theorem table_01_binary : ∀ b, ∀ ch ∈ table_01 b, ch = '0' ∨ ch = '1' := by
  intro b ch hch
  unfold table_01 at hch
  by_cases hb : b = 98
  · rw [if_pos hb] at hch
    simp only [List.mem_singleton] at hch
    exact Or.inl hch
  · rw [if_neg hb] at hch
    simp only [List.mem_cons, List.mem_singleton, List.not_mem_nil, or_false] at hch
    tauto

/-- After at least one bit, a lazy writer holds between one and eight pending bits. -/
theorem appends_pending {c c' : BitCursor} {bits : List Bool} (h : Appends c c' bits)
    (hne : bits ≠ []) : Pending c c' bits.length := by
  have h1 := congrArg List.length h.stream_eq
  rw [List.length_append, length_stream, length_stream] at h1
  have h2 := h.valid.1
  have h3 := h.pos (Or.inr hne)
  have h4 : 1 ≤ bits.length := List.length_pos.2 hne
  obtain ⟨rec, hrec⟩ := h.out_ext
  have h5 : c'.out.length = c.out.length + rec.length := by rw [hrec, List.length_append]
  unfold Pending
  omega

/-- C21 (eager byte emission), the run of the program.  `write_from_uChar` on the empty cursor
returns with eight pending bits and nothing emitted: the completed byte `A` is still in
`current_byte`.  It is emitted only when the next bit is written. -/
theorem completed_byte_pending :
    write_from_uChar 65 empty_cursor =
      { current_byte := 65, current_bit_count := 8, out := [] } ∧
    shift_in (flush_full (write_from_uChar 65 empty_cursor)) 1 =
      { current_byte := 1, current_bit_count := 1, out := [65] } := by
  constructor <;> rfl

/-- C21 (eager byte emission), amended.  A byte is emitted only when the next bit arrives.  From
every valid cursor with `k` pending bits, after `write_from_uChar`, `write_file_size`,
`write_file_name`, or `write_the_file_content` with a content that has at least one code bit,
over a table of binary codes, has written `m` bits, the count of pending bits is
`(k + m - 1) % 8 + 1`, between 1 and 8, and `(k + m - 1) / 8` bytes were emitted: a completed
byte stays in `current_byte` with a count of 8.  A marker bit written at a count below 8 follows
the same rule; written at a count of 8 it raises the count to 9. -/
theorem lazy_byte_emission (c : BitCursor) (hc : Valid c) (u size : Nat)
    (str_arr : Nat → List Char) (hcode : ∀ b, ∀ ch ∈ str_arr b, ch = '0' ∨ ch = '1')
    (name content : List Nat) (hbits : (content.flatMap fun b => code_bits (str_arr b)) ≠ [])
    (bit : Nat) (hbit : bit ≤ 1) :
    Pending c (write_from_uChar u c) 8 ∧
    Pending c (write_file_size size c) 64 ∧
    (∃ c', write_file_name name str_arr c = some c' ∧
      Pending c c' (8 + (name.flatMap fun b => code_bits (str_arr b)).length)) ∧
    (∃ c', write_the_file_content content str_arr c = some c' ∧
      Pending c c' (content.flatMap fun b => code_bits (str_arr b)).length) ∧
    (c.current_bit_count < 8 → Pending c (shift_in c bit) 1) ∧
    (c.current_bit_count = 8 → (shift_in c bit).current_bit_count = 9 ∧
      (shift_in c bit).out = c.out) ∧
    ∀ c' m, Pending c c' m → 1 ≤ c'.current_bit_count ∧ c'.current_bit_count ≤ 8 := by
  refine ⟨?_, ?_, ?_, ?_, ?_, ?_, ?_⟩
  · have h := appends_pending (appends_uChar u hc) (by simp [bits_of_nat, List.range_succ])
    rwa [length_bits_of_nat] at h
  · have h := appends_pending (appends_size size hc) (by simp [bits_of_nat, List.range_succ])
    rwa [length_bits_of_nat] at h
  · have h1 := appends_uChar (name.length % 256) hc
    obtain ⟨c', hc', h2⟩ := appends_codes str_arr name (fun b _ => hcode b) _ h1.valid
    refine ⟨c', hc', ?_⟩
    have h := appends_pending (h1.trans h2) (by simp [bits_of_nat, List.range_succ])
    rwa [List.length_append, length_bits_of_nat] at h
  · obtain ⟨c', hc', h2⟩ := appends_codes str_arr content (fun b _ => hcode b) c hc
    exact ⟨c', hc', appends_pending h2 hbits⟩
  · intro hlt
    exact appends_pending (appends_marker hc hlt bit hbit) (by simp)
  · intro h8
    exact ⟨by simp [shift_in, h8], rfl⟩
  · intro c' m h
    unfold Pending at h
    omega

/-- Witness of `lazy_byte_emission`: the empty cursor, the byte `A`, the size 1, the name `b`
and the content `b` with the code `0` for `b`. -/
theorem lazy_byte_emission_witness :
    Valid empty_cursor ∧
    Pending empty_cursor (write_from_uChar 65 empty_cursor) 8 ∧
    (write_from_uChar 65 empty_cursor).current_bit_count = 8 :=
  ⟨valid_empty [],
   (lazy_byte_emission empty_cursor (valid_empty []) 65 1 table_01 table_01_binary [98] [98]
      (by decide) 1 (by decide)).1,
   by rfl⟩

/-! ## The characters of the code strings -/

theorem write_code_some (code : List Char) (hcode : ∀ ch ∈ code, ch = '0' ∨ ch = '1') :
    ∀ c, ∃ c', write_code code c = some c' := by
  induction code with
  | nil => exact fun c => ⟨c, rfl⟩
  | cons ch rest ih =>
    intro c
    have hrest : ∀ x ∈ rest, x = '0' ∨ x = '1' := fun x hx => hcode x (List.mem_cons_of_mem _ hx)
    rcases hcode ch (List.mem_cons_self _ _) with h | h
    · subst h
      have e : write_code ('0' :: rest) c = write_code rest (shift_zero (flush_full c)) := by
        simp [write_code]
      rw [e]
      exact ih hrest _
    · subst h
      have e : write_code ('1' :: rest) c = write_code rest (shift_one (flush_full c)) := by
        simp [write_code]
      rw [e]
      exact ih hrest _

theorem write_codes_some (str_arr : Nat → List Char)
    (hcode : ∀ b, ∀ ch ∈ str_arr b, ch = '0' ∨ ch = '1') (bytes : List Nat) :
    ∀ c, ∃ c', write_codes bytes str_arr c = some c' := by
  induction bytes with
  | nil => exact fun c => ⟨c, rfl⟩
  | cons x xs ih =>
    intro c
    obtain ⟨c1, h1⟩ := write_code_some (str_arr x) (hcode x) c
    obtain ⟨c2, h2⟩ := ih c1
    exact ⟨c2, by simp only [write_codes, h1, Option.some_bind, h2]⟩

theorem write_code_table_some (l : List ersel)
    (hbits : ∀ e ∈ l, ∀ ch ∈ e.bit, ch = '0' ∨ ch = '1') :
    ∀ (f : Nat → List Char) (c : BitCursor),
      ∃ c', write_code_table l f c = some (fill_str_arr l f, c') := by
  induction l with
  | nil => exact fun f c => ⟨c, rfl⟩
  | cons e es ih =>
    intro f c
    obtain ⟨c3, hc3⟩ := write_code_some e.bit (hbits e (List.mem_cons_self _ _))
      (write_from_uChar (e.bit.length % 256) (write_from_uChar e.character c))
    obtain ⟨c4, hc4⟩ := ih (fun x hx => hbits x (List.mem_cons_of_mem _ hx))
      (Function.update f e.character e.bit) c3
    refine ⟨c4, ?_⟩
    simp only [write_code_table, hc3]
    rw [hc4]
    rfl

mutual
theorem write_entry_some (str_arr : Nat → List Char)
    (hcode : ∀ b, ∀ ch ∈ str_arr b, ch = '0' ∨ ch = '1') :
    ∀ (e : Entry) (c : BitCursor), ∃ c', write_entry e str_arr c = some c'
  | .file d_name content, c => by
    simp only [write_entry]
    by_cases hd : is_dot d_name = true
    · exact ⟨c, by simp [hd]⟩
    · obtain ⟨c1, h1⟩ := write_codes_some str_arr hcode d_name
        (write_from_uChar (d_name.length % 256) (write_file_size content.length (shift_one c)))
      obtain ⟨c2, h2⟩ := write_codes_some str_arr hcode content c1
      exact ⟨c2, by simp [hd, write_file_name, write_the_file_content, h1, h2]⟩
  | .folder d_name entries, c => by
    simp only [write_entry]
    by_cases hd : is_dot d_name = true
    · exact ⟨c, by simp [hd]⟩
    · obtain ⟨c1, h1⟩ := write_codes_some str_arr hcode d_name
        (write_from_uChar (d_name.length % 256) (shift_zero c))
      obtain ⟨c2, h2⟩ := write_entries_some str_arr hcode entries
        (write_from_uChar (count_entries entries / 256 % 256)
          (write_from_uChar (count_entries entries % 256) c1))
      exact ⟨c2, by simp [hd, write_file_name, h1, h2]⟩
theorem write_entries_some (str_arr : Nat → List Char)
    (hcode : ∀ b, ∀ ch ∈ str_arr b, ch = '0' ∨ ch = '1') :
    ∀ (es : List Entry) (c : BitCursor), ∃ c', write_entries es str_arr c = some c'
  | [], c => ⟨c, by simp [write_entries]⟩
  | e :: es, c => by
    obtain ⟨c1, h1⟩ := write_entry_some str_arr hcode e c
    obtain ⟨c2, h2⟩ := write_entries_some str_arr hcode es c1
    exact ⟨c2, by simp [write_entries, h1, h2]⟩
end

/-! ### Every string the builder stores is binary -/

theorem bit_extract_leaves {number : Nat → Nat} {e : ersel} (h : e ∈ extract_leaves number) :
    e.bit = [] := by
  simp only [extract_leaves, List.mem_map, List.mem_filter, List.mem_range] at h
  obtain ⟨i, -, rfl⟩ := h
  rfl

theorem combine_bin {s s' : BuildState} (h : combine s = some s')
    (hb : ∀ e ∈ s.array, ∀ ch ∈ e.bit, ch = '0' ∨ ch = '1') :
    ∀ e ∈ s'.array, ∀ ch ∈ e.bit, ch = '0' ∨ ch = '1' := by
  unfold combine at h
  cases h1 : s.array[s.min1]? with
  | none => simp [h1] at h
  | some e1 =>
    cases h2 : s.array[s.min2]? with
    | none => simp [h1, h2] at h
    | some e2 =>
      rw [h1, h2] at h
      dsimp only at h
      split at h
      · cases h
        intro e he ch hch
        obtain ⟨j, hj, hje⟩ := List.getElem_of_mem he
        have hget := List.getElem?_eq_getElem hj
        rw [hje] at hget
        dsimp only at hget
        rw [List.getElem?_modify, List.getElem?_modify] at hget
        cases hx : (s.array ++
            [({ left := some s.min1, right := some s.min2,
                number := wrapLong (e1.number + e2.number), character := 0,
                bit := [] } : ersel)])[j]? with
        | none => rw [hx] at hget; cases hget
        | some x =>
          rw [hx] at hget
          have hxb : ∀ ch ∈ x.bit, ch = '0' ∨ ch = '1' := by
            have hxm := List.getElem?_mem hx
            rcases List.mem_append.1 hxm with hm | hm
            · exact hb x hm
            · simp only [List.mem_singleton] at hm
              rw [hm]
              intro ch hch
              cases hch
          simp only [Option.map_eq_map, Option.map_some', Option.some.injEq] at hget
          subst hget
          by_cases c2 : s.min2 = j <;> by_cases c1 : s.min1 = j <;>
            simp only [c1, c2, if_true, if_false] at hch
          · simp only [List.mem_singleton] at hch; exact Or.inl hch
          · simp only [List.mem_singleton] at hch; exact Or.inl hch
          · simp only [List.mem_singleton] at hch; exact Or.inr hch
          · exact hxb ch hch
      · cases h

theorem merge_loop_bin (n : Nat) : ∀ (k : Nat) (s s' : BuildState),
    merge_loop n k s = some s' → (∀ e ∈ s.array, ∀ ch ∈ e.bit, ch = '0' ∨ ch = '1') →
    ∀ e ∈ s'.array, ∀ ch ∈ e.bit, ch = '0' ∨ ch = '1' := by
  intro k
  induction k with
  | zero =>
    intro s s' h hb
    simp only [merge_loop, Option.some.injEq] at h
    rw [← h]
    exact hb
  | succ k ih =>
    intro s s' h hb
    rw [merge_loop] at h
    cases hm : merge_step n s with
    | none => rw [hm] at h; cases h
    | some s3 =>
      rw [hm] at h
      simp only [Option.some_bind] at h
      apply ih s3 s' h
      unfold merge_step at hm
      cases hc : combine s with
      | none => rw [hc] at hm; cases hm
      | some s1 =>
        rw [hc] at hm
        simp only [Option.some_bind] at hm
        cases h1 : select_min1 n s1 with
        | none => rw [h1] at hm; cases hm
        | some s2 =>
          rw [h1] at hm
          simp only [Option.some_bind] at hm
          rw [(select_min2_some hm).1, (select_min1_some h1).1]
          exact combine_bin hc hb

theorem assign_codes_bin : ∀ (fuel : Nat) (a : List ersel) (i : Option Nat) (code : List Char)
    (a' : List ersel), assign_codes fuel a i code = some a' →
    (∀ e ∈ a, ∀ ch ∈ e.bit, ch = '0' ∨ ch = '1') → (∀ ch ∈ code, ch = '0' ∨ ch = '1') →
    ∀ e ∈ a', ∀ ch ∈ e.bit, ch = '0' ∨ ch = '1' := by
  intro fuel
  induction fuel with
  | zero =>
    intro a i code a' h hb _
    cases i with
    | none =>
      rw [assign_codes_none] at h
      cases h
      exact hb
    | some i => simp [assign_codes] at h
  | succ f ih =>
    intro a i code a' h hb hcode
    cases i with
    | none =>
      rw [assign_codes_none] at h
      cases h
      exact hb
    | some i =>
      cases he : a[i]? with
      | none => simp [assign_codes, he] at h
      | some e =>
        rw [assign_codes_succ f a i code e he] at h
        have hset : ∀ x ∈ a.set i { e with bit := code }, ∀ ch ∈ x.bit, ch = '0' ∨ ch = '1' := by
          intro x hx
          rcases List.mem_or_eq_of_mem_set hx with hm | hm
          · exact hb x hm
          · rw [hm]; exact hcode
        have hc1 : ∀ ch ∈ code ++ ['1'], ch = '0' ∨ ch = '1' := by
          intro ch hch
          rcases List.mem_append.1 hch with hm | hm
          · exact hcode ch hm
          · simp only [List.mem_singleton] at hm; exact Or.inr hm
        have hc0 : ∀ ch ∈ code ++ ['0'], ch = '0' ∨ ch = '1' := by
          intro ch hch
          rcases List.mem_append.1 hch with hm | hm
          · exact hcode ch hm
          · simp only [List.mem_singleton] at hm; exact Or.inl hm
        cases h1 : assign_codes f (a.set i { e with bit := code }) e.left (code ++ ['1']) with
        | none => rw [h1] at h; cases h
        | some a1 =>
          rw [h1] at h
          dsimp only at h
          have hb1 := ih _ _ _ _ h1 hset hc1
          cases h2 : a1[i]? with
          | none => rw [h2] at h; cases h
          | some e1 =>
            rw [h2] at h
            exact ih _ _ _ _ h hb1 hc0

theorem build_tree_bin {sorted a : List ersel} {root : Nat}
    (h : build_tree sorted = some (a, root)) (hb : ∀ e ∈ sorted, e.bit = []) :
    ∀ e ∈ a, ∀ ch ∈ e.bit, ch = '0' ∨ ch = '1' := by
  unfold build_tree at h
  dsimp only at h
  cases hm : merge_loop sorted.length (sorted.length - 1)
      { array := sorted, min1 := 0, min2 := 1, notleaf := sorted.length, isleaf := 2 } with
  | none => rw [hm] at h; cases h
  | some s =>
    rw [hm] at h
    dsimp only at h
    have hs := merge_loop_bin _ _ _ _ hm (fun e he ch hch => by
      rw [hb e he] at hch
      cases hch)
    split at h
    · cases h
    · cases ha : assign_codes 512 s.array (some (s.array.length - 1)) [] with
      | none => rw [ha] at h; cases h
      | some a1 =>
        rw [ha] at h
        simp only [Option.some.injEq, Prod.mk.injEq] at h
        rw [← h.1]
        exact assign_codes_bin _ _ _ _ _ ha hs (fun ch hch => by cases hch)

/-- C22 (the error branch of the bit-packing switch is unreachable).  For every histogram with
at least one byte and every result of the sort, the builder succeeds and every string it stores
in a node, leaf or internal, consists of the characters `0` and `1`; so does every entry of the
table `str_arr`, the entries of absent bytes being empty; hence from every cursor the code table
loop, `write_file_name`, `write_the_file_content` and `write_the_folder` return without taking
the `default:` branch, for every name, content and folder. -/
theorem encoder_bug_unreachable (number : Nat → Nat) (sorted : List ersel)
    (hs : IsSortOf (extract_leaves number) sorted) (hpos : ∃ b, b < 256 ∧ 0 < number b) :
    ∃ array root str_arr,
      build_tree sorted = some (array, root) ∧
      code_table sorted = some str_arr ∧
      (∀ e ∈ array, ∀ ch ∈ e.bit, ch = '0' ∨ ch = '1') ∧
      (∀ b, ∀ ch ∈ str_arr b, ch = '0' ∨ ch = '1') ∧
      (∀ c, ∃ c', write_code_table (array.take sorted.length) (fun _ => []) c =
        some (str_arr, c')) ∧
      (∀ name c, ∃ c', write_file_name name str_arr c = some c') ∧
      (∀ content c, ∃ c', write_the_file_content content str_arr c = some c') ∧
      (∀ entries c, ∃ c', write_the_folder entries str_arr c = some c') := by
  obtain ⟨str_arr, a, t, hbuild, htab, hdef, -, -, hfacts⟩ := code_table_spec hs hpos
  have hbin := build_tree_bin hbuild (fun e he => bit_extract_leaves (hs.1.subset he))
  have hcode : ∀ b, ∀ ch ∈ str_arr b, ch = '0' ∨ ch = '1' := hfacts.bits
  refine ⟨a, _, str_arr, hbuild, htab, hbin, hcode, ?_, ?_, ?_, ?_⟩
  · intro c
    obtain ⟨c', hc'⟩ := write_code_table_some (a.take sorted.length)
      (fun e he => hbin e (List.mem_of_mem_take he)) (fun _ => []) c
    exact ⟨c', by rw [hc', hdef]⟩
  · intro name c
    exact write_codes_some str_arr hcode name _
  · intro content c
    exact write_codes_some str_arr hcode content c
  · intro entries c
    exact write_entries_some str_arr hcode entries _

/-- Witness of `encoder_bug_unreachable`: the histogram `{A:3, B:2, C:1}`. -/
theorem encoder_bug_unreachable_witness :
    IsSortOf (extract_leaves hist_ABC) (sort_array (extract_leaves hist_ABC)) ∧
    (∃ b, b < 256 ∧ 0 < hist_ABC b) ∧
    ∃ array root str_arr,
      build_tree (sort_array (extract_leaves hist_ABC)) = some (array, root) ∧
      code_table (sort_array (extract_leaves hist_ABC)) = some str_arr ∧
      (∀ e ∈ array, ∀ ch ∈ e.bit, ch = '0' ∨ ch = '1') ∧
      (∀ b, ∀ ch ∈ str_arr b, ch = '0' ∨ ch = '1') ∧
      (∀ c, ∃ c', write_code_table
        (array.take (sort_array (extract_leaves hist_ABC)).length) (fun _ => []) c =
          some (str_arr, c')) ∧
      (∀ name c, ∃ c', write_file_name name str_arr c = some c') ∧
      (∀ content c, ∃ c', write_the_file_content content str_arr c = some c') ∧
      (∀ entries c, ∃ c', write_the_folder entries str_arr c = some c') :=
  ⟨sort_array_isSortOf _, ⟨65, by decide, by decide⟩,
    encoder_bug_unreachable hist_ABC _ (sort_array_isSortOf _) ⟨65, by decide, by decide⟩⟩

/-! ## Index safety of the builder -/

/-- One iteration of the merge loop from a head state that satisfies the invariant: the three
steps succeed, and the states between them satisfy the invariant again. -/
theorem inv_step {sorted : List ersel} {s : BuildState} (hn : sorted.length ≤ 256)
    (hinv : Inv sorted [s.min1, s.min2] s) (hlen : s.array.length + 2 ≤ 2 * sorted.length) :
    ∃ s1 s2 s3, combine s = some s1 ∧ select_min1 sorted.length s1 = some s2 ∧
      select_min2 sorted.length s2 = some s3 ∧ merge_step sorted.length s = some s3 ∧
      s1.array.length = s.array.length + 1 ∧ s2.array = s1.array ∧ s3.array = s1.array ∧
      Inv sorted [] s1 ∧ s1.notleaf < s1.array.length ∧ Inv sorted [s2.min1] s2 ∧
      (s.array.length + 3 ≤ 2 * sorted.length → Inv sorted [s3.min1, s3.min2] s3) := by
  obtain ⟨s1, hc, h1, hnl, hl1⟩ := combine_inv hinv hn
  obtain ⟨s2, hs2, h2, ha2⟩ := select_min1_inv h1 hnl
  have hcount := h2.count
  rw [ha2, hl1] at hcount
  simp only [List.length_cons, List.length_nil] at hcount
  by_cases hq : 1 ≤ (queued sorted.length s2).length
  · obtain ⟨s3, hs3, h3, ha3⟩ := select_min2_inv h2 hq
    refine ⟨s1, s2, s3, hc, hs2, hs3, ?_, hl1, ha2, ha3.trans ha2, h1, hnl, h2, fun _ => h3⟩
    simp only [merge_step, hc, Option.some_bind, hs2, hs3]
  · obtain ⟨s3, hs3, ha3⟩ := @select_min2_last sorted s2 (by omega)
    refine ⟨s1, s2, s3, hc, hs2, hs3, ?_, hl1, ha2, ha3.trans ha2, h1, hnl, h2, ?_⟩
    · simp only [merge_step, hc, Option.some_bind, hs2, hs3]
    · intro h3
      omega

/-- The head state of every iteration satisfies the invariant. -/
theorem inv_trace {sorted : List ersel} (h2 : 2 ≤ sorted.length) (hn : sorted.length ≤ 256)
    (hleaf : ∀ e ∈ sorted, e.left = none ∧ e.right = none) :
    ∀ j, j + 2 ≤ sorted.length →
      ∃ s, merge_loop sorted.length j
          { array := sorted, min1 := 0, min2 := 1, notleaf := sorted.length, isleaf := 2 } =
            some s ∧
        s.array.length = sorted.length + j ∧ Inv sorted [s.min1, s.min2] s := by
  intro j
  induction j with
  | zero => exact fun _ => ⟨_, rfl, rfl, init_inv h2 hleaf⟩
  | succ j ih =>
    intro hj
    obtain ⟨s, hs, hlen, hinv⟩ := ih (by omega)
    obtain ⟨s1, s2, s3, _, _, _, hstep, hl1, _, ha3, _, _, _, h3⟩ :=
      inv_step hn hinv (by rw [hlen]; omega)
    refine ⟨s3, ?_, ?_, h3 (by rw [hlen]; omega)⟩
    · rw [merge_loop_succ_end, hs]
      exact hstep
    · rw [ha3, hl1, hlen]
      omega

/-- C23 (builder index safety).  For every histogram with `n ≥ 1` bytes and every result of the
sort: `n ≤ 256`; every iteration of the merge loop is reached and completes; the nodes `min1`
and `min2` it combines are written nodes and the new node is written below the capacity 512;
every node whose `number` is read by the two selections is a sorted leaf (index below `n`) or an
internal node already written; the pointers chosen for the next iteration stay below 512; after
the `n - 1` iterations the array holds `2n - 1` nodes, that is `n - 1` internal nodes, and the
root `current - 1` is node `2n - 2`. -/
theorem builder_index_safety (number : Nat → Nat) (sorted : List ersel)
    (hs : IsSortOf (extract_leaves number) sorted) (h1 : 1 ≤ sorted.length) :
    sorted.length ≤ 256 ∧
    (∀ j, j < sorted.length - 1 → ∃ s s1 s2 s3,
      merge_loop sorted.length j
        { array := sorted, min1 := 0, min2 := 1, notleaf := sorted.length, isleaf := 2 } =
          some s ∧
      s.array.length = sorted.length + j ∧
      s.min1 < s.array.length ∧ s.min2 < s.array.length ∧ s.array.length < 512 ∧
      combine s = some s1 ∧ s1.array.length = sorted.length + j + 1 ∧
      select_min1 sorted.length s1 = some s2 ∧ s2.array = s1.array ∧
      select_min2 sorted.length s2 = some s3 ∧ s3.array = s1.array ∧
      merge_loop sorted.length (j + 1)
        { array := sorted, min1 := 0, min2 := 1, notleaf := sorted.length, isleaf := 2 } =
          some s3 ∧
      (∀ i ∈ reads_min1 sorted.length s1,
        i < sorted.length ∨ (sorted.length ≤ i ∧ i < s1.array.length)) ∧
      (∀ i ∈ reads_min2 sorted.length s2,
        i < sorted.length ∨ (sorted.length ≤ i ∧ i < s2.array.length)) ∧
      s3.min1 < 512 ∧ s3.min2 < 512 ∧ s3.isleaf ≤ sorted.length ∧ s3.notleaf ≤ 512) ∧
    ∃ s' a, merge_loop sorted.length (sorted.length - 1)
        { array := sorted, min1 := 0, min2 := 1, notleaf := sorted.length, isleaf := 2 } =
          some s' ∧
      s'.array.length = sorted.length + (sorted.length - 1) ∧
      build_tree sorted = some (a, 2 * sorted.length - 2) ∧
      a.length = 2 * sorted.length - 1 ∧
      s'.array.length - 1 = 2 * sorted.length - 2 := by
  have hn : sorted.length ≤ 256 := by rw [hs.length_eq]; exact letter_count_le _
  have hleaf : ∀ e ∈ sorted, e.left = none ∧ e.right = none :=
    fun e he => ⟨(hs.mem he).1, (hs.mem he).2.1⟩
  refine ⟨hn, ?_, ?_⟩
  · intro j hj
    obtain ⟨s, hms, hlen, hinv⟩ := inv_trace (by omega) hn hleaf j (by omega)
    obtain ⟨s1, s2, s3, hc, hs2, hs3, hstep, hl1, ha2, ha3, hi1, hnl, hi2, _⟩ :=
      inv_step hn hinv (by rw [hlen]; omega)
    obtain ⟨_, _, hlt, _⟩ := hinv.forest
    simp only [List.cons_append, List.nil_append] at hlt
    obtain ⟨_, _, hlt2, _⟩ := hi2.forest
    simp only [List.cons_append, List.nil_append] at hlt2
    have hm1 : s2.min1 < s2.array.length := hlt2 _ (List.mem_cons_self _ _)
    have hl2 : s2.array.length = sorted.length + j + 1 := by rw [ha2, hl1, hlen]
    obtain ⟨_, hm13, hcase⟩ := select_min2_some hs3
    have hle2 := hi2.notleaf_le
    have hil2 := hi2.isleaf_le
    refine ⟨s, s1, s2, s3, hms, hlen, hlt _ (by simp), hlt _ (by simp), by omega, hc,
      by rw [hl1, hlen], hs2, ha2, hs3, ha3, ?_, ?_, ?_, by omega, ?_, ?_, ?_⟩
    · rw [merge_loop_succ_end, hms]
      exact hstep
    · intro i hi
      unfold reads_min1 at hi
      by_cases hg : s1.isleaf ≥ sorted.length
      · rw [if_pos hg] at hi
        cases hi
      · rw [if_neg hg] at hi
        simp only [List.mem_cons, List.mem_singleton, List.not_mem_nil, or_false] at hi
        have := hi1.notleaf_ge
        rcases hi with h | h
        · left; omega
        · right; omega
    · intro i hi
      unfold reads_min2 at hi
      by_cases hg : s2.isleaf ≥ sorted.length
      · rw [if_pos hg] at hi
        cases hi
      · rw [if_neg hg] at hi
        by_cases hg2 : s2.notleaf ≥ s2.array.length
        · rw [if_pos hg2] at hi
          cases hi
        · rw [if_neg hg2] at hi
          simp only [List.mem_cons, List.mem_singleton, List.not_mem_nil, or_false] at hi
          have := hi2.notleaf_ge
          rcases hi with h | h
          · left; omega
          · right; omega
    · rcases hcase with ⟨h, _, _, h', _⟩ | ⟨h, _, _, _⟩ <;> omega
    · rcases hcase with ⟨_, h, _, h', _⟩ | ⟨_, _, h, _⟩ <;> omega
    · rcases hcase with ⟨_, _, h, _, _⟩ | ⟨_, h, _, _⟩ <;> omega
  · obtain ⟨a, t, hbuild, hlen, _, _, _, _, _, _, s', hs', hstrip⟩ :=
      build_tree_spec h1 hn hleaf
    have hlen' : s'.array.length = a.length := by
      have h1' := hstrip a.length
      have h2' := hstrip s'.array.length
      rw [List.getElem?_eq_none (le_refl _)] at h1'
      rw [List.getElem?_eq_none (le_refl s'.array.length)] at h2'
      simp only [Option.map_none'] at h1' h2'
      have h3 : s'.array[a.length]? = none := Option.map_eq_none'.1 h1'.symm
      have h4 : a[s'.array.length]? = none := Option.map_eq_none'.1 h2'
      have h5 := List.getElem?_eq_none_iff.1 h3
      have h6 := List.getElem?_eq_none_iff.1 h4
      omega
    exact ⟨s', a, hs', by omega, hbuild, by omega, by omega⟩

/-- Witness of `builder_index_safety`: the histogram `{A:3, B:2, C:1}`. -/
theorem builder_index_safety_witness :
    IsSortOf (extract_leaves hist_ABC) (sort_array (extract_leaves hist_ABC)) ∧
    1 ≤ (sort_array (extract_leaves hist_ABC)).length ∧
    ∃ s' a, merge_loop (sort_array (extract_leaves hist_ABC)).length
        ((sort_array (extract_leaves hist_ABC)).length - 1)
        { array := sort_array (extract_leaves hist_ABC), min1 := 0, min2 := 1,
          notleaf := (sort_array (extract_leaves hist_ABC)).length, isleaf := 2 } = some s' ∧
      s'.array.length = (sort_array (extract_leaves hist_ABC)).length +
        ((sort_array (extract_leaves hist_ABC)).length - 1) ∧
      build_tree (sort_array (extract_leaves hist_ABC)) =
        some (a, 2 * (sort_array (extract_leaves hist_ABC)).length - 2) ∧
      a.length = 2 * (sort_array (extract_leaves hist_ABC)).length - 1 ∧
      s'.array.length - 1 = 2 * (sort_array (extract_leaves hist_ABC)).length - 2 :=
  ⟨sort_array_isSortOf _, by decide,
    (builder_index_safety hist_ABC _ (sort_array_isSortOf _) (by decide)).2.2⟩

end Huffman
